import Mathlib

/-! A streaming JSON reader and writer (`jsonreader.h`, `jsonwriter.h`).

Shallow embedding of the two classes `JsonReader` and `JsonWriter`.

* A `char` is a natural number (its byte value); the code only compares and
  copies characters, so no character arithmetic is involved.
* A `std::string` / `std::vector<char>` is a `List Nat`.
* The reader borrows the buffer `[_pszBegin, _pszEnd)`; it is the field `blob`
  and the cursor `_pszCur` is kept as an offset from `_pszBegin`.
* `assert(false)` halts the program.  A halt is the `Except.error` result; the
  value it carries says which assertion fired, naming the sites the way the
  specification's error section does, and the offset of the byte that was read
  last.  Calling `top()` on an empty `std::stack` is a halt as well.
-/

namespace Json

/-- Bytes of a text, used to write inputs down readably. -/
def bytes (s : String) : List Nat := s.toList.map Char.toNat

/-! ## Reader: data model -/

/-- `JsonReader::NodeType`. -/
inductive NodeType where
  | None
  | String
  | Int
  | Array
  | EndArray
  | Object
  | EndObject
  deriving DecidableEq, Repr

/-- `JsonReader::ParseState`. -/
inductive ParseState where
  | StartReadName
  | ReadName
  | ReadColon
  | StartReadValue
  | ReadStringValue
  | ReadIntValue
  | EndReadValue
  | StartReadObject
  | StartReadArray
  deriving DecidableEq, Repr

/-- `JsonReader::ParseNode`: a frame of the parse stack (`Type_` is the member `Type`). -/
structure ParseNode where
  Name : List Nat
  Type_ : NodeType
  deriving DecidableEq, Repr

/-- The places where the reader halts. -/
inductive FaultKind where
  /-- One of the `assert(false)` of the state machine in `ReadNext`. -/
  | UnexpectedCharacter
  /-- The `assert(false)` of `ReadUnescape`. -/
  | UnknownEscape
  /-- `_ParseStack.top()` on an empty stack. -/
  | StackUnderflow
  deriving DecidableEq, Repr

/-- A halt of the reader: the site, the offset of the byte read last, and the
parse state in which it was read. -/
structure Fault where
  kind : FaultKind
  offset : Nat
  state : ParseState
  deriving DecidableEq, Repr

/-- The members of `JsonReader`.  `blob` is the borrowed buffer
`[_pszBegin, _pszEnd)` and `_pszCur` the offset of the cursor in it; the top of
`_ParseStack` is the head of the list. -/
structure JsonReader where
  _State : ParseState
  _ParseStack : List ParseNode
  blob : List Nat
  _pszCur : Nat
  _Type : NodeType
  _Name : List Nat
  _Value : List Nat
  _IntValue : Int
  _ReachedEnd : Bool
  _Skip : Bool
  deriving DecidableEq, Repr

/-- `JsonReader::IsWhite`: space and newline. -/
def IsWhite (c : Nat) : Bool := c == 32 || c == 10

/-- The test `c >= '0' && c <= '9'`. -/
def isDigit (c : Nat) : Bool := decide (48 ≤ c) && decide (c ≤ 57)

/-- `JsonReader::PeekChar` on the unread bytes: the next byte, `'\0'` at the end. -/
def PeekChar (unread : List Nat) : Nat := unread.headD 0

/-- The `switch` of `JsonReader::ReadUnescape` on the character `ReadChar`
returned; `none` is the `default:` branch with its `assert(false)`. -/
def ReadUnescape (c : Nat) : Option Nat :=
  if c = 34 then some 34        -- '"'
  else if c = 92 then some 92   -- '\\'
  else if c = 98 then some 8    -- 'b'
  else if c = 102 then some 12  -- 'f'
  else if c = 110 then some 10  -- 'n'
  else if c = 114 then some 13  -- 'r'
  else if c = 116 then some 9   -- 't'
  else none

/-! ### The C runtime's `_atoi64` -/

/-- The `isspace` of the C locale. -/
def isspace (c : Nat) : Bool := c == 32 || (decide (9 ≤ c) && decide (c ≤ 13))

/-- Value of a run of decimal digits, most significant first. -/
def digitsValue (ds : List Nat) : Nat := ds.foldl (fun acc d => 10 * acc + (d - 48)) 0

/-- Saturation to the range of `__int64`. -/
def clampInt64 (v : Int) : Int :=
  if v < -(2 ^ 63 : Int) then -(2 ^ 63 : Int)
  else if v > (2 ^ 63 : Int) - 1 then (2 ^ 63 : Int) - 1
  else v

/-- The C runtime's `_atoi64` (not part of the repository; after its
documentation): leading white space is skipped, an optional sign is read, then
the longest run of decimal digits; the result saturates at the bounds of
`__int64`. -/
def atoi64 (s : List Nat) : Int :=
  let s1 := s.dropWhile isspace
  match s1 with
  | 45 :: t => clampInt64 (-(digitsValue (t.takeWhile isDigit) : Int))
  | 43 :: t => clampInt64 (digitsValue (t.takeWhile isDigit) : Int)
  | _ => clampInt64 (digitsValue (s1.takeWhile isDigit) : Int)

/-! ## Reader: operations -/

/-- The loop `for(;;)` of `JsonReader::ReadNext`.  The first argument is the
unread part `[_pszCur, _pszEnd)` of the buffer: `ReadChar` takes its head and
advances `_pszCur`, and returns `'\0'` without moving when it is empty.  The
result is the value of `ret` at the `break` with the state of the reader.

The reader is taken apart into its members, in the order of the structure:
`st` = `_State`, `stk` = `_ParseStack`, `blob`, `cur` = `_pszCur`, `ty` = `_Type`,
`nm` = `_Name`, `val` = `_Value`, `iv` = `_IntValue`, `re` = `_ReachedEnd`,
`sk` = `_Skip`. -/
def ReadLoop : List Nat → JsonReader → Except Fault (Bool × JsonReader)
  | [], r => .ok (false, r)
  | c :: rest, ⟨st, stk, blob, cur, ty, nm, val, iv, re, sk⟩ =>
    if c = 0 then .ok (false, ⟨st, stk, blob, cur + 1, ty, nm, val, iv, re, sk⟩)
    else match st with
    | .StartReadName =>
      if IsWhite c then ReadLoop rest ⟨st, stk, blob, cur + 1, ty, nm, val, iv, re, sk⟩
      else if c = 34 then
        ReadLoop rest ⟨.ReadName, stk, blob, cur + 1, ty, nm, val, iv, re, sk⟩
      else .error ⟨.UnexpectedCharacter, cur, .StartReadName⟩
    | .ReadName =>
      if c ≠ 34 then
        ReadLoop rest ⟨st, stk, blob, cur + 1, ty, nm ++ [c], val, iv, re, sk⟩
      else ReadLoop rest ⟨.ReadColon, stk, blob, cur + 1, ty, nm, val, iv, re, sk⟩
    | .ReadColon =>
      if IsWhite c then ReadLoop rest ⟨st, stk, blob, cur + 1, ty, nm, val, iv, re, sk⟩
      else if c = 58 then
        ReadLoop rest ⟨.StartReadValue, stk, blob, cur + 1, ty, nm, val, iv, re, sk⟩
      else .error ⟨.UnexpectedCharacter, cur, .ReadColon⟩
    | .StartReadValue =>
      if IsWhite c then ReadLoop rest ⟨st, stk, blob, cur + 1, ty, nm, val, iv, re, sk⟩
      else if c = 34 then
        ReadLoop rest ⟨.ReadStringValue, stk, blob, cur + 1, .String, nm, val, iv, re, sk⟩
      else if c = 91 then
        .ok (true, ⟨.StartReadValue, ⟨nm, .Array⟩ :: stk, blob, cur + 1, .Array,
                    nm, val, iv, re, sk⟩)
      else if c = 123 then
        .ok (true, ⟨.StartReadName, ⟨nm, .Object⟩ :: stk, blob, cur + 1, .Object,
                    nm, val, iv, re, sk⟩)
      else if isDigit c || c = 45 then
        if !(isDigit (PeekChar rest)) then
          .ok (true, ⟨.EndReadValue, stk, blob, cur + 1, .Int, nm, val ++ [c],
                      atoi64 (val ++ [c]), re, sk⟩)
        else
          ReadLoop rest ⟨.ReadIntValue, stk, blob, cur + 1, .Int, nm, val ++ [c], iv, re, sk⟩
      else if c = 93 then
        match stk with
        | [] => .error ⟨.StackUnderflow, cur, .StartReadValue⟩
        | top :: below =>
          .ok (true, ⟨.EndReadValue, below, blob, cur + 1, .EndArray, top.Name,
                      val, iv, re, sk⟩)
      else .error ⟨.UnexpectedCharacter, cur, .StartReadValue⟩
    | .ReadStringValue =>
      if c = 92 then
        match rest with
        | [] => .error ⟨.UnknownEscape, cur, .ReadStringValue⟩
        | e :: rest2 =>
          match ReadUnescape e with
          | some u =>
            ReadLoop rest2 ⟨st, stk, blob, cur + 2, ty, nm, val ++ [u], iv, re, sk⟩
          | none => .error ⟨.UnknownEscape, cur + 1, .ReadStringValue⟩
      else if c ≠ 34 then
        ReadLoop rest ⟨st, stk, blob, cur + 1, ty, nm, val ++ [c], iv, re, sk⟩
      else .ok (true, ⟨.EndReadValue, stk, blob, cur + 1, ty, nm, val, iv, re, sk⟩)
    | .ReadIntValue =>
      if !(isDigit (PeekChar rest)) then
        .ok (true, ⟨.EndReadValue, stk, blob, cur + 1, ty, nm, val ++ [c],
                    atoi64 (val ++ [c]), re, sk⟩)
      else ReadLoop rest ⟨st, stk, blob, cur + 1, ty, nm, val ++ [c], iv, re, sk⟩
    | .EndReadValue =>
      if IsWhite c then ReadLoop rest ⟨st, stk, blob, cur + 1, ty, nm, val, iv, re, sk⟩
      else if c = 44 then
        match stk with
        | top :: below =>
          if top.Type_ = .Array then
            ReadLoop rest ⟨.StartReadValue, top :: below, blob, cur + 1, ty, nm, val, iv, re, sk⟩
          else
            ReadLoop rest ⟨.StartReadName, top :: below, blob, cur + 1, ty, nm, val, iv, re, sk⟩
        | [] => ReadLoop rest ⟨.StartReadName, [], blob, cur + 1, ty, nm, val, iv, re, sk⟩
      else if c = 125 then
        match stk with
        | [] => .error ⟨.StackUnderflow, cur, .EndReadValue⟩
        | top :: below =>
          .ok (true, ⟨.EndReadValue, below, blob, cur + 1, .EndObject, top.Name,
                      val, iv, re, sk⟩)
      else if c = 93 then
        match stk with
        | [] => .error ⟨.StackUnderflow, cur, .EndReadValue⟩
        | top :: below =>
          .ok (true, ⟨.EndReadValue, below, blob, cur + 1, .EndArray, top.Name,
                      val, iv, re, sk⟩)
      else .error ⟨.UnexpectedCharacter, cur, .EndReadValue⟩
    | .StartReadObject => ReadLoop rest ⟨st, stk, blob, cur + 1, ty, nm, val, iv, re, sk⟩
    | .StartReadArray => ReadLoop rest ⟨st, stk, blob, cur + 1, ty, nm, val, iv, re, sk⟩

/-- `JsonReader::ReadNext`: nothing is read once `_ReachedEnd` is set; otherwise
`_Name` and `_Value` are emptied and the loop runs on the unread bytes. -/
def ReadNext : JsonReader → Except Fault (Bool × JsonReader)
  | ⟨st, stk, blob, cur, ty, nm, val, iv, re, sk⟩ =>
    if re then .ok (false, ⟨st, stk, blob, cur, ty, nm, val, iv, re, sk⟩)
    else ReadLoop (blob.drop cur) ⟨st, stk, blob, cur, ty, [], [], iv, re, sk⟩

/-- `JsonReader::InitState`, applied to the object under construction. -/
def InitState (self : JsonReader) (pszBlob : List Nat) : JsonReader :=
  { self with _ReachedEnd := false, blob := pszBlob, _pszCur := 0,
              _State := .StartReadValue, _Name := [], _Value := [] }

/-- The constructor `JsonReader(blob)`.  It leaves `_Type`, `_IntValue` and
`_Skip` uninitialised: they are the arguments `t`, `i`, `s`. -/
def JsonReader.new (blob : List Nat) (t : NodeType) (i : Int) (s : Bool) : JsonReader :=
  InitState ⟨.StartReadValue, [], [], 0, t, [], [], i, false, s⟩ blob

/-- What the accessors `Type()`, `Name()`, `Value()` and `Int64Value()` show of
the current token: the type, the name, and the scalar value of a `String` or
`Int` token. -/
inductive Event where
  | None
  | String (name : List Nat) (value : List Nat)
  | Int (name : List Nat) (value : Int)
  | Array (name : List Nat)
  | EndArray (name : List Nat)
  | Object (name : List Nat)
  | EndObject (name : List Nat)
  deriving DecidableEq, Repr

/-- The current token of a reader. -/
def JsonReader.event (r : JsonReader) : Event :=
  match r._Type with
  | .None => .None
  | .String => .String r._Name r._Value
  | .Int => .Int r._Name r._IntValue
  | .Array => .Array r._Name
  | .EndArray => .EndArray r._Name
  | .Object => .Object r._Name
  | .EndObject => .EndObject r._Name

/-- The caller's loop `while (reader.ReadNext()) { record the token }`, bounded
by `fuel` calls: the tokens recorded and the reader after the call that
returned false.  `none` when `fuel` calls did not reach that call. -/
def ReadAll : Nat → JsonReader → Option (Except Fault (List Event × JsonReader))
  | 0, _ => none
  | fuel + 1, r =>
    match ReadNext r with
    | .error f => some (.error f)
    | .ok (false, r1) => some (.ok ([], r1))
    | .ok (true, r1) =>
      match ReadAll fuel r1 with
      | some (.ok (evs, r2)) => some (.ok (r1.event :: evs, r2))
      | other => other

/-- The assignment `_Skip = b`. -/
def setSkip (b : Bool) : JsonReader → JsonReader
  | ⟨st, stk, blob, cur, ty, nm, val, iv, re, _⟩ => ⟨st, stk, blob, cur, ty, nm, val, iv, re, b⟩

/-- The loop `while(ReadNext())` of `JsonReader::ReadNextValue` with its counter
`level`, bounded by `fuel` calls of `ReadNext`: the counter and the reader when
the loop is left (by `break` or because `ReadNext` returned false).  `none`
when `fuel` calls did not leave the loop. -/
def SkipLoop (startType endType : NodeType) :
    Nat → Int → JsonReader → Option (Except Fault (Int × JsonReader))
  | 0, _, _ => none
  | fuel + 1, level, r =>
    match ReadNext r with
    | .error f => some (.error f)
    | .ok (false, r1) => some (.ok (level, r1))
    | .ok (true, r1) =>
      if r1._Type = startType then SkipLoop startType endType fuel (level + 1) r1
      else if r1._Type = endType then
        if level - 1 = 0 then some (.ok (level - 1, r1))
        else SkipLoop startType endType fuel (level - 1) r1
      else SkipLoop startType endType fuel level r1

/-- `JsonReader::ReadNextValue`.  Every call of `ReadNext` that returns true
moves the cursor forward, so the loop is given one call more than there are
unread bytes. -/
def ReadNextValue (r : JsonReader) : Option (Except Fault (Bool × JsonReader)) :=
  if ¬ (r._Type = .Array ∨ r._Type = .Object) then some (ReadNext r)
  else
    match SkipLoop r._Type (if r._Type = .Array then .EndArray else .EndObject)
        (r.blob.length - r._pszCur + 1) 1 (setSkip true r) with
    | none => none
    | some (.error f) => some (.error f)
    | some (.ok (level, r1)) =>
      if level ≠ 0 then some (.ok (false, setSkip false r1))
      else some (ReadNext (setSkip false r1))

/-! ## Writer -/

/-- The members of `JsonWriter` (`_IdentBuf` is never used). -/
structure JsonWriter where
  _Result : List Nat
  _Ident : Int
  _AddSep : Bool
  deriving DecidableEq, Repr

/-- The constructor `JsonWriter()`. -/
def JsonWriter.new : JsonWriter := ⟨[], 0, false⟩

/-- Signed base-10 text of an integer: `-` for a negative value, then the
digits, most significant first. -/
def decimalText : Int → List Nat
  | .ofNat n => (Nat.toDigits 10 n).map Char.toNat
  | .negSucc n => 45 :: (Nat.toDigits 10 (n + 1)).map Char.toNat

/-- The C runtime's `_i64toa_s(val, buffer, size, 10)` and `_itoa_s` (not part
of the repository; after their documentation): radix 10 gives the signed decimal
text.  The buffers of 64 and 32 characters hold every value of the type. -/
def i64toa (val : Int) : List Nat := decimalText val

/-- The loop of `JsonWriter::WriteString` over the C string `pszVal` (it stops at
the terminating NUL and never looks at `cchVal`), appending to `_Result`. -/
def WriteStringLoop : List Nat → List Nat → List Nat
  | [], res => res
  | c :: rest, res =>
    if c = 0 then res
    else if c = 34 ∨ c = 92 then WriteStringLoop rest (res ++ [92, c])
    else if c = 8 then WriteStringLoop rest (res ++ [92, 98])
    else if c = 12 then WriteStringLoop rest (res ++ [92, 102])
    else if c = 10 then WriteStringLoop rest (res ++ [92, 110])
    else if c = 13 then WriteStringLoop rest (res ++ [92, 114])
    else if c = 9 then WriteStringLoop rest (res ++ [92, 116])
    else WriteStringLoop rest (res ++ [c])

/-- `JsonWriter::WriteString`. -/
def WriteString : JsonWriter → List Nat → JsonWriter
  | ⟨res, ident, sep⟩, pszVal => ⟨WriteStringLoop pszVal (res ++ [34]) ++ [34], ident, sep⟩

/-- `JsonWriter::WriteNameWorker`. -/
def WriteNameWorker : JsonWriter → List Nat → JsonWriter
  | ⟨res, ident, sep⟩, pszName =>
    match WriteString (if sep then ⟨res ++ [44], ident, false⟩ else ⟨res, ident, sep⟩) pszName with
    | ⟨res1, ident1, sep1⟩ => ⟨res1 ++ [58], ident1, sep1⟩

/-- `JsonWriter::WriteName`. -/
def WriteName (w : JsonWriter) (name : List Nat) : JsonWriter := WriteNameWorker w name

/-- `JsonWriter::WriteStringValue`. -/
def WriteStringValue (w : JsonWriter) (value : List Nat) : JsonWriter :=
  match WriteString w value with
  | ⟨res, ident, _⟩ => ⟨res, ident, true⟩

/-- `JsonWriter::WriteStringPair`. -/
def WriteStringPair (w : JsonWriter) (name value : List Nat) : JsonWriter :=
  match WriteString (WriteNameWorker w name) value with
  | ⟨res, ident, _⟩ => ⟨res, ident, true⟩

/-- `JsonWriter::WriteIntValue`; `val` is an `int`. -/
def WriteIntValue : JsonWriter → Int → JsonWriter
  | ⟨res, ident, _⟩, val => ⟨res ++ i64toa val, ident, true⟩

/-- `JsonWriter::WriteIntPair`. -/
def WriteIntPair (w : JsonWriter) (name : List Nat) (val : Int) : JsonWriter :=
  WriteIntValue (WriteName w name) val

/-- `JsonWriter::WriteInt64Value`; `val` is an `__int64`. -/
def WriteInt64Value : JsonWriter → Int → JsonWriter
  | ⟨res, ident, _⟩, val => ⟨res ++ i64toa val, ident, true⟩

/-- `JsonWriter::WriteInt64Pair`. -/
def WriteInt64Pair (w : JsonWriter) (name : List Nat) (val : Int) : JsonWriter :=
  WriteInt64Value (WriteName w name) val

/-- `JsonWriter::WriteObjectValueStart`. -/
def WriteObjectValueStart : JsonWriter → JsonWriter
  | ⟨res, ident, sep⟩ =>
    if sep then ⟨res ++ [44] ++ [10] ++ [123], ident + 1, false⟩
    else ⟨res ++ [10] ++ [123], ident + 1, sep⟩

/-- `JsonWriter::WriteObjectValueEnd`. -/
def WriteObjectValueEnd : JsonWriter → JsonWriter
  | ⟨res, ident, _⟩ => ⟨res ++ [125], ident - 1, true⟩

/-- `JsonWriter::WriteArrayValueStart`. -/
def WriteArrayValueStart : JsonWriter → JsonWriter
  | ⟨res, ident, sep⟩ =>
    if sep then ⟨res ++ [44] ++ [91], ident, false⟩ else ⟨res ++ [91], ident, sep⟩

/-- `JsonWriter::WriteArrayValueEnd`. -/
def WriteArrayValueEnd : JsonWriter → JsonWriter
  | ⟨res, ident, _⟩ => ⟨res ++ [93], ident, true⟩

/-- `JsonWriter::Result`. -/
def Result (w : JsonWriter) : List Nat := w._Result

/-! ## Notions of the specification used in the statements -/

/-- The letter of the two-character escape of a character, for the seven
characters that have one: `\"`, `\\`, `\b`, `\f`, `\n`, `\r`, `\t`. -/
def escapeLetter (c : Nat) : Option Nat :=
  if c = 34 then some 34
  else if c = 92 then some 92
  else if c = 8 then some 98
  else if c = 12 then some 102
  else if c = 10 then some 110
  else if c = 13 then some 114
  else if c = 9 then some 116
  else none

/-- The bytes that stand for a character in the wire format: a backslash and
the letter for the seven escapable characters, the character itself otherwise. -/
def escapeOf (c : Nat) : List Nat :=
  match escapeLetter c with
  | some l => [92, l]
  | none => [c]

/-- One element of the body of a string literal: a plain byte, or the escape
made of a backslash and the letter `l`. -/
inductive BodyItem where
  | plain (c : Nat)
  | escape (l : Nat)
  deriving DecidableEq, Repr

/-- A plain byte is neither the double quote nor the backslash nor NUL; the
letter of an escape is one of `"`, `\`, `b`, `f`, `n`, `r`, `t`. -/
def BodyItem.wellFormed : BodyItem → Prop
  | .plain c => c ≠ 34 ∧ c ≠ 92 ∧ c ≠ 0
  | .escape l => l = 34 ∨ l = 92 ∨ l = 98 ∨ l = 102 ∨ l = 110 ∨ l = 114 ∨ l = 116

/-- The bytes of an element in the literal. -/
def BodyItem.text : BodyItem → List Nat
  | .plain c => [c]
  | .escape l => [92, l]

/-- The character an element denotes. -/
def BodyItem.denotes : BodyItem → Nat
  | .plain c => c
  | .escape l =>
    if l = 98 then 8
    else if l = 102 then 12
    else if l = 110 then 10
    else if l = 114 then 13
    else if l = 116 then 9
    else l

/-- The bytes of a body. -/
def bodyText (items : List BodyItem) : List Nat := items.flatMap BodyItem.text

/-- The element that stands for a character in a literal. -/
def itemOf (c : Nat) : BodyItem :=
  match escapeLetter c with
  | some l => .escape l
  | none => .plain c

/-- The bytes that the specification lists as accepted where a value is
expected: space, newline, `"`, `[`, `{`, `]`, `-` and the digits. -/
def valueStartByte (c : Nat) : Prop :=
  c = 32 ∨ c = 10 ∨ c = 34 ∨ c = 91 ∨ c = 123 ∨ c = 93 ∨ c = 45 ∨ isDigit c = true

/-- The kind of the frame on top of the parse stack. -/
def topKind (r : JsonReader) : Option NodeType := r._ParseStack.head?.map ParseNode.Type_

/-- A call of `ReadNext` on `r` that returns true and leaves the reader `r1`,
where a closing token closes a container of its own kind: EndArray pops a frame
pushed by an Array token, EndObject a frame pushed by an Object token. -/
def MatchedCall (r r1 : JsonReader) : Prop :=
  ReadNext r = .ok (true, r1) ∧
  (r1._Type = .EndArray → topKind r = some .Array) ∧
  (r1._Type = .EndObject → topKind r = some .Object)

/-- The successive calls of `ReadNext` from `r` leave the readers `rs`, one after
the other; each is a matched call and leaves more than `depth` frames on the
parse stack: the events are descendants of the container whose frame lies at
height `depth + 1`. -/
def DescendantCalls (depth : Nat) : JsonReader → List JsonReader → Prop
  | _, [] => True
  | r, r1 :: rs =>
    MatchedCall r r1 ∧ depth < r1._ParseStack.length ∧ DescendantCalls depth r1 rs

/-- The reader left by the last of the calls that leave `rs`, starting from `r`. -/
def lastReader : JsonReader → List JsonReader → JsonReader
  | r, [] => r
  | _, r1 :: rs => lastReader r1 rs

/-- The current token of the reader is a container start: `_Type` is Array or
Object, the frame on top of the stack is the one this token pushed, and the
reader is not in the middle of a scalar. -/
def AtContainerStart (r : JsonReader) : Prop :=
  (r._Type = .Array ∨ r._Type = .Object) ∧ topKind r = some r._Type ∧
  r._State ≠ .ReadStringValue ∧ r._State ≠ .ReadIntValue

/-- The token type agrees with the state: it is String inside a string literal
and Int inside an integer. -/
def Consistent (st : ParseState) (ty : NodeType) : Prop :=
  (st = .ReadStringValue → ty = .String) ∧ (st = .ReadIntValue → ty = .Int)

/-- What a call that returned a token did to the parse stack `stk` it started
with: a container start pushed a frame of its kind, a container end popped the
top frame, a scalar left the stack alone. -/
def StackEffect (stk : List ParseNode) (r1 : JsonReader) : Prop :=
  (r1._Type = .Array ∧ r1._State = .StartReadValue ∧
    ∃ n, r1._ParseStack = ⟨n, .Array⟩ :: stk) ∨
  (r1._Type = .Object ∧ r1._State = .StartReadName ∧
    ∃ n, r1._ParseStack = ⟨n, .Object⟩ :: stk) ∨
  (r1._Type = .EndArray ∧ r1._State = .EndReadValue ∧ ∃ f, stk = f :: r1._ParseStack) ∨
  (r1._Type = .EndObject ∧ r1._State = .EndReadValue ∧ ∃ f, stk = f :: r1._ParseStack) ∨
  ((r1._Type = .String ∨ r1._Type = .Int) ∧ r1._State = .EndReadValue ∧
    r1._ParseStack = stk)

/-- Number of frames of kind `k` among the frames `top`. -/
def countKind (k : NodeType) (top : List ParseNode) : Nat :=
  (top.filter (fun f => decide (f.Type_ = k))).length

/-- The reader after `n` calls of `ReadNext`; a call that halts leaves the reader
it was made on. -/
def readerAfter : Nat → JsonReader → JsonReader
  | 0, r => r
  | n + 1, r =>
    match ReadNext r with
    | .ok (_, r1) => readerAfter n r1
    | .error _ => r

/-- The input `{"a":[1,[2]],"b":3}`. -/
def sampleDocument : List Nat := bytes "\x7b\"a\":[1,[2]],\"b\":3\x7d"

/-- The truncated input `[1,[2`. -/
def sampleTruncated : List Nat := bytes "[1,[2"

/-- The operations of the writer, as a caller issues them. -/
inductive WriterOp where
  | Name (name : List Nat)
  | StringPair (name value : List Nat)
  | StringValue (value : List Nat)
  | IntValue (val : Int)
  | IntPair (name : List Nat) (val : Int)
  | Int64Value (val : Int)
  | Int64Pair (name : List Nat) (val : Int)
  | ObjectValueStart
  | ObjectValueEnd
  | ArrayValueStart
  | ArrayValueEnd
  deriving DecidableEq, Repr

/-- The call of the member function an operation stands for. -/
def JsonWriter.apply (w : JsonWriter) : WriterOp → JsonWriter
  | .Name name => WriteName w name
  | .StringPair name value => WriteStringPair w name value
  | .StringValue value => WriteStringValue w value
  | .IntValue val => WriteIntValue w val
  | .IntPair name val => WriteIntPair w name val
  | .Int64Value val => WriteInt64Value w val
  | .Int64Pair name val => WriteInt64Pair w name val
  | .ObjectValueStart => WriteObjectValueStart w
  | .ObjectValueEnd => WriteObjectValueEnd w
  | .ArrayValueStart => WriteArrayValueStart w
  | .ArrayValueEnd => WriteArrayValueEnd w

/-- A sequence of calls, in order. -/
def JsonWriter.run : JsonWriter → List WriterOp → JsonWriter
  | w, [] => w
  | w, op :: ops => JsonWriter.run (w.apply op) ops

/-- The offset in `_Result` at which an operation pushes the separator comma: the
three places with `_Result.push_back(',')` (`WriteNameWorker`,
`WriteObjectValueStart`, `WriteArrayValueStart`) push it at the end of the
buffer when `_AddSep` is set. -/
def separatorOf (w : JsonWriter) : WriterOp → Option Nat
  | .Name _ => if w._AddSep then some w._Result.length else none
  | .StringPair _ _ => if w._AddSep then some w._Result.length else none
  | .IntPair _ _ => if w._AddSep then some w._Result.length else none
  | .Int64Pair _ _ => if w._AddSep then some w._Result.length else none
  | .ObjectValueStart => if w._AddSep then some w._Result.length else none
  | .ArrayValueStart => if w._AddSep then some w._Result.length else none
  | _ => none

/-- The offsets of the separator commas pushed by a sequence of calls. -/
def separators : JsonWriter → List WriterOp → List Nat
  | _, [] => []
  | w, op :: ops => (separatorOf w op).toList ++ separators (w.apply op) ops

/-- The last byte of a completed value: a closing `"`, a digit, `}` or `]`. -/
def valueEndByte (b : Nat) : Prop := b = 34 ∨ isDigit b = true ∨ b = 125 ∨ b = 93

/-- What the specification asks of the separator comma at offset `p` of the
output `out`: it is a comma, the byte before it ends a value, and the bytes
after it open a name (`"`) or a container (`[`, or the newline and `{` that
`WriteObjectValueStart` emits). -/
def SeparatorPlaced (out : List Nat) (p : Nat) : Prop :=
  out[p]? = some 44 ∧
  (∃ b, 0 < p ∧ out[p - 1]? = some b ∧ valueEndByte b) ∧
  (out[p + 1]? = some 34 ∨ out[p + 1]? = some 91 ∨
    (out[p + 1]? = some 10 ∧ out[p + 2]? = some 123))

/-- The bytes `WriteString` appends for a text: the escaped text in quotes. -/
def quoted (v : List Nat) : List Nat := 34 :: (WriteStringLoop v [] ++ [34])

/-- The bytes an operation appends after the separator comma, if it pushes one. -/
def opBody : WriterOp → List Nat
  | .Name name => quoted name ++ [58]
  | .StringPair name value => quoted name ++ [58] ++ quoted value
  | .StringValue value => quoted value
  | .IntValue val => decimalText val
  | .IntPair name val => quoted name ++ [58] ++ decimalText val
  | .Int64Value val => decimalText val
  | .Int64Pair name val => quoted name ++ [58] ++ decimalText val
  | .ObjectValueStart => [10, 123]
  | .ObjectValueEnd => [125]
  | .ArrayValueStart => [91]
  | .ArrayValueEnd => [93]

/-- The state of a writer between two operations: the output neither starts nor
ends with a comma, and when `_AddSep` is set its last byte ends a value. -/
def WellSeparated (w : JsonWriter) : Prop :=
  w._Result.head? ≠ some 44 ∧ w._Result.getLast? ≠ some 44 ∧
  (w._AddSep = true → ∃ b, w._Result.getLast? = some b ∧ valueEndByte b)

/-- The signed base-10 text of `v` in its canonical form: `-` exactly when `v` is
negative, no `+`, then a non-empty run of digits without a leading zero (the
text of zero is `0`) whose value is the absolute value of `v`. -/
def IsDecimalOf (text : List Nat) (v : Int) : Prop :=
  ∃ ds : List Nat, ds ≠ [] ∧ (∀ d ∈ ds, isDigit d = true) ∧ (ds.head? = some 48 → ds = [48]) ∧
    digitsValue ds = v.natAbs ∧ text = (if v < 0 then [45] else []) ++ ds

/-- `JsonReader::IsEnd`. -/
def IsEnd (r : JsonReader) : Bool := r._ReachedEnd

/-- The states a reader can be in: the one the constructor leaves, and those left
by a call of `ReadNext` or of `ReadNextValue` that returns (a halt ends the
program). -/
inductive Reachable : JsonReader → Prop where
  | fresh (blob : List Nat) (t : NodeType) (i : Int) (s : Bool) :
      Reachable (JsonReader.new blob t i s)
  | readNext (r r1 : JsonReader) (b : Bool) :
      Reachable r → ReadNext r = .ok (b, r1) → Reachable r1
  | readNextValue (r r1 : JsonReader) (b : Bool) :
      Reachable r → ReadNextValue r = some (.ok (b, r1)) → Reachable r1

/-- What holds of every state a reader can be in: the token type agrees with the
state, `_ReachedEnd` is not set, and the cursor is within the buffer. -/
def Healthy (r : JsonReader) : Prop :=
  Consistent r._State r._Type ∧ r._ReachedEnd = false ∧ r._pszCur ≤ r.blob.length

/-- What a call of `ReadNext` that returned a token did to the parse stack, with
the names: a container start pushed one frame holding the name and the kind of
the token, a container end popped one frame and took its name, a scalar left
the stack alone. -/
def TokenEffect (stk : List ParseNode) (r1 : JsonReader) : Prop :=
  (r1._Type = .Array ∧ r1._ParseStack = ⟨r1._Name, .Array⟩ :: stk) ∨
  (r1._Type = .Object ∧ r1._ParseStack = ⟨r1._Name, .Object⟩ :: stk) ∨
  (r1._Type = .EndArray ∧ ∃ f, stk = f :: r1._ParseStack ∧ r1._Name = f.Name) ∨
  (r1._Type = .EndObject ∧ ∃ f, stk = f :: r1._ParseStack ∧ r1._Name = f.Name) ∨
  ((r1._Type = .String ∨ r1._Type = .Int) ∧ r1._ParseStack = stk)

/-- The types of the tokens returned by the first `n` calls of `ReadNext`: a call
that returns false adds none, and a halt ends the list. -/
def tokenTypes : Nat → JsonReader → List NodeType
  | 0, _ => []
  | n + 1, r =>
    match ReadNext r with
    | .ok (true, r1) => r1._Type :: tokenTypes n r1
    | .ok (false, r1) => tokenTypes n r1
    | .error _ => []

/-- Number of container-start tokens (Array, Object) in a list of token types. -/
def countStarts (tys : List NodeType) : Nat :=
  (tys.filter (fun t => decide (t = .Array ∨ t = .Object))).length

/-- Number of container-end tokens (EndArray, EndObject) in a list of token types. -/
def countEnds (tys : List NodeType) : Nat :=
  (tys.filter (fun t => decide (t = .EndArray ∨ t = .EndObject))).length

/-- What one pass through the body of the loop `for(;;)` of `ReadNext` ends
with: the loop goes round again, with these unread bytes and this reader, or it
is left, by `break` with the value of `ret` or by a halt. -/
inductive Iteration where
  | next (unread : List Nat) (r : JsonReader)
  | leave (result : Except Fault (Bool × JsonReader))

/-- One pass through the body of the loop `for(;;)` of `JsonReader::ReadNext`, from
`c = ReadChar()` to the end of the body: the body of `ReadLoop`, with the next
pass left to be made. -/
def ReadStep : List Nat → JsonReader → Iteration
  | [], r => .leave (.ok (false, r))
  | c :: rest, ⟨st, stk, blob, cur, ty, nm, val, iv, re, sk⟩ =>
    if c = 0 then .leave (.ok (false, ⟨st, stk, blob, cur + 1, ty, nm, val, iv, re, sk⟩))
    else match st with
    | .StartReadName =>
      if IsWhite c then .next rest ⟨st, stk, blob, cur + 1, ty, nm, val, iv, re, sk⟩
      else if c = 34 then
        .next rest ⟨.ReadName, stk, blob, cur + 1, ty, nm, val, iv, re, sk⟩
      else .leave (.error ⟨.UnexpectedCharacter, cur, .StartReadName⟩)
    | .ReadName =>
      if c ≠ 34 then
        .next rest ⟨st, stk, blob, cur + 1, ty, nm ++ [c], val, iv, re, sk⟩
      else .next rest ⟨.ReadColon, stk, blob, cur + 1, ty, nm, val, iv, re, sk⟩
    | .ReadColon =>
      if IsWhite c then .next rest ⟨st, stk, blob, cur + 1, ty, nm, val, iv, re, sk⟩
      else if c = 58 then
        .next rest ⟨.StartReadValue, stk, blob, cur + 1, ty, nm, val, iv, re, sk⟩
      else .leave (.error ⟨.UnexpectedCharacter, cur, .ReadColon⟩)
    | .StartReadValue =>
      if IsWhite c then .next rest ⟨st, stk, blob, cur + 1, ty, nm, val, iv, re, sk⟩
      else if c = 34 then
        .next rest ⟨.ReadStringValue, stk, blob, cur + 1, .String, nm, val, iv, re, sk⟩
      else if c = 91 then
        .leave (.ok (true, ⟨.StartReadValue, ⟨nm, .Array⟩ :: stk, blob, cur + 1, .Array,
                    nm, val, iv, re, sk⟩))
      else if c = 123 then
        .leave (.ok (true, ⟨.StartReadName, ⟨nm, .Object⟩ :: stk, blob, cur + 1, .Object,
                    nm, val, iv, re, sk⟩))
      else if isDigit c || c = 45 then
        if !(isDigit (PeekChar rest)) then
          .leave (.ok (true, ⟨.EndReadValue, stk, blob, cur + 1, .Int, nm, val ++ [c],
                      atoi64 (val ++ [c]), re, sk⟩))
        else
          .next rest ⟨.ReadIntValue, stk, blob, cur + 1, .Int, nm, val ++ [c], iv, re, sk⟩
      else if c = 93 then
        match stk with
        | [] => .leave (.error ⟨.StackUnderflow, cur, .StartReadValue⟩)
        | top :: below =>
          .leave (.ok (true, ⟨.EndReadValue, below, blob, cur + 1, .EndArray, top.Name,
                      val, iv, re, sk⟩))
      else .leave (.error ⟨.UnexpectedCharacter, cur, .StartReadValue⟩)
    | .ReadStringValue =>
      if c = 92 then
        match rest with
        | [] => .leave (.error ⟨.UnknownEscape, cur, .ReadStringValue⟩)
        | e :: rest2 =>
          match ReadUnescape e with
          | some u =>
            .next rest2 ⟨st, stk, blob, cur + 2, ty, nm, val ++ [u], iv, re, sk⟩
          | none => .leave (.error ⟨.UnknownEscape, cur + 1, .ReadStringValue⟩)
      else if c ≠ 34 then
        .next rest ⟨st, stk, blob, cur + 1, ty, nm, val ++ [c], iv, re, sk⟩
      else .leave (.ok (true, ⟨.EndReadValue, stk, blob, cur + 1, ty, nm, val, iv, re, sk⟩))
    | .ReadIntValue =>
      if !(isDigit (PeekChar rest)) then
        .leave (.ok (true, ⟨.EndReadValue, stk, blob, cur + 1, ty, nm, val ++ [c],
                    atoi64 (val ++ [c]), re, sk⟩))
      else .next rest ⟨st, stk, blob, cur + 1, ty, nm, val ++ [c], iv, re, sk⟩
    | .EndReadValue =>
      if IsWhite c then .next rest ⟨st, stk, blob, cur + 1, ty, nm, val, iv, re, sk⟩
      else if c = 44 then
        match stk with
        | top :: below =>
          if top.Type_ = .Array then
            .next rest ⟨.StartReadValue, top :: below, blob, cur + 1, ty, nm, val, iv, re, sk⟩
          else
            .next rest ⟨.StartReadName, top :: below, blob, cur + 1, ty, nm, val, iv, re, sk⟩
        | [] => .next rest ⟨.StartReadName, [], blob, cur + 1, ty, nm, val, iv, re, sk⟩
      else if c = 125 then
        match stk with
        | [] => .leave (.error ⟨.StackUnderflow, cur, .EndReadValue⟩)
        | top :: below =>
          .leave (.ok (true, ⟨.EndReadValue, below, blob, cur + 1, .EndObject, top.Name,
                      val, iv, re, sk⟩))
      else if c = 93 then
        match stk with
        | [] => .leave (.error ⟨.StackUnderflow, cur, .EndReadValue⟩)
        | top :: below =>
          .leave (.ok (true, ⟨.EndReadValue, below, blob, cur + 1, .EndArray, top.Name,
                      val, iv, re, sk⟩))
      else .leave (.error ⟨.UnexpectedCharacter, cur, .EndReadValue⟩)
    | .StartReadObject => .next rest ⟨st, stk, blob, cur + 1, ty, nm, val, iv, re, sk⟩
    | .StartReadArray => .next rest ⟨st, stk, blob, cur + 1, ty, nm, val, iv, re, sk⟩

/-- The loop `for(;;)` of `ReadNext` run for at most `fuel` passes through its
body: the result with which the loop is left, `none` when it has not been left
after `fuel` passes. -/
def ReadIterate : Nat → List Nat → JsonReader → Option (Except Fault (Bool × JsonReader))
  | 0, _, _ => none
  | fuel + 1, unread, r =>
    match ReadStep unread r with
    | .next u x => ReadIterate fuel u x
    | .leave res => some res

/-- The loop of `ReadNext`, started on the unread bytes `unread` with the reader
`r`, comes after some passes through its body (none, one or more) to the unread
bytes `u` with the reader `x`. -/
inductive Passes : List Nat → JsonReader → List Nat → JsonReader → Prop where
  | refl (unread : List Nat) (r : JsonReader) : Passes unread r unread r
  | step (unread : List Nat) (r : JsonReader) (u : List Nat) (x : JsonReader)
      (v : List Nat) (y : JsonReader) :
      ReadStep unread r = .next u x → Passes u x v y → Passes unread r v y

/-- The bytes that `WriteString` puts between the quotes for `name`, up to the
first double quote among them: what stands in the output between the opening
quote of the written name and the first double quote after it. -/
def writtenNameRun (name : List Nat) : List Nat :=
  (WriteStringLoop name []).takeWhile (fun c => decide (c ≠ 34))

/-! ## Theorems -/

/-! ### Evaluation on the inputs named by the specification -/

/-- C3: on the input `{"a":1,"b":[2,3]}` the calls of `ReadNext` on a fresh reader
yield the seven tokens Object(""), Int("a", 1), Array("b"), Int("", 2),
Int("", 3), EndArray("b"), EndObject(""), and the eighth call returns false. -/
theorem ReadNext_object_with_array (t : NodeType) (i : Int) (s : Bool) :
    ∃ r, ReadAll 8 (JsonReader.new (bytes "\x7b\"a\":1,\"b\":[2,3]\x7d") t i s) =
      some (.ok ([.Object [], .Int (bytes "a") 1, .Array (bytes "b"), .Int [] 2, .Int [] 3,
                  .EndArray (bytes "b"), .EndObject []], r)) :=
  ⟨_, rfl⟩

/-- C1 at the array `[1,2]`: the calls `WriteArrayValueStart`, `WriteIntValue(1)`,
`WriteIntValue(2)`, `WriteArrayValueEnd` on a fresh writer give the bytes `[12]`
(the value writes put no separator), and reading them yields Array, Int 12,
EndArray and then false: not the four events that were written. -/
theorem write_then_read_array_1_2 (t : NodeType) (i : Int) (s : Bool) :
    Result (WriteArrayValueEnd (WriteIntValue (WriteIntValue
      (WriteArrayValueStart JsonWriter.new) 1) 2)) = bytes "[12]" ∧
    ∃ r, ReadAll 4 (JsonReader.new (Result (WriteArrayValueEnd (WriteIntValue (WriteIntValue
      (WriteArrayValueStart JsonWriter.new) 1) 2))) t i s) =
      some (.ok ([.Array [], .Int [] 12, .EndArray []], r)) :=
  ⟨rfl, _, rfl⟩

/-- C4 at the input `{}`: the first `ReadNext` returns the Object token, and the
second one halts on the `assert(false)` of state `StartReadName` at the byte `}`
(offset 1); it does not return an EndObject token. -/
theorem ReadNext_empty_object_halts (t : NodeType) (i : Int) (s : Bool) :
    ∃ r1, ReadNext (JsonReader.new (bytes "\x7b\x7d") t i s) = .ok (true, r1) ∧
      r1._Type = .Object ∧ r1._ParseStack = [⟨[], .Object⟩] ∧
      ReadNext r1 = .error ⟨.UnexpectedCharacter, 1, .StartReadName⟩ :=
  ⟨_, rfl, rfl, rfl, rfl⟩

/-- C9 at the well-formed input `{}`: calling `ReadNext` until it returns false
never gets there, whatever the number of calls allowed: the second call halts
on the `assert(false)` of state `StartReadName` (not on an empty stack), while
the frame that the first call pushed for the object is still on the parse
stack. -/
theorem ReadAll_empty_object_halts (fuel : Nat) (t : NodeType) (i : Int) (s : Bool) :
    ReadAll (fuel + 2) (JsonReader.new (bytes "\x7b\x7d") t i s) =
      some (.error ⟨.UnexpectedCharacter, 1, .StartReadName⟩) ∧
    (readerAfter 1 (JsonReader.new (bytes "\x7b\x7d") t i s))._ParseStack = [⟨[], .Object⟩] ∧
    readerAfter 2 (JsonReader.new (bytes "\x7b\x7d") t i s) =
      readerAfter 1 (JsonReader.new (bytes "\x7b\x7d") t i s) :=
  ⟨rfl, rfl, rfl⟩

/-! ### White space -/

/-- In state `StartReadValue` the loop passes over spaces and newlines. -/
theorem ReadLoop_white_StartReadValue (ws : List Nat) (hws : ∀ c ∈ ws, c = 32 ∨ c = 10)
    (rest : List Nat) (stk : List ParseNode) (blob : List Nat) (cur : Nat) (ty : NodeType)
    (nm val : List Nat) (iv : Int) (re sk : Bool) :
    ReadLoop (ws ++ rest) ⟨.StartReadValue, stk, blob, cur, ty, nm, val, iv, re, sk⟩ =
      ReadLoop rest ⟨.StartReadValue, stk, blob, cur + ws.length, ty, nm, val, iv, re, sk⟩ := by
  induction ws generalizing cur with
  | nil => rfl
  | cons c ws ih =>
    have step := ih (fun d hd => hws d (List.mem_cons_of_mem _ hd)) (cur + 1)
    have hlen : cur + (c :: ws).length = cur + 1 + ws.length := by
      simp only [List.length_cons]; omega
    rw [hlen, ← step]
    rcases hws c (List.mem_cons_self _ _) with rfl | rfl <;> simp [ReadLoop, IsWhite]

/-- C5: on the input `[`, any run of spaces and newlines, `]`, the first `ReadNext`
of a fresh reader returns true with type Array and pushes one frame, the second
returns true with type EndArray and the name of that frame, and the parse stack
is empty afterwards. -/
theorem ReadNext_empty_array (ws : List Nat) (hws : ∀ c ∈ ws, c = 32 ∨ c = 10)
    (t : NodeType) (i : Int) (s : Bool) :
    ∃ r1 r2 frame, ReadNext (JsonReader.new (91 :: (ws ++ [93])) t i s) = .ok (true, r1) ∧
      r1._Type = .Array ∧ r1._ParseStack = [frame] ∧
      ReadNext r1 = .ok (true, r2) ∧
      r2._Type = .EndArray ∧ r2._Name = frame.Name ∧ r2._ParseStack = [] := by
  refine ⟨⟨.StartReadValue, [⟨[], .Array⟩], 91 :: (ws ++ [93]), 1, .Array, [], [], i, false, s⟩,
    ⟨.EndReadValue, [], 91 :: (ws ++ [93]), 1 + ws.length + 1, .EndArray, [], [], i, false, s⟩,
    ⟨[], .Array⟩, ?_, rfl, rfl, ?_, rfl, rfl, rfl⟩
  · simp [ReadNext, JsonReader.new, InitState, ReadLoop, IsWhite]
  · simp only [ReadNext, List.singleton_append, List.cons_append, List.drop_succ_cons,
      List.drop_zero, Bool.false_eq_true, if_false]
    rw [ReadLoop_white_StartReadValue ws hws]
    simp [ReadLoop, IsWhite, isDigit]

/-- C5 on the input `[`, space, newline, `]`. -/
theorem ReadNext_empty_array_witness :
    ∃ r1 r2 frame, ReadNext (JsonReader.new (91 :: ([32, 10] ++ [93])) .None 0 false) = .ok (true, r1) ∧
      r1._Type = .Array ∧ r1._ParseStack = [frame] ∧
      ReadNext r1 = .ok (true, r2) ∧
      r2._Type = .EndArray ∧ r2._Name = frame.Name ∧ r2._ParseStack = [] :=
  ReadNext_empty_array [32, 10] (by decide) .None 0 false


/-! ### String literals -/

/-- State `ReadStringValue`: the closing quote ends the token. -/
theorem ReadLoop_string_quote (rest : List Nat) (stk : List ParseNode) (blob : List Nat)
    (cur : Nat) (ty : NodeType) (nm val : List Nat) (iv : Int) (re sk : Bool) :
    ReadLoop (34 :: rest) ⟨.ReadStringValue, stk, blob, cur, ty, nm, val, iv, re, sk⟩ =
      .ok (true, ⟨.EndReadValue, stk, blob, cur + 1, ty, nm, val, iv, re, sk⟩) := by
  cases rest <;> simp [ReadLoop]

/-- State `ReadStringValue`: a plain byte is appended to `_Value`. -/
theorem ReadLoop_string_plain (c : Nat) (h34 : c ≠ 34) (h92 : c ≠ 92) (h0 : c ≠ 0)
    (rest : List Nat) (stk : List ParseNode) (blob : List Nat)
    (cur : Nat) (ty : NodeType) (nm val : List Nat) (iv : Int) (re sk : Bool) :
    ReadLoop (c :: rest) ⟨.ReadStringValue, stk, blob, cur, ty, nm, val, iv, re, sk⟩ =
      ReadLoop rest ⟨.ReadStringValue, stk, blob, cur + 1, ty, nm, val ++ [c], iv, re, sk⟩ := by
  cases rest <;> simp [ReadLoop, h34, h92, h0]

/-- State `ReadStringValue`: a backslash and a letter that `ReadUnescape` knows
append the character the escape stands for. -/
theorem ReadLoop_string_escape (e u : Nat) (hu : ReadUnescape e = some u)
    (rest : List Nat) (stk : List ParseNode) (blob : List Nat)
    (cur : Nat) (ty : NodeType) (nm val : List Nat) (iv : Int) (re sk : Bool) :
    ReadLoop (92 :: e :: rest) ⟨.ReadStringValue, stk, blob, cur, ty, nm, val, iv, re, sk⟩ =
      ReadLoop rest ⟨.ReadStringValue, stk, blob, cur + 2, ty, nm, val ++ [u], iv, re, sk⟩ := by
  simp [ReadLoop, hu]

/-- The switch of `ReadUnescape` gives the character a well-formed escape denotes. -/
theorem ReadUnescape_denotes (l : Nat) (h : (BodyItem.escape l).wellFormed) :
    ReadUnescape l = some (BodyItem.escape l).denotes := by
  rcases h with rfl | rfl | rfl | rfl | rfl | rfl | rfl <;> rfl

/-- In state `ReadStringValue` the loop decodes a body up to the closing quote. -/
theorem ReadLoop_body (items : List BodyItem) (hitems : ∀ it ∈ items, it.wellFormed)
    (post : List Nat) (stk : List ParseNode) (blob : List Nat) (cur : Nat) (ty : NodeType)
    (nm val : List Nat) (iv : Int) (re sk : Bool) :
    ReadLoop (bodyText items ++ 34 :: post)
        ⟨.ReadStringValue, stk, blob, cur, ty, nm, val, iv, re, sk⟩ =
      .ok (true, ⟨.EndReadValue, stk, blob, cur + (bodyText items).length + 1, ty, nm,
                  val ++ items.map BodyItem.denotes, iv, re, sk⟩) := by
  induction items generalizing cur val with
  | nil =>
    show ReadLoop (34 :: post) _ = _
    rw [ReadLoop_string_quote]
    simp [bodyText]
  | cons it items ih =>
    have hrest := ih (fun j hj => hitems j (List.mem_cons_of_mem _ hj))
    have hit := hitems it (List.mem_cons_self _ _)
    have hlen : (bodyText (it :: items)).length = it.text.length + (bodyText items).length := by
      simp [bodyText]
    cases it with
    | plain c =>
      obtain ⟨h34, h92, h0⟩ := hit
      show ReadLoop (c :: (bodyText items ++ 34 :: post)) _ = _
      rw [ReadLoop_string_plain c h34 h92 h0, hrest, hlen]
      have e1 : cur + 1 + (bodyText items).length + 1 =
          cur + ((BodyItem.plain c).text.length + (bodyText items).length) + 1 := by
        simp [BodyItem.text]; omega
      rw [e1]
      simp [BodyItem.denotes]
    | escape l =>
      show ReadLoop (92 :: l :: (bodyText items ++ 34 :: post)) _ = _
      rw [ReadLoop_string_escape l _ (ReadUnescape_denotes l hit), hrest, hlen]
      have e1 : cur + 2 + (bodyText items).length + 1 =
          cur + ((BodyItem.escape l).text.length + (bodyText items).length) + 1 := by
        simp [BodyItem.text]; omega
      rw [e1]
      simp


/-- State `StartReadValue`: the opening quote starts a String token. -/
theorem ReadLoop_value_quote (rest : List Nat) (stk : List ParseNode) (blob : List Nat)
    (cur : Nat) (ty : NodeType) (nm val : List Nat) (iv : Int) (re sk : Bool) :
    ReadLoop (34 :: rest) ⟨.StartReadValue, stk, blob, cur, ty, nm, val, iv, re, sk⟩ =
      ReadLoop rest ⟨.ReadStringValue, stk, blob, cur + 1, .String, nm, val, iv, re, sk⟩ := by
  simp [ReadLoop, IsWhite]

/-- C7: a reader whose unread bytes are a lead-in that brings the loop of `ReadNext`
into state `StartReadValue` (value position, with the name `nm` read so far),
followed by a string literal whose body is made of plain bytes (no double
quote, backslash or NUL) and of the seven escapes: `ReadNext` returns true with
a String token named `nm` whose `Value()` holds every plain byte as it is and,
for every escape, the character it denotes. -/
theorem ReadNext_string_value (items : List BodyItem) (hitems : ∀ it ∈ items, it.wellFormed)
    (lead post : List Nat) (r : JsonReader) (hre : r._ReachedEnd = false)
    (hunread : r.blob.drop r._pszCur = lead ++ 34 :: (bodyText items ++ 34 :: post))
    (stk : List ParseNode) (cur : Nat) (ty : NodeType) (nm : List Nat)
    (hlead : ∀ rest, ReadLoop (lead ++ rest)
        ⟨r._State, r._ParseStack, r.blob, r._pszCur, r._Type, [], [], r._IntValue, false, r._Skip⟩ =
      ReadLoop rest ⟨.StartReadValue, stk, r.blob, cur, ty, nm, [], r._IntValue, false, r._Skip⟩) :
    ReadNext r = .ok (true, ⟨.EndReadValue, stk, r.blob, cur + (bodyText items).length + 2,
      .String, nm, items.map BodyItem.denotes, r._IntValue, false, r._Skip⟩) := by
  obtain ⟨st0, stk0, blob0, cur0, ty0, nm0, val0, iv0, re0, sk0⟩ := r
  simp only at hre hunread hlead
  subst hre
  simp only [ReadNext, Bool.false_eq_true, if_false]
  rw [hunread, hlead, ReadLoop_value_quote, ReadLoop_body items hitems]
  simp
  omega

/-- C7 on the input `{"s":"line\nbreak"}`: after the Object token, the second
`ReadNext` returns the String token named `s` whose value is the ten characters
`line`, line feed, `break`. -/
theorem ReadNext_string_value_witness :
    ∃ r1, ReadNext (JsonReader.new (bytes "\x7b\"s\":\"line\\nbreak\"\x7d") .None 0 false)
        = .ok (true, r1) ∧
      ReadNext r1 = .ok (true, ⟨.EndReadValue, [⟨[], .Object⟩],
        bytes "\x7b\"s\":\"line\\nbreak\"\x7d", 18, .String, bytes "s", bytes "line\nbreak",
        0, false, false⟩) ∧
      (bytes "line\nbreak").length = 10 :=
  ⟨⟨.StartReadName, [⟨[], .Object⟩], bytes "\x7b\"s\":\"line\\nbreak\"\x7d", 1, .Object, [], [],
      0, false, false⟩, rfl,
    ReadNext_string_value
      [.plain 108, .plain 105, .plain 110, .plain 101, .escape 110,
       .plain 98, .plain 114, .plain 101, .plain 97, .plain 107]
      (by simp [BodyItem.wellFormed])
      (bytes "\"s\":") [125]
      ⟨.StartReadName, [⟨[], .Object⟩], bytes "\x7b\"s\":\"line\\nbreak\"\x7d", 1, .Object, [], [],
        0, false, false⟩
      rfl rfl [⟨[], .Object⟩] 5 .Object (bytes "s") (fun _ => rfl),
    rfl⟩

/-! ### Writing a string and reading it back -/

/-- The loop of `WriteString` appends the wire form of every character of a
string without NUL. -/
theorem WriteStringLoop_eq (s : List Nat) (hs : ∀ c ∈ s, c ≠ 0) (res : List Nat) :
    WriteStringLoop s res = res ++ s.flatMap escapeOf := by
  induction s generalizing res with
  | nil => simp [WriteStringLoop]
  | cons c s ih =>
    have h0 := hs c (List.mem_cons_self _ _)
    have hrest := ih (fun d hd => hs d (List.mem_cons_of_mem _ hd))
    rw [WriteStringLoop]
    simp only [List.flatMap_cons, escapeOf, escapeLetter, h0, if_false]
    split_ifs <;> simp_all

/-- The element standing for a character other than NUL is well formed. -/
theorem itemOf_wellFormed (c : Nat) (h0 : c ≠ 0) : (itemOf c).wellFormed := by
  unfold itemOf escapeLetter
  split_ifs <;> simp_all [BodyItem.wellFormed]

/-- The element standing for a character denotes it. -/
theorem itemOf_denotes (c : Nat) : (itemOf c).denotes = c := by
  unfold itemOf escapeLetter
  split_ifs <;> simp_all [BodyItem.denotes]

/-- The bytes of the element standing for a character are its wire form. -/
theorem itemOf_text (c : Nat) : (itemOf c).text = escapeOf c := by
  unfold itemOf escapeOf
  cases escapeLetter c <;> rfl

/-- C2: for every string `s` without NUL (so for every string made of the seven
escapable characters and of printable bytes), `WriteStringValue` on a fresh
writer gives a double quote, the characters of `s` in order, each of the seven
as its two-character backslash escape and every other byte unchanged, and a
double quote; a fresh reader over these bytes returns one String token whose
`Value()` is `s`, and then false. -/
theorem escape_symmetry (s : List Nat) (hs : ∀ c ∈ s, c ≠ 0)
    (t : NodeType) (i : Int) (k : Bool) :
    Result (WriteStringValue JsonWriter.new s) = 34 :: (s.flatMap escapeOf ++ [34]) ∧
    ∃ r1 r2, ReadNext (JsonReader.new (Result (WriteStringValue JsonWriter.new s)) t i k)
        = .ok (true, r1) ∧
      r1.event = .String [] s ∧ ReadNext r1 = .ok (false, r2) := by
  have hout : Result (WriteStringValue JsonWriter.new s) = 34 :: (s.flatMap escapeOf ++ [34]) := by
    simp [Result, WriteStringValue, WriteString, JsonWriter.new, WriteStringLoop_eq s hs]
  have htext : s.flatMap escapeOf = bodyText (s.map itemOf) := by
    simp [bodyText, List.flatMap_map, itemOf_text]
  have hden : (s.map itemOf).map BodyItem.denotes = s := by
    simp [Function.comp_def, itemOf_denotes]
  have hwf : ∀ it ∈ s.map itemOf, it.wellFormed := by
    intro it hit
    obtain ⟨c, hc, rfl⟩ := List.mem_map.mp hit
    exact itemOf_wellFormed c (hs c hc)
  refine ⟨hout, ?_⟩
  rw [hout, htext]
  refine ⟨⟨.EndReadValue, [], 34 :: (bodyText (s.map itemOf) ++ [34]),
      0 + 1 + (bodyText (s.map itemOf)).length + 1, .String, [], s, i, false, k⟩, ?_, ?_, rfl, ?_⟩
  · exact ⟨.EndReadValue, [], 34 :: (bodyText (s.map itemOf) ++ [34]),
      0 + 1 + (bodyText (s.map itemOf)).length + 1, .String, [], [], i, false, k⟩
  · simp only [ReadNext, JsonReader.new, InitState, Bool.false_eq_true, if_false, List.drop_zero]
    rw [ReadLoop_value_quote, ReadLoop_body _ hwf, hden]
    rfl
  · simp only [ReadNext, Bool.false_eq_true, if_false]
    have hdrop : List.drop (0 + 1 + (bodyText (s.map itemOf)).length + 1)
        (34 :: (bodyText (s.map itemOf) ++ [34])) = [] := by
      apply List.drop_eq_nil_of_le
      simp
      omega
    rw [hdrop]
    rfl

/-- C2 on the string made of `a`, double quote, backslash, line feed, tab. -/
theorem escape_symmetry_witness :
    Result (WriteStringValue JsonWriter.new [97, 34, 92, 10, 9]) =
      34 :: ([97, 34, 92, 10, 9].flatMap escapeOf ++ [34]) ∧
    ∃ r1 r2, ReadNext (JsonReader.new (Result (WriteStringValue JsonWriter.new [97, 34, 92, 10, 9]))
        .None 0 false) = .ok (true, r1) ∧
      r1.event = .String [] [97, 34, 92, 10, 9] ∧ ReadNext r1 = .ok (false, r2) :=
  escape_symmetry [97, 34, 92, 10, 9] (by decide) .None 0 false


/-! ### Integers -/

/-- A decimal digit is neither NUL nor white space nor one of the characters
that open a string or a container. -/
theorem isDigit_bounds (c : Nat) (h : isDigit c = true) : 48 ≤ c ∧ c ≤ 57 := by
  simpa [isDigit] using h

/-- State `ReadIntValue`: the loop takes the digits up to the first byte that is
not one, and converts what it has gathered. -/
theorem ReadLoop_int_digits (ds : List Nat) (hds : ∀ c ∈ ds, isDigit c = true)
    (d : Nat) (hd : isDigit d = true) (post : List Nat) (hpost : isDigit (PeekChar post) = false)
    (stk : List ParseNode) (blob : List Nat) (cur : Nat) (ty : NodeType)
    (nm val : List Nat) (iv : Int) (re sk : Bool) :
    ReadLoop (d :: (ds ++ post)) ⟨.ReadIntValue, stk, blob, cur, ty, nm, val, iv, re, sk⟩ =
      .ok (true, ⟨.EndReadValue, stk, blob, cur + (ds.length + 1), ty, nm, val ++ d :: ds,
                  atoi64 (val ++ d :: ds), re, sk⟩) := by
  induction ds generalizing d cur val with
  | nil =>
    have hb := isDigit_bounds d hd
    have h0 : d ≠ 0 := by omega
    simp [ReadLoop, h0, hpost]
  | cons e ds ih =>
    have hb := isDigit_bounds d hd
    have h0 : d ≠ 0 := by omega
    have he := hds e (List.mem_cons_self _ _)
    have step := ih (fun c hc => hds c (List.mem_cons_of_mem _ hc)) e he (cur + 1) (val ++ [d])
    have hpeek : isDigit (PeekChar (e :: (ds ++ post))) = true := by simpa [PeekChar] using he
    rw [List.cons_append, ReadLoop]
    simp only [h0, if_false, hpeek, Bool.not_true, Bool.false_eq_true]
    rw [step]
    simp
    omega

/-- The first character of an integer is neither NUL nor white space nor one of
the characters that open a string or a container. -/
theorem int_start_facts (c : Nat) (hc : isDigit c = true ∨ c = 45) :
    c ≠ 0 ∧ IsWhite c = false ∧ c ≠ 34 ∧ c ≠ 91 ∧ c ≠ 123 ∧
      (isDigit c || decide (c = 45)) = true := by
  rcases hc with h | h
  · have hb := isDigit_bounds c h
    refine ⟨by omega, ?_, by omega, by omega, by omega, by simp [h]⟩
    simp [IsWhite]; omega
  · subst h; decide

/-- State `StartReadValue`: a digit or `-` that no digit follows is an Int token. -/
theorem ReadLoop_value_int_last (c : Nat) (hc : isDigit c = true ∨ c = 45)
    (rest : List Nat) (hrest : isDigit (PeekChar rest) = false)
    (stk : List ParseNode) (blob : List Nat) (cur : Nat) (ty : NodeType)
    (nm val : List Nat) (iv : Int) (re sk : Bool) :
    ReadLoop (c :: rest) ⟨.StartReadValue, stk, blob, cur, ty, nm, val, iv, re, sk⟩ =
      .ok (true, ⟨.EndReadValue, stk, blob, cur + 1, .Int, nm, val ++ [c],
                  atoi64 (val ++ [c]), re, sk⟩) := by
  obtain ⟨h0, hw, h34, h91, h123, hd⟩ := int_start_facts c hc
  simp only [ReadLoop, h0, hw, h34, h91, h123, hd, hrest, if_false, if_true, Bool.not_false,
    Bool.false_eq_true]

/-- State `StartReadValue`: a digit or `-` that a digit follows moves to state
`ReadIntValue`. -/
theorem ReadLoop_value_int_more (c : Nat) (hc : isDigit c = true ∨ c = 45)
    (rest : List Nat) (hrest : isDigit (PeekChar rest) = true)
    (stk : List ParseNode) (blob : List Nat) (cur : Nat) (ty : NodeType)
    (nm val : List Nat) (iv : Int) (re sk : Bool) :
    ReadLoop (c :: rest) ⟨.StartReadValue, stk, blob, cur, ty, nm, val, iv, re, sk⟩ =
      ReadLoop rest ⟨.ReadIntValue, stk, blob, cur + 1, .Int, nm, val ++ [c], iv, re, sk⟩ := by
  obtain ⟨h0, hw, h34, h91, h123, hd⟩ := int_start_facts c hc
  simp only [ReadLoop, h0, hw, h34, h91, h123, hd, hrest, if_false, if_true, Bool.not_true,
    Bool.false_eq_true]

/-- State `StartReadValue`: a digit or `-` followed by digits up to a byte that
is not a digit is an Int token. -/
theorem ReadLoop_value_int (c : Nat) (hc : isDigit c = true ∨ c = 45)
    (ds : List Nat) (hds : ∀ d ∈ ds, isDigit d = true)
    (post : List Nat) (hpost : isDigit (PeekChar post) = false)
    (stk : List ParseNode) (blob : List Nat) (cur : Nat) (ty : NodeType)
    (nm val : List Nat) (iv : Int) (re sk : Bool) :
    ReadLoop (c :: (ds ++ post)) ⟨.StartReadValue, stk, blob, cur, ty, nm, val, iv, re, sk⟩ =
      .ok (true, ⟨.EndReadValue, stk, blob, cur + (ds.length + 1), .Int, nm, val ++ c :: ds,
                  atoi64 (val ++ c :: ds), re, sk⟩) := by
  cases ds with
  | nil =>
    rw [List.nil_append, ReadLoop_value_int_last c hc post hpost]
    rfl
  | cons e ds =>
    have he := hds e (List.mem_cons_self _ _)
    have hpeek : isDigit (PeekChar (e :: (ds ++ post))) = true := by simpa [PeekChar] using he
    rw [List.cons_append, ReadLoop_value_int_more c hc _ hpeek,
      ReadLoop_int_digits ds (fun c hc => hds c (List.mem_cons_of_mem _ hc)) e he post hpost]
    simp
    omega


/-- The character of a decimal digit. -/
theorem digitChar_toNat (m : Nat) (hm : m < 10) : (Nat.digitChar m).toNat = 48 + m := by
  interval_cases m <;> rfl

/-- Value of a digit run extended by one digit. -/
theorem digitsValue_snoc (ds : List Nat) (d : Nat) :
    digitsValue (ds ++ [d]) = 10 * digitsValue ds + (d - 48) := by
  simp [digitsValue, List.foldl_append]

/-- The digits that `Nat.toDigitsCore` puts in front of its accumulator, as
bytes: a non-empty run of decimal digits whose value is the number. -/
theorem toDigitsCore_decimal : ∀ (fuel n : Nat) (acc : List Char), n < fuel →
    ∃ ds : List Nat, ds ≠ [] ∧ (∀ c ∈ ds, isDigit c = true) ∧ digitsValue ds = n ∧
      (Nat.toDigitsCore 10 fuel n acc).map Char.toNat = ds ++ acc.map Char.toNat
  | 0, n, _, h => absurd h (Nat.not_lt_zero n)
  | fuel + 1, n, acc, h => by
    have hmod : n % 10 < 10 := Nat.mod_lt _ (by decide)
    have hlast : isDigit (48 + n % 10) = true := by simp [isDigit]; omega
    simp only [Nat.toDigitsCore]
    by_cases hq : n / 10 = 0
    · have hn : n % 10 = n := by omega
      refine ⟨[48 + n % 10], by simp, ?_, ?_, ?_⟩
      · intro c hc
        rw [List.mem_singleton.mp hc]; exact hlast
      · simp [digitsValue, hn]
      · simp [hq, digitChar_toNat _ hmod]
    · obtain ⟨ds, hne, hdig, hval, heq⟩ :=
        toDigitsCore_decimal fuel (n / 10) (Nat.digitChar (n % 10) :: acc) (by omega)
      refine ⟨ds ++ [48 + n % 10], by simp, ?_, ?_, ?_⟩
      · intro c hc
        rcases List.mem_append.mp hc with h1 | h1
        · exact hdig c h1
        · rw [List.mem_singleton.mp h1]; exact hlast
      · rw [digitsValue_snoc, hval]; omega
      · simp [hq, heq, digitChar_toNat _ hmod]

/-- The decimal text of a natural number is a digit followed by digits, and its
value is the number. -/
theorem natText_shape (n : Nat) :
    ∃ d ds, (Nat.toDigits 10 n).map Char.toNat = d :: ds ∧ isDigit d = true ∧
      (∀ c ∈ ds, isDigit c = true) ∧ digitsValue (d :: ds) = n := by
  obtain ⟨ds, hne, hdig, hval, heq⟩ := toDigitsCore_decimal (n + 1) n [] (Nat.lt_succ_self n)
  cases ds with
  | nil => exact absurd rfl hne
  | cons d ds =>
    refine ⟨d, ds, by simpa [Nat.toDigits] using heq, hdig d (List.mem_cons_self _ _),
      fun c hc => hdig c (List.mem_cons_of_mem _ hc), hval⟩

/-- `_atoi64` reads a run of digits as its value, saturated. -/
theorem atoi64_digits (d : Nat) (ds : List Nat) (hd : isDigit d = true)
    (hds : ∀ c ∈ ds, isDigit c = true) :
    atoi64 (d :: ds) = clampInt64 (digitsValue (d :: ds) : Int) := by
  have hb := isDigit_bounds d hd
  have hsp : isspace d = false := by simp [isspace]; omega
  have hall : (d :: ds).takeWhile isDigit = d :: ds := by
    rw [List.takeWhile_eq_self_iff]
    intro c hc
    rcases List.mem_cons.mp hc with h | h
    · rw [h]; exact hd
    · exact hds c h
  have hdrop : (d :: ds).dropWhile isspace = d :: ds := by simp [List.dropWhile, hsp]
  unfold atoi64
  rw [hdrop]
  dsimp only
  split
  · next t heq => simp at heq; omega
  · next t heq => simp at heq; omega
  · rw [hall]

/-- `_atoi64` reads `-` and a run of digits as the opposite of its value, saturated. -/
theorem atoi64_minus_digits (ds : List Nat) (hds : ∀ c ∈ ds, isDigit c = true) :
    atoi64 (45 :: ds) = clampInt64 (-(digitsValue ds : Int)) := by
  have hall : ds.takeWhile isDigit = ds := by
    rw [List.takeWhile_eq_self_iff]; exact hds
  have hdrop : (45 :: ds).dropWhile isspace = 45 :: ds := by
    simp [List.dropWhile, isspace]
  unfold atoi64
  rw [hdrop]
  simp [hall]

/-- The decimal text of an integer starts with a digit or `-`, goes on with
digits, and `_atoi64` gives the integer back when it fits in 64 bits. -/
theorem decimalText_shape (v : Int) (hlo : -(2 ^ 63 : Int) ≤ v) (hhi : v < (2 ^ 63 : Int)) :
    ∃ c ds, decimalText v = c :: ds ∧ (isDigit c = true ∨ c = 45) ∧
      (∀ d ∈ ds, isDigit d = true) ∧ atoi64 (c :: ds) = v := by
  cases v with
  | ofNat n =>
    obtain ⟨d, ds, heq, hd, hds, hval⟩ := natText_shape n
    refine ⟨d, ds, heq, Or.inl hd, hds, ?_⟩
    rw [atoi64_digits d ds hd hds, hval]
    have h1 : (n : Int) < 2 ^ 63 := hhi
    unfold clampInt64
    rw [if_neg (by omega), if_neg (by omega)]
    rfl
  | negSucc n =>
    obtain ⟨d, ds, heq, hd, hds, hval⟩ := natText_shape (n + 1)
    refine ⟨45, d :: ds, by simp [decimalText, heq], Or.inr rfl, ?_, ?_⟩
    · intro c hc
      rcases List.mem_cons.mp hc with h | h
      · rw [h]; exact hd
      · exact hds c h
    · rw [atoi64_minus_digits, hval]
      · have h1 : -(2 ^ 63 : Int) ≤ Int.negSucc n := hlo
        have h2 : Int.negSucc n = -((n : Int) + 1) := Int.negSucc_eq n
        unfold clampInt64
        rw [if_neg (by push_cast; omega), if_neg (by push_cast; omega)]
        push_cast
        omega
      · intro c hc
        rcases List.mem_cons.mp hc with h | h
        · rw [h]; exact hd
        · exact hds c h

/-- C6: for every integer `v` that fits in signed 64 bits, a fresh reader over the
decimal text of `v` alone returns true from the first `ReadNext` with type Int
and `Int64Value()` equal to `v`, and false from the next one. -/
theorem ReadNext_bare_integer (v : Int) (hlo : -(2 ^ 63 : Int) ≤ v) (hhi : v < (2 ^ 63 : Int))
    (t : NodeType) (i : Int) (s : Bool) :
    ∃ r1 r2, ReadNext (JsonReader.new (decimalText v) t i s) = .ok (true, r1) ∧
      r1._Type = .Int ∧ r1._IntValue = v ∧ r1.event = .Int [] v ∧
      ReadNext r1 = .ok (false, r2) := by
  obtain ⟨c, ds, heq, hc, hds, hval⟩ := decimalText_shape v hlo hhi
  have hread := ReadLoop_value_int c hc ds hds [] (by decide) [] (c :: ds) 0 t [] [] i false s
  rw [List.append_nil] at hread
  refine ⟨⟨.EndReadValue, [], c :: ds, 0 + (ds.length + 1), .Int, [], [] ++ c :: ds,
      atoi64 ([] ++ c :: ds), false, s⟩, ⟨.EndReadValue, [], c :: ds, 0 + (ds.length + 1),
      .Int, [], [], atoi64 ([] ++ c :: ds), false, s⟩, ?_, rfl, ?_, ?_, ?_⟩
  · rw [heq]
    simpa [ReadNext, JsonReader.new, InitState] using hread
  · simpa using hval
  · simp [JsonReader.event, hval]
  · simp [ReadNext, ReadLoop]

/-- C6 on the input `-42`: one Int token with value -42, then the end of the input. -/
theorem ReadNext_bare_integer_witness :
    decimalText (-42) = bytes "-42" ∧
    ∃ r1 r2, ReadNext (JsonReader.new (decimalText (-42)) .None 0 false) = .ok (true, r1) ∧
      r1._Type = .Int ∧ r1._IntValue = -42 ∧ r1.event = .Int [] (-42) ∧
      ReadNext r1 = .ok (false, r2) :=
  ⟨by decide, ReadNext_bare_integer (-42) (by decide) (by decide) .None 0 false⟩


/-! ### Bytes that cannot start a value -/

/-- C8, the byte NUL: it is none of the bytes accepted where a value is expected,
and a fresh reader (state `StartReadValue`) over the single byte NUL returns
false from `ReadNext` without halting: the byte is taken for the end of the
input, not rejected. -/
theorem ReadNext_NUL_not_rejected :
    ¬ valueStartByte 0 ∧
    ReadNext (JsonReader.new [0] .None 0 false) =
      .ok (false, ⟨.StartReadValue, [], [0], 1, .None, [], [], 0, false, false⟩) :=
  ⟨by simp [valueStartByte, isDigit], rfl⟩

/-- C8 as amended: on the input `{"a":}` the first `ReadNext` returns the Object
token and the second halts on the `assert(false)` of state `StartReadValue` at
offset 5, the offset of `}`, without a token.  In state `StartReadValue` every
byte other than NUL, space, newline, `"`, `[`, `{`, `]`, `-` and the digits halts
the loop of `ReadNext` in the same way, at the offset of that byte; the byte NUL
ends the call, which returns false. -/
theorem ReadNext_value_expected (c : Nat) (h0 : c ≠ 0) (hc : ¬ valueStartByte c)
    (rest : List Nat) (stk : List ParseNode) (blob : List Nat) (cur : Nat) (ty : NodeType)
    (nm val : List Nat) (iv : Int) (re sk : Bool) (t : NodeType) (i : Int) (s : Bool) :
    (∃ r1, ReadNext (JsonReader.new (bytes "\x7b\"a\":\x7d") t i s) = .ok (true, r1) ∧
      r1._Type = .Object ∧
      ReadNext r1 = .error ⟨.UnexpectedCharacter, 5, .StartReadValue⟩) ∧
    ReadLoop (c :: rest) ⟨.StartReadValue, stk, blob, cur, ty, nm, val, iv, re, sk⟩ =
      .error ⟨.UnexpectedCharacter, cur, .StartReadValue⟩ ∧
    ReadNext ⟨.StartReadValue, stk, c :: rest, 0, ty, nm, val, iv, false, sk⟩ =
      .error ⟨.UnexpectedCharacter, 0, .StartReadValue⟩ ∧
    ReadLoop (0 :: rest) ⟨.StartReadValue, stk, blob, cur, ty, nm, val, iv, re, sk⟩ =
      .ok (false, ⟨.StartReadValue, stk, blob, cur + 1, ty, nm, val, iv, re, sk⟩) := by
  simp only [valueStartByte, not_or] at hc
  obtain ⟨h32, h10, h34, h91, h123, h93, h45, hd⟩ := hc
  have hw : IsWhite c = false := by simp [IsWhite, h32, h10]
  have hd' : isDigit c = false := by simpa using hd
  have hloop : ∀ (stk : List ParseNode) (blob : List Nat) (cur : Nat) (nm val : List Nat)
      (re : Bool),
      ReadLoop (c :: rest) ⟨.StartReadValue, stk, blob, cur, ty, nm, val, iv, re, sk⟩ =
        .error ⟨.UnexpectedCharacter, cur, .StartReadValue⟩ := by
    intro stk blob cur nm val re
    simp [ReadLoop, h0, hw, h34, h91, h123, h93, h45, hd']
  refine ⟨⟨_, rfl, rfl, rfl⟩, hloop stk blob cur nm val re, ?_, ?_⟩
  · simp only [ReadNext, Bool.false_eq_true, if_false, List.drop_zero]
    exact hloop stk (c :: rest) 0 [] [] false
  · simp [ReadLoop]

/-- C8 as amended, at the byte `}` in front of nothing. -/
theorem ReadNext_value_expected_witness :
    (∃ r1, ReadNext (JsonReader.new (bytes "\x7b\"a\":\x7d") .None 0 false) = .ok (true, r1) ∧
      r1._Type = .Object ∧
      ReadNext r1 = .error ⟨.UnexpectedCharacter, 5, .StartReadValue⟩) ∧
    ReadLoop (125 :: []) ⟨.StartReadValue, [], [125], 0, .None, [], [], 0, false, false⟩ =
      .error ⟨.UnexpectedCharacter, 0, .StartReadValue⟩ ∧
    ReadNext ⟨.StartReadValue, [], 125 :: [], 0, .None, [], [], 0, false, false⟩ =
      .error ⟨.UnexpectedCharacter, 0, .StartReadValue⟩ ∧
    ReadLoop (0 :: []) ⟨.StartReadValue, [], [125], 0, .None, [], [], 0, false, false⟩ =
      .ok (false, ⟨.StartReadValue, [], [125], 0 + 1, .None, [], [], 0, false, false⟩) :=
  ReadNext_value_expected 125 (by decide) (by simp [valueStartByte, isDigit]) [] [] [125] 0
    .None [] [] 0 false false .None 0 false


/-! ### The flag `_Skip` -/

/-- The loop of `ReadNext` never looks at `_Skip`: setting the flag before the
loop or after it gives the same result. -/
theorem ReadLoop_setSkip (b : Bool) : ∀ (n : Nat) (unread : List Nat), unread.length ≤ n →
    ∀ (st : ParseState) (stk : List ParseNode) (blob : List Nat) (cur : Nat) (ty : NodeType)
      (nm val : List Nat) (iv : Int) (re sk : Bool),
    ReadLoop unread ⟨st, stk, blob, cur, ty, nm, val, iv, re, b⟩ =
      (ReadLoop unread ⟨st, stk, blob, cur, ty, nm, val, iv, re, sk⟩).map
        (fun p => (p.1, setSkip b p.2)) := by
  intro n
  induction n with
  | zero =>
    intro unread hlen
    have : unread = [] := List.length_eq_zero.mp (Nat.le_zero.mp hlen)
    subst this
    intros; rfl
  | succ n ih =>
    intro unread hlen st stk blob cur ty nm val iv re sk
    cases unread with
    | nil => rfl
    | cons c rest =>
      have hrest : rest.length ≤ n := by simpa using hlen
      cases st
      case ReadStringValue =>
        cases rest with
        | nil => simp only [ReadLoop]; split_ifs <;> rfl
        | cons e rest2 =>
          have hrest2 : rest2.length ≤ n := by simp at hrest; omega
          simp only [ReadLoop]
          split_ifs
          · rfl
          · cases ReadUnescape e with
            | none => rfl
            | some u => exact ih _ hrest2 ..
          · exact ih _ hrest ..
          · rfl
      all_goals
        simp only [ReadLoop]
        repeat' split
        all_goals first | rfl | exact ih _ hrest ..


/-! ### What a call that returns a token does -/

/-- A run of the loop that ends with a token has moved the cursor forward, by no
more than the unread bytes, and has pushed one frame (container start), popped
one (container end) or left the stack alone (scalar). -/
theorem ReadLoop_token : ∀ (n : Nat) (unread : List Nat), unread.length ≤ n →
    ∀ (st : ParseState) (stk : List ParseNode) (blob : List Nat) (cur : Nat) (ty : NodeType)
      (nm val : List Nat) (iv : Int) (re sk : Bool) (r1 : JsonReader),
    Consistent st ty →
    ReadLoop unread ⟨st, stk, blob, cur, ty, nm, val, iv, re, sk⟩ = .ok (true, r1) →
    r1.blob = blob ∧ cur < r1._pszCur ∧ r1._pszCur ≤ cur + unread.length ∧
      StackEffect stk r1 := by
  intro n
  induction n with
  | zero =>
    intro unread hlen
    have : unread = [] := List.length_eq_zero.mp (Nat.le_zero.mp hlen)
    subst this
    intro st stk blob cur ty nm val iv re sk r1 _ h
    simp [ReadLoop] at h
  | succ n ih =>
    intro unread hlen st stk blob cur ty nm val iv re sk r1 hcons h
    cases unread with
    | nil => simp [ReadLoop] at h
    | cons c rest =>
      have hrest : rest.length ≤ n := by simpa using hlen
      cases st
      case ReadStringValue =>
        have hty : ty = .String := hcons.1 rfl
        cases rest with
        | nil =>
          simp only [ReadLoop] at h
          repeat' split at h
          all_goals first
            | (cases h
               exact ⟨rfl, by simp, by simp, by simp [StackEffect, hty]⟩)
            | cases h
        | cons e rest2 =>
          have hrest2 : rest2.length ≤ n := by simp at hrest; omega
          simp only [ReadLoop] at h
          repeat' split at h
          all_goals first
            | (obtain ⟨k1, k2, k3, k4⟩ := ih _ hrest2 _ _ _ _ _ _ _ _ _ _ _ hcons h
               exact ⟨k1, by omega, by simp only [List.length_cons]; omega, k4⟩)
            | (obtain ⟨k1, k2, k3, k4⟩ := ih _ hrest _ _ _ _ _ _ _ _ _ _ _ hcons h
               refine ⟨k1, by omega, ?_, k4⟩
               simp only [List.length_cons] at k3 ⊢; omega)
            | (cases h
               exact ⟨rfl, by simp, by simp, by simp [StackEffect, hty]⟩)
            | cases h
      case ReadIntValue =>
        have hty : ty = .Int := hcons.2 rfl
        simp only [ReadLoop] at h
        repeat' split at h
        all_goals first
          | (obtain ⟨k1, k2, k3, k4⟩ := ih _ hrest _ _ _ _ _ _ _ _ _ _ _ hcons h
             exact ⟨k1, by omega, by simp only [List.length_cons]; omega, k4⟩)
          | (cases h
             exact ⟨rfl, by simp, by simp, by simp [StackEffect, hty]⟩)
          | cases h
      all_goals
        simp only [ReadLoop] at h
        repeat' split at h
        all_goals first
          | (obtain ⟨k1, k2, k3, k4⟩ :=
              ih _ hrest _ _ _ _ _ _ _ _ _ _ _ (by simp [Consistent]) h
             exact ⟨k1, by omega, by simp only [List.length_cons]; omega, k4⟩)
          | (cases h
             exact ⟨rfl, by simp, by simp, by simp [StackEffect]⟩)
          | cases h


/-- `ReadNext` never looks at `_Skip`. -/
theorem ReadNext_setSkip (b : Bool) (r : JsonReader) :
    ReadNext (setSkip b r) = (ReadNext r).map (fun p => (p.1, setSkip b p.2)) := by
  obtain ⟨st, stk, blob, cur, ty, nm, val, iv, re, sk⟩ := r
  simp only [setSkip, ReadNext]
  split_ifs
  · rfl
  · exact ReadLoop_setSkip b _ _ (Nat.le_refl _) ..

/-- A call of `ReadNext` that returns a token keeps the buffer, moves the cursor
forward without passing the end, and has the stack effect of its token. -/
theorem ReadNext_token (r r1 : JsonReader) (hc : Consistent r._State r._Type)
    (h : ReadNext r = .ok (true, r1)) :
    r1.blob = r.blob ∧ r._pszCur < r1._pszCur ∧ r1._pszCur ≤ r.blob.length ∧
      StackEffect r._ParseStack r1 := by
  obtain ⟨st, stk, blob, cur, ty, nm, val, iv, re, sk⟩ := r
  simp only [ReadNext] at h
  split_ifs at h
  · cases h
  · obtain ⟨k1, k2, k3, k4⟩ := ReadLoop_token _ _ (Nat.le_refl _) _ _ _ _ _ _ _ _ _ _ _ hc h
    refine ⟨k1, k2, ?_, k4⟩
    simp only [List.length_drop] at k3
    show r1._pszCur ≤ blob.length
    omega

/-- After a token the token type agrees with the state. -/
theorem StackEffect_consistent (stk : List ParseNode) (r1 : JsonReader)
    (h : StackEffect stk r1) : Consistent r1._State r1._Type := by
  rcases h with ⟨_, h, _⟩ | ⟨_, h, _⟩ | ⟨_, h, _⟩ | ⟨_, h, _⟩ | ⟨_, h, _⟩ <;>
    simp [Consistent, h]


/-! ### `ReadNextValue` -/

/-- `lastReader` after one more call. -/
theorem lastReader_cons (r r1 : JsonReader) (rs : List JsonReader) :
    lastReader r (r1 :: rs) = lastReader r1 rs := rfl

/-- The type of the reader is not changed by setting `_Skip`. -/
theorem setSkip_Type (b : Bool) (r : JsonReader) : (setSkip b r)._Type = r._Type := by
  cases r; rfl

/-- Setting `_Skip` twice is setting it once. -/
theorem setSkip_setSkip (a b : Bool) (r : JsonReader) : setSkip a (setSkip b r) = setSkip a r := by
  cases r; rfl

/-- One more frame of the counted kind. -/
theorem countKind_cons_eq (k : NodeType) (f : ParseNode) (top : List ParseNode)
    (h : f.Type_ = k) : countKind k (f :: top) = countKind k top + 1 := by
  simp [countKind, h]

/-- One more frame of another kind. -/
theorem countKind_cons_ne (k : NodeType) (f : ParseNode) (top : List ParseNode)
    (h : f.Type_ ≠ k) : countKind k (f :: top) = countKind k top := by
  simp [countKind, h]

/-- The loop of `ReadNextValue` over the descendant events of a container: while
the frame `F` of the container stays on the stack, the counter is one more than
the number of frames of the same kind above it, so the loop goes on. -/
theorem SkipLoop_descend (K E : NodeType)
    (hKE : (K = .Array ∧ E = .EndArray) ∨ (K = .Object ∧ E = .EndObject))
    (F : ParseNode) (hF : F.Type_ = K) (below : List ParseNode) :
    ∀ (rs : List JsonReader) (x : JsonReader) (top : List ParseNode),
      x._ParseStack = top ++ F :: below → Consistent x._State x._Type →
      DescendantCalls below.length x rs →
      ∃ top1, (lastReader x rs)._ParseStack = top1 ++ F :: below ∧
        Consistent (lastReader x rs)._State (lastReader x rs)._Type ∧
        (lastReader x rs).blob = x.blob ∧
        x._pszCur + rs.length ≤ (lastReader x rs)._pszCur ∧
        (rs ≠ [] → (lastReader x rs)._pszCur ≤ x.blob.length) ∧
        ∀ extra : Nat,
          SkipLoop K E (rs.length + extra) (1 + countKind K top) (setSkip true x) =
            SkipLoop K E extra (1 + countKind K top1) (setSkip true (lastReader x rs)) := by
  intro rs
  induction rs with
  | nil =>
    intro x top hstk hcons _
    exact ⟨top, hstk, hcons, rfl, by simp [lastReader], by simp, fun extra => by simp [lastReader]⟩
  | cons r1 rs ih =>
    intro x top hstk hcons hdesc
    obtain ⟨⟨hcall, hEA, hEO⟩, hdepth, hrest⟩ := hdesc
    obtain ⟨hblob, hcur, hend, heff⟩ := ReadNext_token x r1 hcons hcall
    have hcons1 := StackEffect_consistent _ _ heff
    have hstep : ReadNext (setSkip true x) = .ok (true, setSkip true r1) := by
      rw [ReadNext_setSkip, hcall]; rfl
    -- the stack of `r1` still holds `F`, and the counter follows it
    have key : ∃ top1, r1._ParseStack = top1 ++ F :: below ∧
        ∀ fuel : Nat, SkipLoop K E (fuel + 1) (1 + countKind K top) (setSkip true x) =
          SkipLoop K E fuel (1 + countKind K top1) (setSkip true r1) := by
      rw [hstk] at heff
      rcases heff with ⟨hty, _, n, hs⟩ | ⟨hty, _, n, hs⟩ | ⟨hty, _, f, hs⟩ | ⟨hty, _, f, hs⟩ |
        ⟨hty, _, hs⟩
      · refine ⟨⟨n, .Array⟩ :: top, by simp [hs], fun fuel => ?_⟩
        rcases hKE with ⟨rfl, rfl⟩ | ⟨rfl, rfl⟩
        · simp [SkipLoop, hstep, setSkip_Type, hty, countKind_cons_eq]
          rw [add_assoc]
        · simp [SkipLoop, hstep, setSkip_Type, hty, countKind_cons_ne]
      · refine ⟨⟨n, .Object⟩ :: top, by simp [hs], fun fuel => ?_⟩
        rcases hKE with ⟨rfl, rfl⟩ | ⟨rfl, rfl⟩
        · simp [SkipLoop, hstep, setSkip_Type, hty, countKind_cons_ne]
        · simp [SkipLoop, hstep, setSkip_Type, hty, countKind_cons_eq]
          rw [add_assoc]
      · have hk := hEA hty
        cases top with
        | nil =>
          simp at hs
          rw [← hs.2] at hdepth
          exact absurd hdepth (Nat.lt_irrefl _)
        | cons g top1 =>
          simp at hs
          obtain ⟨rfl, hs⟩ := hs
          have hg : g.Type_ = .Array := by simpa [topKind, hstk] using hk
          refine ⟨top1, hs.symm, fun fuel => ?_⟩
          rcases hKE with ⟨rfl, rfl⟩ | ⟨rfl, rfl⟩
          · simp [SkipLoop, hstep, setSkip_Type, hty, countKind_cons_eq _ _ _ hg]
            rw [if_neg (by omega), add_comm]
          · simp [SkipLoop, hstep, setSkip_Type, hty, countKind_cons_ne, hg]
      · have hk := hEO hty
        cases top with
        | nil =>
          simp at hs
          rw [← hs.2] at hdepth
          exact absurd hdepth (Nat.lt_irrefl _)
        | cons g top1 =>
          simp at hs
          obtain ⟨rfl, hs⟩ := hs
          have hg : g.Type_ = .Object := by simpa [topKind, hstk] using hk
          refine ⟨top1, hs.symm, fun fuel => ?_⟩
          rcases hKE with ⟨rfl, rfl⟩ | ⟨rfl, rfl⟩
          · simp [SkipLoop, hstep, setSkip_Type, hty, countKind_cons_ne, hg]
          · simp [SkipLoop, hstep, setSkip_Type, hty, countKind_cons_eq _ _ _ hg]
            rw [if_neg (by omega), add_comm]
      · refine ⟨top, hs, fun fuel => ?_⟩
        rcases hKE with ⟨rfl, rfl⟩ | ⟨rfl, rfl⟩ <;> rcases hty with hty | hty <;>
          simp [SkipLoop, hstep, setSkip_Type, hty]
    obtain ⟨top1, hstk1, hloop⟩ := key
    obtain ⟨top2, h1, h2, h3, h4, h5, h6⟩ := ih r1 top1 hstk1 hcons1 hrest
    refine ⟨top2, h1, h2, by rw [lastReader_cons, h3, hblob], ?_, ?_, fun extra => ?_⟩
    · rw [lastReader_cons]; simp only [List.length_cons]; omega
    · intro _
      rw [lastReader_cons]
      by_cases hrs : rs = []
      · subst hrs; simpa [lastReader] using hend
      · have := h5 hrs; rw [hblob] at this; exact this
    · rw [lastReader_cons, ← h6 extra]
      have : (r1 :: rs).length + extra = (rs.length + extra) + 1 := by
        simp only [List.length_cons]; omega
      rw [this, hloop]


/-- A call of `ReadNext` that returns an Array or Object token leaves a reader
whose current token is a container start. -/
theorem AtContainerStart_of_token (r0 r : JsonReader) (hc : Consistent r0._State r0._Type)
    (h : ReadNext r0 = .ok (true, r)) (hty : r._Type = .Array ∨ r._Type = .Object) :
    AtContainerStart r := by
  obtain ⟨_, _, _, heff⟩ := ReadNext_token r0 r hc h
  rcases heff with ⟨h1, h2, n, hs⟩ | ⟨h1, h2, n, hs⟩ | ⟨h1, _, _⟩ | ⟨h1, _, _⟩ | ⟨h1, _, _⟩
  · exact ⟨hty, by simp [topKind, hs, h1], by simp [h2], by simp [h2]⟩
  · exact ⟨hty, by simp [topKind, hs, h1], by simp [h2], by simp [h2]⟩
  · rcases hty with h | h <;> simp [h1] at h
  · rcases hty with h | h <;> simp [h1] at h
  · rcases hty with h | h <;> rcases h1 with h1 | h1 <;> simp [h1] at h

/-- The stack of a reader whose current token is a container start: the frame of
the container on top of the rest. -/
theorem AtContainerStart_stack (r : JsonReader) (h : AtContainerStart r) :
    ∃ F below, r._ParseStack = F :: below ∧ F.Type_ = r._Type ∧
      below.length = r._ParseStack.length - 1 := by
  obtain ⟨_, htop, _, _⟩ := h
  cases hs : r._ParseStack with
  | nil => simp [topKind, hs] at htop
  | cons F below =>
    refine ⟨F, below, rfl, ?_, by simp⟩
    simpa [topKind, hs] using htop

/-- The loop of `ReadNextValue` from a container start, over the descendant
events: it arrives at the last of the readers with a counter of at least one,
and the calls made so far fit in the unread bytes. -/
theorem SkipLoop_from_start (r : JsonReader) (rs : List JsonReader)
    (hstart : AtContainerStart r)
    (hdesc : DescendantCalls (r._ParseStack.length - 1) r rs) :
    ∃ F below top1, r._ParseStack = F :: below ∧ F.Type_ = r._Type ∧
      (lastReader r rs)._ParseStack = top1 ++ F :: below ∧
      Consistent (lastReader r rs)._State (lastReader r rs)._Type ∧
      (lastReader r rs).blob = r.blob ∧
      r._pszCur + rs.length ≤ (lastReader r rs)._pszCur ∧
      (rs ≠ [] → (lastReader r rs)._pszCur ≤ r.blob.length) ∧
      ∀ extra : Nat,
        SkipLoop r._Type (if r._Type = .Array then .EndArray else .EndObject)
            (rs.length + extra) 1 (setSkip true r) =
          SkipLoop r._Type (if r._Type = .Array then .EndArray else .EndObject) extra
            (1 + countKind r._Type top1) (setSkip true (lastReader r rs)) := by
  obtain ⟨F, below, hstk, hF, hlen⟩ := AtContainerStart_stack r hstart
  obtain ⟨hty, _, hs1, hs2⟩ := hstart
  have hKE : (r._Type = .Array ∧ (if r._Type = .Array then NodeType.EndArray
        else NodeType.EndObject) = .EndArray) ∨
      (r._Type = .Object ∧ (if r._Type = .Array then NodeType.EndArray
        else NodeType.EndObject) = .EndObject) := by
    rcases hty with h | h <;> simp [h]
  have hcons : Consistent r._State r._Type := ⟨fun h => absurd h hs1, fun h => absurd h hs2⟩
  rw [← hlen] at hdesc
  obtain ⟨top1, h1, h2, h3, h4, h5, h6⟩ :=
    SkipLoop_descend _ _ hKE F hF below rs r [] (by simpa using hstk) hcons hdesc
  refine ⟨F, below, top1, hstk, hF, h1, h2, h3, h4, h5, fun extra => ?_⟩
  have := h6 extra
  simpa [countKind] using this

/-- C10: `ReadNextValue` as a skip.  (1) When the current token is a container
start and the following calls of `ReadNext` return the descendant events of the
container (the readers `rs`) and then its matching end (the reader `rEnd`, whose
stack no longer holds the frame of the container), `ReadNextValue` returns what
one more `ReadNext` on `rEnd` returns, with the same reader but for `_Skip`, which
it leaves false.  (2) When the current token is not Array or Object,
`ReadNextValue` is `ReadNext`.  (3) When the calls return descendant events and
then false, before the matching end, `ReadNextValue` returns false.  (4) When
the calls return descendant events and then one halts, `ReadNextValue` halts in
the same way. -/
theorem ReadNextValue_skips_container (r : JsonReader) (rs : List JsonReader)
    (rEnd : JsonReader) (f : Fault) :
    (AtContainerStart r → DescendantCalls (r._ParseStack.length - 1) r rs →
      MatchedCall (lastReader r rs) rEnd →
      rEnd._ParseStack.length = r._ParseStack.length - 1 →
      ReadNextValue r = some ((ReadNext rEnd).map (fun p => (p.1, setSkip false p.2)))) ∧
    (¬ (r._Type = .Array ∨ r._Type = .Object) → ReadNextValue r = some (ReadNext r)) ∧
    (AtContainerStart r → DescendantCalls (r._ParseStack.length - 1) r rs →
      ReadNext (lastReader r rs) = .ok (false, rEnd) →
      ReadNextValue r = some (.ok (false, setSkip false rEnd))) ∧
    (AtContainerStart r → DescendantCalls (r._ParseStack.length - 1) r rs →
      ReadNext (lastReader r rs) = .error f →
      ReadNextValue r = some (.error f)) := by
  refine ⟨?_, ?_, ?_, ?_⟩
  · intro hstart hdesc ⟨hcall, hEA, hEO⟩ hdepth
    obtain ⟨F, below, top1, hstk, hF, h1, h2, h3, h4, h5, h6⟩ :=
      SkipLoop_from_start r rs hstart hdesc
    obtain ⟨k1, k2, k3, k4⟩ := ReadNext_token _ rEnd h2 hcall
    have hlen : r._ParseStack.length - 1 = below.length := by simp [hstk]
    rw [hlen] at hdepth
    have hstep : ReadNext (setSkip true (lastReader r rs)) = .ok (true, setSkip true rEnd) := by
      rw [ReadNext_setSkip, hcall]; rfl
    -- the matching end pops the frame of the container
    have hpop : top1 = [] ∧ (rEnd._Type = .EndArray ∨ rEnd._Type = .EndObject) := by
      rw [h1] at k4
      rcases k4 with ⟨_, _, n, hs⟩ | ⟨_, _, n, hs⟩ | ⟨hty, _, f, hs⟩ | ⟨hty, _, f, hs⟩ |
        ⟨_, _, hs⟩
      · rw [hs] at hdepth; simp at hdepth; omega
      · rw [hs] at hdepth; simp at hdepth; omega
      · have := congrArg List.length hs
        simp [hdepth] at this
        exact ⟨this, Or.inl hty⟩
      · have := congrArg List.length hs
        simp [hdepth] at this
        exact ⟨this, Or.inr hty⟩
      · rw [hs] at hdepth; simp at hdepth; omega
    obtain ⟨rfl, hend⟩ := hpop
    have hFtop : topKind (lastReader r rs) = some F.Type_ := by simp [topKind, h1]
    have hfuel : r.blob.length - r._pszCur + 1 =
        rs.length + (r.blob.length - r._pszCur - rs.length + 1) := by
      rw [h3] at k3; omega
    have hexit : SkipLoop r._Type (if r._Type = .Array then .EndArray else .EndObject)
        (r.blob.length - r._pszCur + 1) 1 (setSkip true r) =
          some (.ok (0, setSkip true rEnd)) := by
      rw [hfuel, h6]
      rcases hend with hty | hty
      · have hk : F.Type_ = .Array := by
          have := hEA hty; rw [hFtop] at this; simpa using this
        have hK : r._Type = .Array := by rw [← hF, hk]
        simp [SkipLoop, hstep, setSkip_Type, hty, hK, countKind]
      · have hk : F.Type_ = .Object := by
          have := hEO hty; rw [hFtop] at this; simpa using this
        have hK : r._Type = .Object := by rw [← hF, hk]
        simp [SkipLoop, hstep, setSkip_Type, hty, hK, countKind]
    have hcont : r._Type = .Array ∨ r._Type = .Object := hstart.1
    unfold ReadNextValue
    rw [if_neg (not_not.mpr hcont), hexit]
    simp [setSkip_setSkip, ReadNext_setSkip]
  · intro h
    unfold ReadNextValue
    rw [if_pos h]
  · intro hstart hdesc hcall
    obtain ⟨F, below, top1, hstk, hF, h1, h2, h3, h4, h5, h6⟩ :=
      SkipLoop_from_start r rs hstart hdesc
    have hstep : ReadNext (setSkip true (lastReader r rs)) = .ok (false, setSkip true rEnd) := by
      rw [ReadNext_setSkip, hcall]; rfl
    have hfuel : r.blob.length - r._pszCur + 1 =
        rs.length + (r.blob.length - r._pszCur - rs.length + 1) := by
      by_cases hrs : rs = []
      · subst hrs; simp
      · have := h5 hrs; omega
    have hexit : SkipLoop r._Type (if r._Type = .Array then .EndArray else .EndObject)
        (r.blob.length - r._pszCur + 1) 1 (setSkip true r) =
          some (.ok (1 + countKind r._Type top1, setSkip true rEnd)) := by
      rw [hfuel, h6]
      simp [SkipLoop, hstep]
    have hcont : r._Type = .Array ∨ r._Type = .Object := hstart.1
    unfold ReadNextValue
    rw [if_neg (not_not.mpr hcont), hexit]
    have hne : (1 + (countKind r._Type top1 : Int)) ≠ 0 := by omega
    simp [setSkip_setSkip, hne]
  · intro hstart hdesc hcall
    obtain ⟨F, below, top1, hstk, hF, h1, h2, h3, h4, h5, h6⟩ :=
      SkipLoop_from_start r rs hstart hdesc
    have hstep : ReadNext (setSkip true (lastReader r rs)) = .error f := by
      rw [ReadNext_setSkip, hcall]; rfl
    have hfuel : r.blob.length - r._pszCur + 1 =
        rs.length + (r.blob.length - r._pszCur - rs.length + 1) := by
      by_cases hrs : rs = []
      · subst hrs; simp
      · have := h5 hrs; omega
    have hexit : SkipLoop r._Type (if r._Type = .Array then .EndArray else .EndObject)
        (r.blob.length - r._pszCur + 1) 1 (setSkip true r) = some (.error f) := by
      rw [hfuel, h6]
      simp [SkipLoop, hstep]
    have hcont : r._Type = .Array ∨ r._Type = .Object := hstart.1
    unfold ReadNextValue
    rw [if_neg (not_not.mpr hcont), hexit]


/-- C10 on the input `{"a":[1,[2]],"b":3}`: after the token Array("a") (two calls),
`ReadNextValue` passes over Int 1, Array, Int 2, EndArray and EndArray("a") and
returns the token Int("b", 3), the reader being the one after eight calls of
`ReadNext`; after the token Int 1 it is `ReadNext`; on the truncated input
`[1,[2`, after the token Array, it returns false; and on the input `[{}]`, after
the token Array, it halts where the third `ReadNext` halts. -/
theorem ReadNextValue_skips_container_witness :
    (ReadNextValue (readerAfter 2 (JsonReader.new sampleDocument .None 0 false)) =
        some (.ok (true, readerAfter 8 (JsonReader.new sampleDocument .None 0 false))) ∧
      (readerAfter 8 (JsonReader.new sampleDocument .None 0 false)).event =
        .Int (bytes "b") 3) ∧
    ReadNextValue (readerAfter 3 (JsonReader.new sampleDocument .None 0 false)) =
      some (ReadNext (readerAfter 3 (JsonReader.new sampleDocument .None 0 false))) ∧
    ReadNextValue (readerAfter 1 (JsonReader.new sampleTruncated .None 0 false)) =
      some (.ok (false, readerAfter 5 (JsonReader.new sampleTruncated .None 0 false))) ∧
    ReadNextValue (readerAfter 1 (JsonReader.new (bytes "[\x7b\x7d]") .None 0 false)) =
      some (.error ⟨.UnexpectedCharacter, 2, .StartReadName⟩) :=
  ⟨⟨(ReadNextValue_skips_container
        (readerAfter 2 (JsonReader.new sampleDocument .None 0 false))
        [readerAfter 3 (JsonReader.new sampleDocument .None 0 false),
         readerAfter 4 (JsonReader.new sampleDocument .None 0 false),
         readerAfter 5 (JsonReader.new sampleDocument .None 0 false),
         readerAfter 6 (JsonReader.new sampleDocument .None 0 false)]
        (readerAfter 7 (JsonReader.new sampleDocument .None 0 false))
        ⟨.UnexpectedCharacter, 0, .StartReadValue⟩).1
      ⟨Or.inl rfl, rfl, by decide, by decide⟩
      ⟨⟨rfl, by decide, by decide⟩, by decide, ⟨rfl, by decide, by decide⟩, by decide,
        ⟨rfl, by decide, by decide⟩, by decide, ⟨rfl, by decide, by decide⟩, by decide,
        True.intro⟩
      ⟨rfl, by decide, by decide⟩ rfl, rfl⟩,
    (ReadNextValue_skips_container
        (readerAfter 3 (JsonReader.new sampleDocument .None 0 false)) []
        (readerAfter 3 (JsonReader.new sampleDocument .None 0 false))
        ⟨.UnexpectedCharacter, 0, .StartReadValue⟩).2.1 (by decide),
    (ReadNextValue_skips_container
        (readerAfter 1 (JsonReader.new sampleTruncated .None 0 false))
        [readerAfter 2 (JsonReader.new sampleTruncated .None 0 false),
         readerAfter 3 (JsonReader.new sampleTruncated .None 0 false),
         readerAfter 4 (JsonReader.new sampleTruncated .None 0 false)]
        (readerAfter 5 (JsonReader.new sampleTruncated .None 0 false))
        ⟨.UnexpectedCharacter, 0, .StartReadValue⟩).2.2.1
      ⟨Or.inl rfl, rfl, by decide, by decide⟩
      ⟨⟨rfl, by decide, by decide⟩, by decide, ⟨rfl, by decide, by decide⟩, by decide,
        ⟨rfl, by decide, by decide⟩, by decide, True.intro⟩
      rfl,
    (ReadNextValue_skips_container
        (readerAfter 1 (JsonReader.new (bytes "[\x7b\x7d]") .None 0 false))
        [readerAfter 2 (JsonReader.new (bytes "[\x7b\x7d]") .None 0 false)]
        (readerAfter 2 (JsonReader.new (bytes "[\x7b\x7d]") .None 0 false))
        ⟨.UnexpectedCharacter, 2, .StartReadName⟩).2.2.2
      ⟨Or.inl rfl, rfl, by decide, by decide⟩
      ⟨⟨rfl, by decide, by decide⟩, by decide, True.intro⟩
      rfl⟩

/-! ### Exhausted input -/

/-- At the end of the buffer `ReadNext` returns false and keeps the cursor, the
state, the stack and the buffer. -/
theorem ReadNext_exhausted (r : JsonReader) (hend : r._pszCur = r.blob.length) :
    ∃ r1, ReadNext r = .ok (false, r1) ∧ r1._pszCur = r._pszCur ∧ r1._State = r._State ∧
      r1._ParseStack = r._ParseStack ∧ r1.blob = r.blob := by
  obtain ⟨st, stk, blob, cur, ty, nm, val, iv, re, sk⟩ := r
  simp only at hend
  subst hend
  simp only [ReadNext, List.drop_length]
  split_ifs
  · exact ⟨_, rfl, rfl, rfl, rfl, rfl⟩
  · exact ⟨_, rfl, rfl, rfl, rfl, rfl⟩

/-- C11: for every reader whose cursor is at the end of the buffer, `ReadNext`
returns false and leaves the cursor, the parse state and the parse stack as
they were; the same holds for every later call, whatever the number `n` of calls
made in between. -/
theorem ReadNext_exhausted_stable (r : JsonReader) (hend : r._pszCur = r.blob.length) :
    (∃ r1, ReadNext r = .ok (false, r1) ∧ r1._pszCur = r._pszCur ∧ r1._State = r._State ∧
      r1._ParseStack = r._ParseStack) ∧
    ∀ n : Nat, ∃ r2, ReadNext (readerAfter n r) = .ok (false, r2) ∧ r2._pszCur = r._pszCur ∧
      r2._State = r._State ∧ r2._ParseStack = r._ParseStack := by
  have later : ∀ (n : Nat) (x : JsonReader), x._pszCur = x.blob.length →
      ∃ r2, ReadNext (readerAfter n x) = .ok (false, r2) ∧ r2._pszCur = x._pszCur ∧
        r2._State = x._State ∧ r2._ParseStack = x._ParseStack := by
    intro n
    induction n with
    | zero =>
      intro x hx
      obtain ⟨r1, h, h1, h2, h3, _⟩ := ReadNext_exhausted x hx
      exact ⟨r1, h, h1, h2, h3⟩
    | succ n ih =>
      intro x hx
      obtain ⟨r1, h, h1, h2, h3, h4⟩ := ReadNext_exhausted x hx
      obtain ⟨r2, k, k1, k2, k3⟩ := ih r1 (by rw [h1, h4]; exact hx)
      refine ⟨r2, ?_, by rw [k1, h1], by rw [k2, h2], by rw [k3, h3]⟩
      simpa [readerAfter, h] using k
  refine ⟨?_, fun n => later n r hend⟩
  obtain ⟨r1, h, h1, h2, h3, _⟩ := ReadNext_exhausted r hend
  exact ⟨r1, h, h1, h2, h3⟩

/-- C11 on the input `[1`, after the two calls that return Array and Int 1: the
third call and the sixth both return false, with the cursor at 2. -/
theorem ReadNext_exhausted_stable_witness :
    (∃ r1, ReadNext (readerAfter 2 (JsonReader.new (bytes "[1") .None 0 false)) = .ok (false, r1) ∧
      r1._pszCur = 2 ∧ r1._State = .EndReadValue ∧ r1._ParseStack = [⟨[], .Array⟩]) ∧
    ∃ r2, ReadNext (readerAfter 3 (readerAfter 2 (JsonReader.new (bytes "[1") .None 0 false))) =
        .ok (false, r2) ∧
      r2._pszCur = 2 ∧ r2._State = .EndReadValue ∧ r2._ParseStack = [⟨[], .Array⟩] :=
  ⟨(ReadNext_exhausted_stable (readerAfter 2 (JsonReader.new (bytes "[1") .None 0 false)) rfl).1,
   (ReadNext_exhausted_stable (readerAfter 2 (JsonReader.new (bytes "[1") .None 0 false)) rfl).2 3⟩

/-! ### The writer only appends -/

/-- The loop of `WriteString` appends to what is there. -/
theorem WriteStringLoop_append (s : List Nat) (res : List Nat) :
    WriteStringLoop s res = res ++ WriteStringLoop s [] := by
  induction s generalizing res with
  | nil => simp [WriteStringLoop]
  | cons c s ih =>
    simp only [WriteStringLoop, List.nil_append]
    split_ifs
    · simp
    all_goals
      rw [ih (res ++ _), ih (_ :: _)]
      simp

/-- `WriteString` appends a quoted text. -/
theorem WriteString_eq (w : JsonWriter) (v : List Nat) :
    WriteString w v = ⟨w._Result ++ (34 :: (WriteStringLoop v [] ++ [34])), w._Ident, w._AddSep⟩ := by
  obtain ⟨res, ident, sep⟩ := w
  simp only [WriteString]
  rw [WriteStringLoop_append]
  simp

/-- `WriteNameWorker` appends the pending comma, the quoted name and a colon, and
clears the flag. -/
theorem WriteNameWorker_eq (w : JsonWriter) (name : List Nat) :
    WriteNameWorker w name =
      ⟨w._Result ++ ((if w._AddSep then [44] else []) ++
        (34 :: (WriteStringLoop name [] ++ [34, 58]))), w._Ident, false⟩ := by
  obtain ⟨res, ident, sep⟩ := w
  cases sep <;> simp [WriteNameWorker, WriteString_eq]

/-- C14: for every writer state and every operation, the buffer before the
operation is an initial segment of the buffer after it: the operation (a total
function, it cannot fail) only appends bytes.  The same holds for every
sequence of operations. -/
theorem Result_append_only (w : JsonWriter) :
    (∀ op : WriterOp, ∃ suffix, Result (w.apply op) = Result w ++ suffix) ∧
    (∀ ops : List WriterOp, ∃ suffix, Result (w.run ops) = Result w ++ suffix) := by
  have one : ∀ (w : JsonWriter) (op : WriterOp),
      ∃ suffix, Result (w.apply op) = Result w ++ suffix := by
    intro w op
    obtain ⟨res, ident, sep⟩ := w
    cases op <;> cases sep <;>
      simp [JsonWriter.apply, Result, WriteName, WriteStringPair, WriteStringValue, WriteIntValue,
        WriteIntPair, WriteInt64Value, WriteInt64Pair, WriteObjectValueStart, WriteObjectValueEnd,
        WriteArrayValueStart, WriteArrayValueEnd, WriteNameWorker_eq, WriteString_eq]
  refine ⟨one w, fun ops => ?_⟩
  induction ops generalizing w with
  | nil => exact ⟨[], by simp [JsonWriter.run]⟩
  | cons op ops ih =>
    obtain ⟨s1, h1⟩ := one w op
    obtain ⟨s2, h2⟩ := ih (w.apply op)
    exact ⟨s1 ++ s2, by rw [JsonWriter.run, h2, h1, List.append_assoc]⟩


/-! ### Separators -/

/-- C12, what the code does: `WriteName` puts the pending comma in front of the
name, but the three value writes append the bytes of the value alone whether
`_AddSep` is set or not.  After `WriteIntValue(1)` on a fresh writer the flag is
set, and then `WriteIntValue(2)` gives `12`, `WriteInt64Value(2)` gives `12`,
`WriteStringValue("a")` gives `1"a"`, while `WriteName("a")` gives `1,"a":`. -/
theorem value_writes_put_no_separator (w : JsonWriter) (v : List Nat) (n : Int) :
    (Result (WriteName w v) =
        Result w ++ ((if w._AddSep then [44] else []) ++ (quoted v ++ [58])) ∧
      Result (WriteStringValue w v) = Result w ++ quoted v ∧
      Result (WriteIntValue w n) = Result w ++ decimalText n ∧
      Result (WriteInt64Value w n) = Result w ++ decimalText n) ∧
    ((WriteIntValue JsonWriter.new 1)._AddSep = true ∧
      Result (WriteIntValue (WriteIntValue JsonWriter.new 1) 2) = bytes "12" ∧
      Result (WriteInt64Value (WriteIntValue JsonWriter.new 1) 2) = bytes "12" ∧
      Result (WriteStringValue (WriteIntValue JsonWriter.new 1) (bytes "a")) = bytes "1\"a\"" ∧
      Result (WriteName (WriteIntValue JsonWriter.new 1) (bytes "a")) = bytes "1,\"a\":") := by
  refine ⟨⟨?_, ?_, ?_, ?_⟩, rfl, rfl, rfl, rfl, rfl⟩
  · simp [Result, WriteName, WriteNameWorker_eq, quoted]
  · obtain ⟨res, ident, sep⟩ := w
    simp [Result, WriteStringValue, WriteString_eq, quoted]
  · obtain ⟨res, ident, sep⟩ := w
    simp [Result, WriteIntValue, i64toa]
  · obtain ⟨res, ident, sep⟩ := w
    simp [Result, WriteInt64Value, i64toa]

/-- The bytes of an operation follow the separator it may push. -/
theorem apply_Result (w : JsonWriter) (op : WriterOp) :
    (w.apply op)._Result =
      w._Result ++ ((match separatorOf w op with | some _ => [44] | none => []) ++ opBody op) := by
  obtain ⟨res, ident, sep⟩ := w
  cases op <;> cases sep <;>
    simp [JsonWriter.apply, separatorOf, opBody, quoted, WriteName, WriteStringPair,
      WriteStringValue, WriteIntValue, WriteIntPair, WriteInt64Value, WriteInt64Pair,
      WriteObjectValueStart, WriteObjectValueEnd, WriteArrayValueStart, WriteArrayValueEnd,
      WriteNameWorker_eq, WriteString_eq, i64toa]

/-- The decimal text of an integer starts with a digit or `-` and ends with a digit. -/
theorem decimalText_ends (x : Int) :
    (∃ c, (decimalText x).head? = some c ∧ (isDigit c = true ∨ c = 45)) ∧
    (∃ b, (decimalText x).getLast? = some b ∧ isDigit b = true) := by
  cases x with
  | ofNat n =>
    obtain ⟨d, ds, heq, hd, hds, _⟩ := natText_shape n
    simp only [decimalText, heq]
    refine ⟨⟨d, rfl, Or.inl hd⟩, ?_⟩
    have hne : d :: ds ≠ [] := by simp
    refine ⟨(d :: ds).getLast hne, List.getLast?_eq_getLast _ hne, ?_⟩
    rcases List.mem_cons.mp (List.getLast_mem hne) with h | h
    · rw [h]; exact hd
    · exact hds _ h
  | negSucc n =>
    obtain ⟨d, ds, heq, hd, hds, _⟩ := natText_shape (n + 1)
    simp only [decimalText, heq]
    refine ⟨⟨45, rfl, Or.inr rfl⟩, ?_⟩
    have hne : d :: ds ≠ [] := by simp
    refine ⟨(d :: ds).getLast hne, ?_, ?_⟩
    · rw [List.getLast?_cons_cons, List.getLast?_eq_getLast _ hne]
    · rcases List.mem_cons.mp (List.getLast_mem hne) with h | h
      · rw [h]; exact hd
      · exact hds _ h


/-- The last byte of a quoted text is the closing quote. -/
theorem quoted_getLast (v : List Nat) : (quoted v).getLast? = some 34 := by
  simp [quoted, List.getLast?_cons]

/-- The first byte of a quoted text is the opening quote. -/
theorem quoted_head (v : List Nat) : (quoted v).head? = some 34 := rfl

/-- A digit is not a comma. -/
theorem isDigit_ne_comma (b : Nat) (h : isDigit b = true) : b ≠ 44 := by
  have := isDigit_bounds b h; omega

/-- The bytes of an operation neither start nor end with a comma. -/
theorem opBody_ends (op : WriterOp) :
    (∃ c, (opBody op).head? = some c ∧ c ≠ 44) ∧
    (∃ b, (opBody op).getLast? = some b ∧ b ≠ 44) := by
  have hd : ∀ x : Int, ∃ c, (decimalText x).head? = some c ∧ c ≠ 44 := by
    intro x
    obtain ⟨⟨c, h1, h2⟩, _⟩ := decimalText_ends x
    refine ⟨c, h1, ?_⟩
    rcases h2 with h | h
    · exact isDigit_ne_comma c h
    · omega
  have hl : ∀ x : Int, ∃ b, (decimalText x).getLast? = some b ∧ b ≠ 44 := by
    intro x
    obtain ⟨_, b, h1, h2⟩ := decimalText_ends x
    exact ⟨b, h1, isDigit_ne_comma b h2⟩
  cases op with
  | Name name => exact ⟨⟨34, by simp [opBody, quoted], by decide⟩, ⟨58, by simp [opBody], by decide⟩⟩
  | StringPair name value =>
    exact ⟨⟨34, by simp [opBody, quoted], by decide⟩,
      ⟨34, by simp [opBody, quoted_getLast, List.getLast?_cons], by decide⟩⟩
  | StringValue value =>
    exact ⟨⟨34, by simp [opBody, quoted], by decide⟩,
      ⟨34, by simp [opBody, quoted_getLast, List.getLast?_cons], by decide⟩⟩
  | IntValue val => exact ⟨hd val, hl val⟩
  | IntPair name val =>
    obtain ⟨b, h1, h2⟩ := hl val
    exact ⟨⟨34, by simp [opBody, quoted], by decide⟩, ⟨b, by simp [opBody, h1, List.getLast?_cons], h2⟩⟩
  | Int64Value val => exact ⟨hd val, hl val⟩
  | Int64Pair name val =>
    obtain ⟨b, h1, h2⟩ := hl val
    exact ⟨⟨34, by simp [opBody, quoted], by decide⟩, ⟨b, by simp [opBody, h1, List.getLast?_cons], h2⟩⟩
  | ObjectValueStart => exact ⟨⟨10, rfl, by decide⟩, ⟨123, rfl, by decide⟩⟩
  | ObjectValueEnd => exact ⟨⟨125, rfl, by decide⟩, ⟨125, rfl, by decide⟩⟩
  | ArrayValueStart => exact ⟨⟨91, rfl, by decide⟩, ⟨91, rfl, by decide⟩⟩
  | ArrayValueEnd => exact ⟨⟨93, rfl, by decide⟩, ⟨93, rfl, by decide⟩⟩

/-- An operation that leaves `_AddSep` set has appended a completed value. -/
theorem opBody_valueEnd (w : JsonWriter) (op : WriterOp) (h : (w.apply op)._AddSep = true) :
    ∃ b, (opBody op).getLast? = some b ∧ valueEndByte b := by
  have hl : ∀ x : Int, ∃ b, (decimalText x).getLast? = some b ∧ valueEndByte b := by
    intro x
    obtain ⟨_, b, h1, h2⟩ := decimalText_ends x
    exact ⟨b, h1, Or.inr (Or.inl h2)⟩
  obtain ⟨res, ident, sep⟩ := w
  cases op with
  | Name name => simp [JsonWriter.apply, WriteName, WriteNameWorker_eq] at h
  | StringPair name value => exact ⟨34, by simp [opBody, quoted_getLast, List.getLast?_cons], Or.inl rfl⟩
  | StringValue value => exact ⟨34, by simp [opBody, quoted_getLast, List.getLast?_cons], Or.inl rfl⟩
  | IntValue val => exact hl val
  | IntPair name val =>
    obtain ⟨b, h1, h2⟩ := hl val
    exact ⟨b, by simp [opBody, h1, List.getLast?_cons], h2⟩
  | Int64Value val => exact hl val
  | Int64Pair name val =>
    obtain ⟨b, h1, h2⟩ := hl val
    exact ⟨b, by simp [opBody, h1, List.getLast?_cons], h2⟩
  | ObjectValueStart =>
    cases sep <;> simp [JsonWriter.apply, WriteObjectValueStart] at h
  | ObjectValueEnd => exact ⟨125, rfl, Or.inr (Or.inr (Or.inl rfl))⟩
  | ArrayValueStart =>
    cases sep <;> simp [JsonWriter.apply, WriteArrayValueStart] at h
  | ArrayValueEnd => exact ⟨93, rfl, Or.inr (Or.inr (Or.inr rfl))⟩

/-- An operation that pushes a separator pushes it at the end of the buffer,
with `_AddSep` set, and goes on with the opening of a name or of a container. -/
theorem separatorOf_some (w : JsonWriter) (op : WriterOp) (p : Nat)
    (h : separatorOf w op = some p) :
    p = w._Result.length ∧ w._AddSep = true ∧
      ((opBody op)[0]? = some 34 ∨ (opBody op)[0]? = some 91 ∨
        ((opBody op)[0]? = some 10 ∧ (opBody op)[1]? = some 123)) := by
  obtain ⟨res, ident, sep⟩ := w
  cases op <;> cases sep <;> simp [separatorOf] at h <;>
    exact ⟨h.symm, rfl, by simp [opBody, quoted]⟩


/-- The bytes an operation appends: the separator when it pushes one, then its
own bytes. -/
theorem apply_Result_cases (w : JsonWriter) (op : WriterOp) :
    (separatorOf w op = none ∧ (w.apply op)._Result = w._Result ++ opBody op) ∨
    (∃ p, separatorOf w op = some p ∧ (w.apply op)._Result = w._Result ++ 44 :: opBody op) := by
  have h := apply_Result w op
  cases hs : separatorOf w op with
  | none => left; rw [hs] at h; exact ⟨rfl, by simpa using h⟩
  | some p => right; rw [hs] at h; exact ⟨p, rfl, by simpa using h⟩

/-- Every operation keeps the writer well separated. -/
theorem WellSeparated_apply (w : JsonWriter) (op : WriterOp) (hw : WellSeparated w) :
    WellSeparated (w.apply op) := by
  obtain ⟨hhead, hlast, hsep⟩ := hw
  obtain ⟨⟨c, hc, hc44⟩, ⟨b, hb, hb44⟩⟩ := opBody_ends op
  have hlast' : ∀ pre : List Nat, (pre ++ opBody op).getLast? = some b := by
    intro pre; simp [hb]
  rcases apply_Result_cases w op with ⟨_, hres⟩ | ⟨p, hp, hres⟩
  · refine ⟨?_, ?_, ?_⟩
    · rw [hres, List.head?_append]
      cases hR : w._Result.head? with
      | none => simpa [hc] using hc44
      | some x => rw [hR] at hhead; simpa using hhead
    · rw [hres, hlast']; simpa using hb44
    · intro h
      obtain ⟨e, he, hv⟩ := opBody_valueEnd w op h
      exact ⟨e, by rw [hres]; simp [he], hv⟩
  · obtain ⟨_, hflag, _⟩ := separatorOf_some w op p hp
    obtain ⟨e, he, _⟩ := hsep hflag
    have hcons : ∀ pre : List Nat, (pre ++ 44 :: opBody op).getLast? = some b := by
      intro pre
      have := hlast' (pre ++ [44])
      simpa using this
    refine ⟨?_, ?_, ?_⟩
    · rw [hres, List.head?_append]
      cases hR : w._Result with
      | nil => simp [hR] at he
      | cons x xs => rw [hR] at hhead; simpa using hhead
    · rw [hres, hcons]; simpa using hb44
    · intro h
      obtain ⟨e2, he2, hv⟩ := opBody_valueEnd w op h
      rw [hb] at he2
      exact ⟨b, by rw [hres, hcons], by rw [Option.some.inj he2]; exact hv⟩

/-- Bytes appended later do not disturb a separator already placed. -/
theorem SeparatorPlaced_append (out more : List Nat) (p : Nat) (h : SeparatorPlaced out p) :
    SeparatorPlaced (out ++ more) p := by
  have keep : ∀ (k x : Nat), out[k]? = some x → (out ++ more)[k]? = some x := by
    intro k x hk
    have hlt : k < out.length := by
      by_contra hge
      rw [List.getElem?_eq_none (by omega)] at hk
      cases hk
    rw [List.getElem?_append_left hlt, hk]
  obtain ⟨h1, ⟨b, hb0, hb, hv⟩, h3⟩ := h
  refine ⟨keep _ _ h1, ⟨b, hb0, keep _ _ hb, hv⟩, ?_⟩
  rcases h3 with h | h | ⟨h, h'⟩
  · exact Or.inl (keep _ _ h)
  · exact Or.inr (Or.inl (keep _ _ h))
  · exact Or.inr (Or.inr ⟨keep _ _ h, keep _ _ h'⟩)

/-- The separator an operation pushes is placed as the specification asks. -/
theorem SeparatorPlaced_apply (w : JsonWriter) (op : WriterOp) (p : Nat)
    (hw : WellSeparated w) (hp : separatorOf w op = some p) :
    SeparatorPlaced (w.apply op)._Result p := by
  obtain ⟨rfl, hflag, hopen⟩ := separatorOf_some w op p hp
  obtain ⟨e, he, hv⟩ := hw.2.2 hflag
  have hres : (w.apply op)._Result = w._Result ++ 44 :: opBody op := by
    rcases apply_Result_cases w op with ⟨hn, _⟩ | ⟨_, _, h⟩
    · rw [hn] at hp; cases hp
    · exact h
  have hpos : 0 < w._Result.length := by
    cases hR : w._Result with
    | nil => simp [hR] at he
    | cons x xs => simp
  have at1 : ∀ k : Nat, (w._Result ++ 44 :: opBody op)[w._Result.length + (k + 1)]? =
      (opBody op)[k]? := by
    intro k
    rw [List.getElem?_append_right (by omega)]
    have : w._Result.length + (k + 1) - w._Result.length = k + 1 := by omega
    rw [this]; simp
  refine ⟨?_, ⟨e, hpos, ?_, hv⟩, ?_⟩
  · rw [hres, List.getElem?_append_right (Nat.le_refl _)]; simp
  · rw [hres, List.getElem?_append_left (by omega), ← List.getLast?_eq_getElem?, he]
  · rw [hres]
    have e1 := at1 0
    have e2 := at1 1
    simp only [Nat.zero_add] at e1
    rw [show w._Result.length + 2 = w._Result.length + (1 + 1) from rfl, e1, e2]
    exact hopen

/-- Along a sequence of operations the writer stays well separated and every
separator pushed is placed as the specification asks. -/
theorem separators_placed (ops : List WriterOp) :
    ∀ w : JsonWriter, WellSeparated w →
      WellSeparated (w.run ops) ∧
      ∀ p ∈ separators w ops, SeparatorPlaced (w.run ops)._Result p := by
  induction ops with
  | nil => intro w hw; exact ⟨hw, by simp [separators]⟩
  | cons op ops ih =>
    intro w hw
    have hw1 := WellSeparated_apply w op hw
    obtain ⟨hfin, hseps⟩ := ih (w.apply op) hw1
    refine ⟨hfin, ?_⟩
    intro p hp
    simp only [separators, List.mem_append] at hp
    rcases hp with hp | hp
    · have hsome : separatorOf w op = some p := by
        cases hs : separatorOf w op with
        | none => simp [hs] at hp
        | some q => simp [hs] at hp; rw [hp]
      obtain ⟨suffix, hsuf⟩ := (Result_append_only (w.apply op)).2 ops
      have := SeparatorPlaced_append _ suffix p (SeparatorPlaced_apply w op p hw hsome)
      simp only [Result] at hsuf
      rw [JsonWriter.run, hsuf]
      exact this
    · exact hseps p hp


/-- C13: for every finite sequence of operations applied to a fresh writer,
`Result()` does not begin with `,` and does not end with `,`; and every separator
comma the writer pushed is a comma of the output that comes right after the last
byte of a completed value (a closing `"`, a digit, `}` or `]`) and right before
the opening of a name or of a container, so that it neither follows `[` or `{`
nor precedes `]` or `}`. -/
theorem separators_never_stray (ops : List WriterOp) :
    (Result (JsonWriter.new.run ops)).head? ≠ some 44 ∧
    (Result (JsonWriter.new.run ops)).getLast? ≠ some 44 ∧
    ∀ p ∈ separators JsonWriter.new ops,
      SeparatorPlaced (Result (JsonWriter.new.run ops)) p ∧
      (Result (JsonWriter.new.run ops))[p - 1]? ≠ some 91 ∧
      (Result (JsonWriter.new.run ops))[p - 1]? ≠ some 123 ∧
      (Result (JsonWriter.new.run ops))[p + 1]? ≠ some 93 ∧
      (Result (JsonWriter.new.run ops))[p + 1]? ≠ some 125 := by
  have hnew : WellSeparated JsonWriter.new := by
    simp [WellSeparated, JsonWriter.new]
  obtain ⟨⟨h1, h2, _⟩, hseps⟩ := separators_placed ops JsonWriter.new hnew
  refine ⟨h1, h2, fun p hp => ?_⟩
  have hpl := hseps p hp
  refine ⟨hpl, ?_⟩
  obtain ⟨_, ⟨b, _, hb, hv⟩, hopen⟩ := hpl
  simp only [Result]
  have hb91 : b ≠ 91 ∧ b ≠ 123 := by
    rcases hv with h | h | h | h
    · omega
    · have := isDigit_bounds b h; omega
    · omega
    · omega
  refine ⟨?_, ?_, ?_, ?_⟩
  · rw [hb]; simpa using hb91.1
  · rw [hb]; simpa using hb91.2
  · rcases hopen with h | h | ⟨h, _⟩ <;> rw [h] <;> simp
  · rcases hopen with h | h | ⟨h, _⟩ <;> rw [h] <;> simp

/-! ### Writing an integer and reading it back -/

/-- The first digit `Nat.toDigitsCore` produces for a positive number is not `0`. -/
theorem toDigitsCore_head : ∀ (fuel n : Nat) (acc : List Char), n < fuel → 0 < n →
    ∃ d ds, (Nat.toDigitsCore 10 fuel n acc).map Char.toNat = d :: ds ∧ d ≠ 48
  | 0, n, _, h, _ => absurd h (Nat.not_lt_zero n)
  | fuel + 1, n, acc, h, hpos => by
    have hmod : n % 10 < 10 := Nat.mod_lt _ (by decide)
    simp only [Nat.toDigitsCore]
    by_cases hq : n / 10 = 0
    · refine ⟨48 + n % 10, acc.map Char.toNat, by simp [hq, digitChar_toNat _ hmod], ?_⟩
      omega
    · simp only [hq, if_false]
      exact toDigitsCore_head fuel (n / 10) _ (by omega) (by omega)

/-- The decimal text of a natural number has no leading zero, but for zero. -/
theorem natText_no_leading_zero (n : Nat) (d : Nat) (ds : List Nat)
    (h : (Nat.toDigits 10 n).map Char.toNat = d :: ds) (hd : d = 48) : ds = [] := by
  rcases Nat.eq_zero_or_pos n with h0 | hpos
  · subst h0
    have : (Nat.toDigits 10 0).map Char.toNat = [48] := by decide
    rw [this] at h
    simp at h
    exact h.2
  · obtain ⟨e, es, he, hne⟩ := toDigitsCore_head (n + 1) n [] (Nat.lt_succ_self n) hpos
    rw [Nat.toDigits] at h
    rw [h] at he
    simp at he
    exact absurd (he.1.symm.trans hd) hne


/-- The text the writer puts out for an integer is its canonical signed decimal
text. -/
theorem decimalText_canonical (v : Int) : IsDecimalOf (decimalText v) v := by
  cases v with
  | ofNat n =>
    obtain ⟨d, ds, heq, hd, hds, hval⟩ := natText_shape n
    refine ⟨d :: ds, by simp, ?_, ?_, ?_, ?_⟩
    · intro c hc
      rcases List.mem_cons.mp hc with h | h
      · rw [h]; exact hd
      · exact hds c h
    · intro h
      have hd48 : d = 48 := by simpa using h
      rw [natText_no_leading_zero n d ds heq hd48, hd48]
    · simpa using hval
    · have hn : ¬ (Int.ofNat n < 0) := by simp
      simp [decimalText, heq, hn]
  | negSucc n =>
    obtain ⟨d, ds, heq, hd, hds, hval⟩ := natText_shape (n + 1)
    refine ⟨d :: ds, by simp, ?_, ?_, ?_, ?_⟩
    · intro c hc
      rcases List.mem_cons.mp hc with h | h
      · rw [h]; exact hd
      · exact hds c h
    · intro h
      have hd48 : d = 48 := by simpa using h
      rw [natText_no_leading_zero (n + 1) d ds heq hd48, hd48]
    · simpa using hval
    · have hn : Int.negSucc n < 0 := Int.negSucc_lt_zero n
      simp [decimalText, heq, hn]

/-- A fresh reader over the decimal text of an integer that fits in 64 bits
returns one Int token with that value, then false. -/
theorem ReadNext_decimalText (v : Int) (hlo : -(2 ^ 63 : Int) ≤ v) (hhi : v < (2 ^ 63 : Int))
    (t : NodeType) (i : Int) (s : Bool) :
    ∃ r1 r2, ReadNext (JsonReader.new (decimalText v) t i s) = .ok (true, r1) ∧
      r1.event = .Int [] v ∧ ReadNext r1 = .ok (false, r2) := by
  obtain ⟨c, ds, heq, hc, hds, hval⟩ := decimalText_shape v hlo hhi
  have hread := ReadLoop_value_int c hc ds hds [] (by decide) [] (c :: ds) 0 t [] [] i false s
  rw [List.append_nil] at hread
  refine ⟨⟨.EndReadValue, [], c :: ds, 0 + (ds.length + 1), .Int, [], [] ++ c :: ds,
      atoi64 ([] ++ c :: ds), false, s⟩, ⟨.EndReadValue, [], c :: ds, 0 + (ds.length + 1),
      .Int, [], [], atoi64 ([] ++ c :: ds), false, s⟩, ?_, ?_, ?_⟩
  · rw [heq]
    simpa [ReadNext, JsonReader.new, InitState] using hread
  · simp [JsonReader.event, hval]
  · simp [ReadNext, ReadLoop]

/-- C15: for every signed 64-bit integer `v`, `WriteInt64Value(v)` on a fresh
writer gives exactly the signed base-10 text of `v` (a leading `-` for a negative
value, no `+`, no leading zero), and a reader over that result returns one Int
token with `Int64Value()` equal to `v`, then false. -/
theorem int64_write_then_read (v : Int) (hlo : -(2 ^ 63 : Int) ≤ v) (hhi : v < (2 ^ 63 : Int))
    (t : NodeType) (i : Int) (s : Bool) :
    IsDecimalOf (Result (WriteInt64Value JsonWriter.new v)) v ∧
    ∃ r1 r2, ReadNext (JsonReader.new (Result (WriteInt64Value JsonWriter.new v)) t i s)
        = .ok (true, r1) ∧
      r1._Type = .Int ∧ r1._IntValue = v ∧ ReadNext r1 = .ok (false, r2) := by
  have hres : Result (WriteInt64Value JsonWriter.new v) = decimalText v := by
    simp [Result, WriteInt64Value, JsonWriter.new, i64toa]
  rw [hres]
  refine ⟨decimalText_canonical v, ?_⟩
  obtain ⟨r1, r2, h1, h2, h3⟩ := ReadNext_decimalText v hlo hhi t i s
  refine ⟨r1, r2, h1, ?_, ?_, h3⟩
  · cases hty : r1._Type <;> simp [JsonReader.event, hty] at h2 ⊢
  · cases hty : r1._Type <;> simp [JsonReader.event, hty] at h2 ⊢
    exact h2.2

/-- C15 at the minimum value, at zero and at 7. -/
theorem int64_write_then_read_witness :
    (Result (WriteInt64Value JsonWriter.new (-9223372036854775808)) =
        bytes "-9223372036854775808" ∧
      IsDecimalOf (Result (WriteInt64Value JsonWriter.new (-9223372036854775808)))
        (-9223372036854775808) ∧
      ∃ r1 r2, ReadNext (JsonReader.new
          (Result (WriteInt64Value JsonWriter.new (-9223372036854775808))) .None 0 false)
          = .ok (true, r1) ∧
        r1._Type = .Int ∧ r1._IntValue = -9223372036854775808 ∧ ReadNext r1 = .ok (false, r2)) ∧
    Result (WriteInt64Value JsonWriter.new 0) = bytes "0" ∧
    Result (WriteInt64Value JsonWriter.new 7) = bytes "7" :=
  ⟨⟨by decide, int64_write_then_read (-9223372036854775808) (by decide) (by decide) .None 0 false⟩,
    by decide, by decide⟩

/-! ### Closers and commas after a value -/

/-- The unread bytes of a reader whose cursor stands after `pre`. -/
theorem drop_pre (pre rest : List Nat) : (pre ++ rest).drop pre.length = rest := by
  simp

/-- C19: in state `EndReadValue` with a non-empty stack, `ReadNext` on `}` returns
EndObject and on `]` returns EndArray, and pops the top frame whatever its kind,
taking the name of that frame; the input `[1}` yields Array, Int 1, EndObject and
then false, without a halt; and a `,` read with an empty stack is accepted and
puts the loop in state `StartReadName`, as on the input `1,"a":2`, which yields
Int 1 and then Int("a", 2). -/
theorem closers_not_matched (pre rest : List Nat) (top : ParseNode) (below : List ParseNode)
    (ty : NodeType) (nm val : List Nat) (iv : Int) (sk : Bool)
    (t : NodeType) (i : Int) (s : Bool) :
    ReadNext ⟨.EndReadValue, top :: below, pre ++ 125 :: rest, pre.length, ty, nm, val, iv,
        false, sk⟩ =
      .ok (true, ⟨.EndReadValue, below, pre ++ 125 :: rest, pre.length + 1, .EndObject,
        top.Name, [], iv, false, sk⟩) ∧
    ReadNext ⟨.EndReadValue, top :: below, pre ++ 93 :: rest, pre.length, ty, nm, val, iv,
        false, sk⟩ =
      .ok (true, ⟨.EndReadValue, below, pre ++ 93 :: rest, pre.length + 1, .EndArray,
        top.Name, [], iv, false, sk⟩) ∧
    (∃ r, ReadAll 4 (JsonReader.new (bytes "[1\x7d") t i s) =
      some (.ok ([.Array [], .Int [] 1, .EndObject []], r))) ∧
    ReadNext ⟨.EndReadValue, [], pre ++ 44 :: rest, pre.length, ty, nm, val, iv, false, sk⟩ =
      ReadLoop rest ⟨.StartReadName, [], pre ++ 44 :: rest, pre.length + 1, ty, [], [], iv,
        false, sk⟩ ∧
    (∃ r, ReadAll 3 (JsonReader.new (bytes "1,\"a\":2") t i s) =
      some (.ok ([.Int [] 1, .Int (bytes "a") 2], r))) := by
  refine ⟨?_, ?_, ⟨_, rfl⟩, ?_, ⟨_, rfl⟩⟩
  · simp only [ReadNext, Bool.false_eq_true, if_false, drop_pre]
    simp [ReadLoop, IsWhite]
  · simp only [ReadNext, Bool.false_eq_true, if_false, drop_pre]
    simp [ReadLoop, IsWhite]
  · simp only [ReadNext, Bool.false_eq_true, if_false, drop_pre]
    simp [ReadLoop, IsWhite]

/-! ### What every call of `ReadNext` keeps -/

/-- A run of the loop that returns keeps the buffer and the two flags, moves the
cursor forward by no more than the unread bytes, keeps the token type in
agreement with the state, and leaves the stack alone when it returns false. -/
theorem ReadLoop_frame : ∀ (n : Nat) (unread : List Nat), unread.length ≤ n →
    ∀ (st : ParseState) (stk : List ParseNode) (blob : List Nat) (cur : Nat) (ty : NodeType)
      (nm val : List Nat) (iv : Int) (re sk : Bool) (b : Bool) (r1 : JsonReader),
    ReadLoop unread ⟨st, stk, blob, cur, ty, nm, val, iv, re, sk⟩ = .ok (b, r1) →
    r1.blob = blob ∧ r1._ReachedEnd = re ∧ r1._Skip = sk ∧ cur ≤ r1._pszCur ∧
      r1._pszCur ≤ cur + unread.length ∧
      (Consistent st ty → Consistent r1._State r1._Type) ∧
      (b = false → r1._ParseStack = stk) := by
  intro n
  induction n with
  | zero =>
    intro unread hlen
    have : unread = [] := List.length_eq_zero.mp (Nat.le_zero.mp hlen)
    subst this
    intro st stk blob cur ty nm val iv re sk b r1 h
    simp only [ReadLoop] at h
    cases h
    exact ⟨rfl, rfl, rfl, by simp, by simp, fun hc => hc, fun _ => rfl⟩
  | succ n ih =>
    intro unread hlen st stk blob cur ty nm val iv re sk b r1 h
    cases unread with
    | nil =>
      simp only [ReadLoop] at h
      cases h
      exact ⟨rfl, rfl, rfl, by simp, by simp, fun hc => hc, fun _ => rfl⟩
    | cons c rest =>
      have hrest : rest.length ≤ n := by simpa using hlen
      cases st
      case ReadStringValue =>
        cases rest with
        | nil =>
          simp only [ReadLoop] at h
          repeat' split at h
          all_goals first
            | (cases h
               exact ⟨rfl, rfl, rfl, by simp, by simp, fun hc => by
                 first | exact hc | simp [Consistent], by simp⟩)
            | cases h
        | cons e rest2 =>
          have hrest2 : rest2.length ≤ n := by simp at hrest; omega
          simp only [ReadLoop] at h
          repeat' split at h
          all_goals first
            | (obtain ⟨k1, k2, k3, k4, k5, k6, k7⟩ := ih _ hrest2 _ _ _ _ _ _ _ _ _ _ _ _ h
               exact ⟨k1, k2, k3, by omega, by simp only [List.length_cons]; omega,
                 fun hc => k6 hc, k7⟩)
            | (obtain ⟨k1, k2, k3, k4, k5, k6, k7⟩ := ih _ hrest _ _ _ _ _ _ _ _ _ _ _ _ h
               refine ⟨k1, k2, k3, by omega, ?_, fun hc => k6 hc, k7⟩
               simp only [List.length_cons] at k5 ⊢; omega)
            | (cases h
               exact ⟨rfl, rfl, rfl, by simp, by simp, fun hc => by
                 first | exact hc | simp [Consistent], by simp⟩)
            | cases h
      all_goals
        simp only [ReadLoop] at h
        repeat' split at h
        all_goals first
          | (obtain ⟨k1, k2, k3, k4, k5, k6, k7⟩ := ih _ hrest _ _ _ _ _ _ _ _ _ _ _ _ h
             exact ⟨k1, k2, k3, by omega, by simp only [List.length_cons]; omega,
               fun hc => k6 (by first | exact hc | simp [Consistent]), k7⟩)
          | (cases h
             exact ⟨rfl, rfl, rfl, by simp, by simp, fun hc => by
               first | exact hc | simp [Consistent], by simp⟩)
          | cases h


/-- A run of the loop that ends with a token: a container start has pushed one
frame with the name and kind of the token, a container end has popped one frame
and taken its name, a scalar has left the stack alone. -/
theorem ReadLoop_names : ∀ (n : Nat) (unread : List Nat), unread.length ≤ n →
    ∀ (st : ParseState) (stk : List ParseNode) (blob : List Nat) (cur : Nat) (ty : NodeType)
      (nm val : List Nat) (iv : Int) (re sk : Bool) (r1 : JsonReader),
    Consistent st ty →
    ReadLoop unread ⟨st, stk, blob, cur, ty, nm, val, iv, re, sk⟩ = .ok (true, r1) →
    TokenEffect stk r1 := by
  intro n
  induction n with
  | zero =>
    intro unread hlen
    have : unread = [] := List.length_eq_zero.mp (Nat.le_zero.mp hlen)
    subst this
    intro st stk blob cur ty nm val iv re sk r1 _ h
    simp [ReadLoop] at h
  | succ n ih =>
    intro unread hlen st stk blob cur ty nm val iv re sk r1 hcons h
    cases unread with
    | nil => simp [ReadLoop] at h
    | cons c rest =>
      have hrest : rest.length ≤ n := by simpa using hlen
      cases st
      case ReadStringValue =>
        have hty : ty = .String := hcons.1 rfl
        cases rest with
        | nil =>
          simp only [ReadLoop] at h
          repeat' split at h
          all_goals first
            | (cases h; simp [TokenEffect, hty])
            | cases h
        | cons e rest2 =>
          have hrest2 : rest2.length ≤ n := by simp at hrest; omega
          simp only [ReadLoop] at h
          repeat' split at h
          all_goals first
            | exact ih _ hrest2 _ _ _ _ _ _ _ _ _ _ _ hcons h
            | exact ih _ hrest _ _ _ _ _ _ _ _ _ _ _ hcons h
            | (cases h; simp [TokenEffect, hty])
            | cases h
      case ReadIntValue =>
        have hty : ty = .Int := hcons.2 rfl
        simp only [ReadLoop] at h
        repeat' split at h
        all_goals first
          | exact ih _ hrest _ _ _ _ _ _ _ _ _ _ _ hcons h
          | (cases h; simp [TokenEffect, hty])
          | cases h
      all_goals
        simp only [ReadLoop] at h
        repeat' split at h
        all_goals first
          | exact ih _ hrest _ _ _ _ _ _ _ _ _ _ _ (by simp [Consistent]) h
          | (cases h; simp [TokenEffect])
          | cases h

/-- Every call of `ReadNext` that returns keeps the buffer and the flag
`_ReachedEnd`, moves the cursor forward without leaving the buffer it was in,
keeps the token type in agreement with the state, and leaves the stack alone
when it returns false. -/
theorem ReadNext_frame (r r1 : JsonReader) (b : Bool) (h : ReadNext r = .ok (b, r1)) :
    r1.blob = r.blob ∧ r1._ReachedEnd = r._ReachedEnd ∧ r._pszCur ≤ r1._pszCur ∧
      (r._pszCur ≤ r.blob.length → r1._pszCur ≤ r.blob.length) ∧
      (Consistent r._State r._Type → Consistent r1._State r1._Type) ∧
      (b = false → r1._ParseStack = r._ParseStack) := by
  obtain ⟨st, stk, blob, cur, ty, nm, val, iv, re, sk⟩ := r
  simp only [ReadNext] at h
  split_ifs at h
  · cases h
    exact ⟨rfl, rfl, Nat.le_refl _, fun hc => hc, fun hc => hc, fun _ => rfl⟩
  · obtain ⟨k1, k2, _, k4, k5, k6, k7⟩ :=
      ReadLoop_frame _ _ (Nat.le_refl _) _ _ _ _ _ _ _ _ _ _ _ _ h
    refine ⟨k1, k2, k4, ?_, k6, k7⟩
    intro hc
    simp only [List.length_drop] at k5
    show r1._pszCur ≤ blob.length
    have : cur ≤ blob.length := hc
    omega

/-- A call of `ReadNext` that returns a token, from a state where the token type
agrees with the parse state: its effect on the stack, with the names. -/
theorem ReadNext_names (r r1 : JsonReader) (hc : Consistent r._State r._Type)
    (h : ReadNext r = .ok (true, r1)) : TokenEffect r._ParseStack r1 := by
  obtain ⟨st, stk, blob, cur, ty, nm, val, iv, re, sk⟩ := r
  simp only [ReadNext] at h
  split_ifs at h
  · cases h
  · exact ReadLoop_names _ _ (Nat.le_refl _) _ _ _ _ _ _ _ _ _ _ _ hc h

/-- `ReadNext` keeps a reader healthy. -/
theorem Healthy_ReadNext (r r1 : JsonReader) (b : Bool) (hr : Healthy r)
    (h : ReadNext r = .ok (b, r1)) : Healthy r1 := by
  obtain ⟨k1, k2, _, k4, k5, _⟩ := ReadNext_frame r r1 b h
  exact ⟨k5 hr.1, by rw [k2]; exact hr.2.1, by rw [k1]; exact k4 hr.2.2⟩

/-- Setting `_Skip` keeps a reader healthy. -/
theorem Healthy_setSkip (b : Bool) (r : JsonReader) (hr : Healthy r) : Healthy (setSkip b r) := by
  obtain ⟨st, stk, blob, cur, ty, nm, val, iv, re, sk⟩ := r
  exact hr

/-- The loop of `ReadNextValue` keeps a reader healthy. -/
theorem Healthy_SkipLoop (K E : NodeType) : ∀ (fuel : Nat) (level : Int) (r : JsonReader)
    (level1 : Int) (r1 : JsonReader), Healthy r →
    SkipLoop K E fuel level r = some (.ok (level1, r1)) → Healthy r1 := by
  intro fuel
  induction fuel with
  | zero => intro level r level1 r1 _ h; simp [SkipLoop] at h
  | succ fuel ih =>
    intro level r level1 r1 hr h
    simp only [SkipLoop] at h
    cases hn : ReadNext r with
    | error f => rw [hn] at h; simp at h
    | ok p =>
      obtain ⟨b, x⟩ := p
      have hx : Healthy x := Healthy_ReadNext r x b hr hn
      rw [hn] at h
      cases b with
      | false =>
        simp only [Option.some.injEq, Except.ok.injEq, Prod.mk.injEq] at h
        rw [← h.2]; exact hx
      | true =>
        simp only at h
        split_ifs at h
        · exact ih _ _ _ _ hx h
        · simp only [Option.some.injEq, Except.ok.injEq, Prod.mk.injEq] at h
          rw [← h.2]; exact hx
        · exact ih _ _ _ _ hx h
        · exact ih _ _ _ _ hx h

/-- `ReadNextValue` keeps a reader healthy. -/
theorem Healthy_ReadNextValue (r r1 : JsonReader) (b : Bool) (hr : Healthy r)
    (h : ReadNextValue r = some (.ok (b, r1))) : Healthy r1 := by
  unfold ReadNextValue at h
  by_cases hty : r._Type = .Array ∨ r._Type = .Object
  · rw [if_neg (not_not.mpr hty)] at h
    generalize (if r._Type = NodeType.Array then NodeType.EndArray else NodeType.EndObject) = E
      at h
    cases hs : SkipLoop r._Type E (r.blob.length - r._pszCur + 1) 1 (setSkip true r) with
    | none => rw [hs] at h; simp at h
    | some res =>
      rw [hs] at h
      cases res with
      | error f => simp at h
      | ok p =>
        obtain ⟨level, x⟩ := p
        have hx : Healthy x := Healthy_SkipLoop _ _ _ _ _ _ _ (Healthy_setSkip true r hr) hs
        simp only at h
        split_ifs at h
        · simp only [Option.some.injEq, Except.ok.injEq, Prod.mk.injEq] at h
          rw [← h.2]; exact Healthy_setSkip false x hx
        · exact Healthy_ReadNext _ r1 b (Healthy_setSkip false x hx) (Option.some.inj h)
  · rw [if_pos hty] at h
    exact Healthy_ReadNext r r1 b hr (Option.some.inj h)

/-- Every state a reader can be in is healthy. -/
theorem Reachable_healthy (r : JsonReader) (h : Reachable r) : Healthy r := by
  induction h with
  | fresh blob t i s =>
    exact ⟨by simp [Consistent, JsonReader.new, InitState], rfl, Nat.zero_le _⟩
  | readNext r r1 b _ hcall ih => exact Healthy_ReadNext r r1 b ih hcall
  | readNextValue r r1 b _ hcall ih => exact Healthy_ReadNextValue r r1 b ih hcall


/-! ### The flag `_ReachedEnd` -/

/-- C17: in every state reached from a freshly constructed reader by calls of
`ReadNext` and `ReadNextValue`, `_ReachedEnd` is false and `IsEnd()` returns
false; this includes the states left by a `ReadNext` that returned false on an
exhausted buffer. -/
theorem IsEnd_never_true (r : JsonReader) (h : Reachable r) :
    r._ReachedEnd = false ∧ IsEnd r = false :=
  ⟨(Reachable_healthy r h).2.1, (Reachable_healthy r h).2.1⟩

/-- C17 on the input `1`: after the call that returns Int 1 and the call that
returns false at the end of the buffer, `IsEnd()` is still false. -/
theorem IsEnd_never_true_witness :
    ReadNext (readerAfter 1 (JsonReader.new (bytes "1") .None 0 false)) =
      .ok (false, readerAfter 2 (JsonReader.new (bytes "1") .None 0 false)) ∧
    (readerAfter 2 (JsonReader.new (bytes "1") .None 0 false))._ReachedEnd = false ∧
    IsEnd (readerAfter 2 (JsonReader.new (bytes "1") .None 0 false)) = false :=
  ⟨rfl, IsEnd_never_true _
    (Reachable.readNext (readerAfter 1 (JsonReader.new (bytes "1") .None 0 false)) _ false
      (Reachable.readNext (JsonReader.new (bytes "1") .None 0 false) _ true
        (Reachable.fresh (bytes "1") .None 0 false) rfl) rfl)⟩

/-! ### Stack discipline -/

/-- Along the calls of `ReadNext` from a healthy reader, the depth of the stack
grows by the container starts returned and shrinks by the container ends. -/
theorem depth_tokens : ∀ (n : Nat) (r : JsonReader), Healthy r →
    (readerAfter n r)._ParseStack.length + countEnds (tokenTypes n r) =
      r._ParseStack.length + countStarts (tokenTypes n r) := by
  intro n
  induction n with
  | zero => intro r _; simp [readerAfter, tokenTypes, countEnds, countStarts]
  | succ n ih =>
    intro r hr
    cases hn : ReadNext r with
    | error f => simp [readerAfter, tokenTypes, hn, countEnds, countStarts]
    | ok p =>
      obtain ⟨b, r1⟩ := p
      have h1 := ih r1 (Healthy_ReadNext r r1 b hr hn)
      cases b with
      | false =>
        have hstk := (ReadNext_frame r r1 false hn).2.2.2.2.2 rfl
        simp only [readerAfter, tokenTypes, hn]
        rw [← hstk]; exact h1
      | true =>
        have heff := ReadNext_names r r1 hr.1 hn
        simp only [readerAfter, tokenTypes, hn]
        rcases heff with ⟨hty, hs⟩ | ⟨hty, hs⟩ | ⟨hty, f, hs, _⟩ | ⟨hty, f, hs, _⟩ | ⟨hty, hs⟩
        · rw [hs] at h1
          simp only [countEnds, countStarts, List.filter_cons, hty] at h1 ⊢
          simp at h1 ⊢; omega
        · rw [hs] at h1
          simp only [countEnds, countStarts, List.filter_cons, hty] at h1 ⊢
          simp at h1 ⊢; omega
        · rw [hs]
          simp only [countEnds, countStarts, List.filter_cons, hty] at h1 ⊢
          simp at h1 ⊢; omega
        · rw [hs]
          simp only [countEnds, countStarts, List.filter_cons, hty] at h1 ⊢
          simp at h1 ⊢; omega
        · rw [← hs]
          rcases hty with hty | hty <;>
            (simp only [countEnds, countStarts, List.filter_cons, hty] at h1 ⊢
             simp at h1 ⊢; omega)

/-- C16: for every state a reader can be in, a `ReadNext` that returns an Array or
Object token pushes exactly one frame holding the name and the kind of the
token; one that returns EndArray or EndObject pops exactly one frame and the
name of the token is the name of that frame; one that returns a String or Int
token, or returns false, leaves the parse stack unchanged.  Hence, along any
number `n` of calls, the depth of the stack changes by the number of
container-start tokens returned minus the number of end tokens returned; from a
fresh reader it equals that difference. -/
theorem ReadNext_stack_discipline (r : JsonReader) (hr : Reachable r) (n : Nat) :
    (∀ r1, ReadNext r = .ok (true, r1) → TokenEffect r._ParseStack r1) ∧
    (∀ r1, ReadNext r = .ok (false, r1) → r1._ParseStack = r._ParseStack) ∧
    (readerAfter n r)._ParseStack.length + countEnds (tokenTypes n r) =
      r._ParseStack.length + countStarts (tokenTypes n r) ∧
    (∀ (blob : List Nat) (t : NodeType) (i : Int) (s : Bool),
      (readerAfter n (JsonReader.new blob t i s))._ParseStack.length +
          countEnds (tokenTypes n (JsonReader.new blob t i s)) =
        countStarts (tokenTypes n (JsonReader.new blob t i s))) := by
  have hh := Reachable_healthy r hr
  refine ⟨fun r1 h => ReadNext_names r r1 hh.1 h,
    fun r1 h => (ReadNext_frame r r1 false h).2.2.2.2.2 rfl, depth_tokens n r hh, ?_⟩
  intro blob t i s
  have := depth_tokens n _ (Reachable_healthy _ (Reachable.fresh blob t i s))
  simpa [JsonReader.new, InitState] using this

/-- C16 on the input `{"a":[1]}`: the second call returns Array("a") and pushes the
frame named `a`; after three calls the depth is 2, with two starts and no end;
after five calls (the whole input) it is 0, with two starts and two ends. -/
theorem ReadNext_stack_discipline_witness :
    TokenEffect (readerAfter 1 (JsonReader.new (bytes "\x7b\"a\":[1]\x7d") .None 0 false))._ParseStack
      (readerAfter 2 (JsonReader.new (bytes "\x7b\"a\":[1]\x7d") .None 0 false)) ∧
    (readerAfter 2 (JsonReader.new (bytes "\x7b\"a\":[1]\x7d") .None 0 false))._ParseStack =
      [⟨bytes "a", .Array⟩, ⟨[], .Object⟩] ∧
    (readerAfter 5 (JsonReader.new (bytes "\x7b\"a\":[1]\x7d") .None 0 false))._ParseStack.length +
        countEnds (tokenTypes 5 (JsonReader.new (bytes "\x7b\"a\":[1]\x7d") .None 0 false)) =
      countStarts (tokenTypes 5 (JsonReader.new (bytes "\x7b\"a\":[1]\x7d") .None 0 false)) ∧
    tokenTypes 5 (JsonReader.new (bytes "\x7b\"a\":[1]\x7d") .None 0 false) =
      [.Object, .Array, .Int, .EndArray, .EndObject] :=
  ⟨(ReadNext_stack_discipline (readerAfter 1 (JsonReader.new (bytes "\x7b\"a\":[1]\x7d") .None 0 false))
      (Reachable.readNext (JsonReader.new (bytes "\x7b\"a\":[1]\x7d") .None 0 false) _ true
        (Reachable.fresh _ .None 0 false) rfl) 0).1 _ rfl,
    rfl,
    (ReadNext_stack_discipline (JsonReader.new (bytes "\x7b\"a\":[1]\x7d") .None 0 false)
      (Reachable.fresh _ .None 0 false) 5).2.2.2 _ .None 0 false,
    rfl⟩

/-! ### Iterations of the loop -/

/-- The loop is its body, repeated until it is left. -/
theorem ReadLoop_step (unread : List Nat) (r : JsonReader) :
    ReadLoop unread r =
      match ReadStep unread r with
      | .next u x => ReadLoop u x
      | .leave res => res := by
  obtain ⟨st, stk, blob, cur, ty, nm, val, iv, re, sk⟩ := r
  cases unread with
  | nil => rfl
  | cons c rest =>
    cases st
    case ReadStringValue =>
      cases rest with
      | nil =>
        simp only [ReadLoop, ReadStep]
        repeat' split
        all_goals first
          | (simp_all; done)
          | (rename_i heq; simp at heq; obtain ⟨rfl, rfl⟩ := heq; rfl)
      | cons e rest2 =>
        simp only [ReadLoop, ReadStep]
        repeat' split
        all_goals simp_all
    all_goals
      simp only [ReadLoop, ReadStep]
      repeat' split
      all_goals simp_all

/-- A pass that goes round again has consumed one byte, or, on a backslash
inside a string value, two: the backslash and the letter after it. -/
theorem ReadStep_next (unread : List Nat) (r : JsonReader) (u : List Nat) (x : JsonReader)
    (h : ReadStep unread r = .next u x) :
    x.blob = r.blob ∧
    ((∃ c, unread = c :: u ∧ ¬ (r._State = .ReadStringValue ∧ c = 92) ∧
        x._pszCur = r._pszCur + 1) ∨
     (∃ e, unread = 92 :: e :: u ∧ r._State = .ReadStringValue ∧
        x._pszCur = r._pszCur + 2)) := by
  obtain ⟨st, stk, blob, cur, ty, nm, val, iv, re, sk⟩ := r
  cases unread with
  | nil => simp [ReadStep] at h
  | cons c rest =>
    cases st
    case ReadStringValue =>
      cases rest with
      | nil =>
        simp only [ReadStep] at h
        repeat' split at h
        all_goals first
          | (cases h; done)
          | (cases h; simp_all)
      | cons e rest2 =>
        simp only [ReadStep] at h
        repeat' split at h
        all_goals first
          | (cases h; done)
          | (cases h; simp_all)
    all_goals
      simp only [ReadStep] at h
      repeat' split at h
      all_goals first
        | (cases h; done)
        | (cases h; simp)

/-- A pass that leaves the loop with a result on a byte has consumed that byte. -/
theorem ReadStep_leave (c : Nat) (rest : List Nat) (r : JsonReader) (b : Bool) (x : JsonReader)
    (h : ReadStep (c :: rest) r = .leave (.ok (b, x))) :
    x.blob = r.blob ∧ x._pszCur = r._pszCur + 1 := by
  obtain ⟨st, stk, blob, cur, ty, nm, val, iv, re, sk⟩ := r
  cases st
  case ReadStringValue =>
    cases rest with
    | nil =>
      simp only [ReadStep] at h
      repeat' split at h
      all_goals first
        | (cases h; done)
        | (cases h; simp)
    | cons e rest2 =>
      simp only [ReadStep] at h
      repeat' split at h
      all_goals first
        | (cases h; done)
        | (cases h; simp)
  all_goals
    simp only [ReadStep] at h
    repeat' split at h
    all_goals first
      | (cases h; done)
      | (cases h; simp)

/-- A pass that goes round again leaves fewer unread bytes. -/
theorem ReadStep_next_length (unread : List Nat) (r : JsonReader) (u : List Nat) (x : JsonReader)
    (h : ReadStep unread r = .next u x) : u.length < unread.length := by
  obtain ⟨_, h1 | h1⟩ := ReadStep_next unread r u x h
  · obtain ⟨c, hc, _⟩ := h1
    subst hc
    simp only [List.length_cons]
    omega
  · obtain ⟨e, he, _⟩ := h1
    subst he
    simp only [List.length_cons]
    omega

/-- The loop is left after no more passes than there are unread bytes, plus one,
and then with the result of `ReadLoop`. -/
theorem ReadIterate_terminates : ∀ (fuel : Nat) (unread : List Nat) (r : JsonReader),
    unread.length < fuel → ReadIterate fuel unread r = some (ReadLoop unread r) := by
  intro fuel
  induction fuel with
  | zero => intro unread r h; omega
  | succ fuel ih =>
    intro unread r h
    rw [ReadLoop_step]
    simp only [ReadIterate]
    cases hs : ReadStep unread r with
    | next u x =>
      have := ReadStep_next_length unread r u x hs
      exact ih u x (by omega)
    | leave res => rfl

/-- A run of the loop that returns keeps the buffer and never moves the cursor
back, nor further than the unread bytes; when it returns a token the cursor has
moved. -/
theorem ReadLoop_progress : ∀ (n : Nat) (unread : List Nat) (r : JsonReader), unread.length ≤ n →
    ∀ (b : Bool) (r1 : JsonReader), ReadLoop unread r = .ok (b, r1) →
    r1.blob = r.blob ∧ r._pszCur ≤ r1._pszCur ∧ r1._pszCur ≤ r._pszCur + unread.length ∧
      (b = true → r._pszCur < r1._pszCur) := by
  intro n
  induction n with
  | zero =>
    intro unread r hlen b r1 h
    have : unread = [] := List.length_eq_zero.mp (Nat.le_zero.mp hlen)
    subst this
    simp only [ReadLoop] at h
    cases h
    simp
  | succ n ih =>
    intro unread r hlen b r1 h
    rw [ReadLoop_step] at h
    cases hs : ReadStep unread r with
    | next u x =>
      rw [hs] at h
      obtain ⟨hb, hx⟩ := ReadStep_next unread r u x hs
      have hu := ReadStep_next_length unread r u x hs
      obtain ⟨k1, k2, k3, _⟩ := ih u x (by omega) b r1 h
      rcases hx with ⟨c, hc, _, hcur⟩ | ⟨e, he, _, hcur⟩
      · subst hc
        simp only [List.length_cons] at hu ⊢
        exact ⟨k1.trans hb, by omega, by omega, fun _ => by omega⟩
      · subst he
        simp only [List.length_cons] at hu ⊢
        exact ⟨k1.trans hb, by omega, by omega, fun _ => by omega⟩
    | leave res =>
      rw [hs] at h
      subst h
      cases unread with
      | nil =>
        simp only [ReadStep] at hs
        cases hs
        simp
      | cons c rest =>
        obtain ⟨k1, k2⟩ := ReadStep_leave c rest r b r1 hs
        simp only [List.length_cons]
        exact ⟨k1, by omega, by omega, fun _ => by omega⟩

/-- A call of `ReadNext` that returns keeps the buffer and never moves the cursor
back; a cursor within the buffer stays within it; when the call returns a token
the cursor has moved and is within the buffer. -/
theorem ReadNext_progress (r r1 : JsonReader) (b : Bool) (h : ReadNext r = .ok (b, r1)) :
    r1.blob = r.blob ∧ r._pszCur ≤ r1._pszCur ∧
      (r._pszCur ≤ r.blob.length → r1._pszCur ≤ r.blob.length) ∧
      (b = true → r._pszCur < r1._pszCur ∧ r1._pszCur ≤ r.blob.length) := by
  obtain ⟨st, stk, blob, cur, ty, nm, val, iv, re, sk⟩ := r
  simp only [ReadNext] at h
  split_ifs at h
  · cases h
    simp
  · obtain ⟨k1, k2, k3, k4⟩ := ReadLoop_progress _ _ _ (Nat.le_refl _) b r1 h
    simp only [List.length_drop] at k3
    refine ⟨k1, k2, ?_, ?_⟩
    · intro hc
      show r1._pszCur ≤ blob.length
      have : cur ≤ blob.length := hc
      omega
    · intro hb
      have := k4 hb
      refine ⟨this, ?_⟩
      show r1._pszCur ≤ blob.length
      have h1 : cur < r1._pszCur := this
      omega

/-- The loop of `ReadNextValue` is left after no more calls of `ReadNext` than
there are unread bytes, plus one. -/
theorem SkipLoop_terminates (K E : NodeType) : ∀ (fuel : Nat) (level : Int) (r : JsonReader),
    r.blob.length - r._pszCur < fuel → ∃ res, SkipLoop K E fuel level r = some res := by
  intro fuel
  induction fuel with
  | zero => intro level r h; omega
  | succ fuel ih =>
    intro level r h
    simp only [SkipLoop]
    cases hr : ReadNext r with
    | error f => exact ⟨_, rfl⟩
    | ok p =>
      obtain ⟨b, r1⟩ := p
      cases b with
      | false => exact ⟨_, rfl⟩
      | true =>
        obtain ⟨k1, _, _, k4⟩ := ReadNext_progress r r1 true hr
        obtain ⟨k5, k6⟩ := k4 rfl
        have hfuel : r1.blob.length - r1._pszCur < fuel := by rw [k1]; omega
        simp only
        split_ifs
        · exact ih _ r1 hfuel
        · exact ⟨_, rfl⟩
        · exact ih _ r1 hfuel
        · exact ih _ r1 hfuel

/-- The loop of `ReadNextValue` keeps the buffer and never moves the cursor back;
a cursor within the buffer stays within it. -/
theorem SkipLoop_progress (K E : NodeType) : ∀ (fuel : Nat) (level : Int) (r : JsonReader)
    (l : Int) (r1 : JsonReader), SkipLoop K E fuel level r = some (.ok (l, r1)) →
    r1.blob = r.blob ∧ r._pszCur ≤ r1._pszCur ∧
      (r._pszCur ≤ r.blob.length → r1._pszCur ≤ r.blob.length) := by
  intro fuel
  induction fuel with
  | zero => intro level r l r1 h; simp [SkipLoop] at h
  | succ fuel ih =>
    intro level r l r1 h
    simp only [SkipLoop] at h
    cases hr : ReadNext r with
    | error f => rw [hr] at h; simp at h
    | ok p =>
      obtain ⟨b, r2⟩ := p
      rw [hr] at h
      obtain ⟨k1, k2, k3, _⟩ := ReadNext_progress r r2 b hr
      have step : ∀ lv, SkipLoop K E fuel lv r2 = some (.ok (l, r1)) →
          r1.blob = r.blob ∧ r._pszCur ≤ r1._pszCur ∧
            (r._pszCur ≤ r.blob.length → r1._pszCur ≤ r.blob.length) := by
        intro lv hlv
        obtain ⟨j1, j2, j3⟩ := ih lv r2 l r1 hlv
        refine ⟨j1.trans k1, by omega, fun hc => ?_⟩
        have := j3 (by rw [k1]; exact k3 hc)
        rw [k1] at this
        exact this
      cases b with
      | false =>
        simp only [Option.some.injEq, Except.ok.injEq, Prod.mk.injEq] at h
        obtain ⟨_, rfl⟩ := h
        exact ⟨k1, k2, k3⟩
      | true =>
        simp only at h
        split_ifs at h
        · exact step _ h
        · simp only [Option.some.injEq, Except.ok.injEq, Prod.mk.injEq] at h
          obtain ⟨_, rfl⟩ := h
          exact ⟨k1, k2, k3⟩
        · exact step _ h
        · exact step _ h

/-- The assignment of `_Skip` touches neither the buffer nor the cursor. -/
theorem setSkip_cursor (b : Bool) (r : JsonReader) :
    (setSkip b r).blob = r.blob ∧ (setSkip b r)._pszCur = r._pszCur := by
  obtain ⟨st, stk, blob, cur, ty, nm, val, iv, re, sk⟩ := r
  exact ⟨rfl, rfl⟩

/-- `ReadNextValue` returns: its loop is left within the calls it is given. -/
theorem ReadNextValue_terminates (r : JsonReader) : ∃ res, ReadNextValue r = some res := by
  unfold ReadNextValue
  by_cases hty : r._Type = .Array ∨ r._Type = .Object
  · rw [if_neg (not_not.mpr hty)]
    obtain ⟨res, hres⟩ := SkipLoop_terminates r._Type
      (if r._Type = NodeType.Array then NodeType.EndArray else NodeType.EndObject)
      (r.blob.length - r._pszCur + 1) 1 (setSkip true r)
      (by rw [(setSkip_cursor true r).1, (setSkip_cursor true r).2]; omega)
    rw [hres]
    cases res with
    | error f => exact ⟨_, rfl⟩
    | ok p =>
      obtain ⟨l, r1⟩ := p
      simp only
      split_ifs
      · exact ⟨_, rfl⟩
      · exact ⟨_, rfl⟩
  · rw [if_pos hty]
    exact ⟨_, rfl⟩

/-- A call of `ReadNextValue` that returns keeps the buffer and never moves the
cursor back; a cursor within the buffer stays within it. -/
theorem ReadNextValue_progress (r r1 : JsonReader) (b : Bool)
    (h : ReadNextValue r = some (.ok (b, r1))) :
    r1.blob = r.blob ∧ r._pszCur ≤ r1._pszCur ∧
      (r._pszCur ≤ r.blob.length → r1._pszCur ≤ r.blob.length) := by
  unfold ReadNextValue at h
  by_cases hty : r._Type = .Array ∨ r._Type = .Object
  · rw [if_neg (not_not.mpr hty)] at h
    generalize (if r._Type = NodeType.Array then NodeType.EndArray else NodeType.EndObject) = E at h
    cases hs : SkipLoop r._Type E (r.blob.length - r._pszCur + 1) 1 (setSkip true r) with
    | none => rw [hs] at h; simp at h
    | some res =>
      rw [hs] at h
      cases res with
      | error f => simp at h
      | ok p =>
        obtain ⟨l, r2⟩ := p
        obtain ⟨j1, j2, j3⟩ := SkipLoop_progress _ _ _ _ _ _ _ hs
        simp only [(setSkip_cursor true r).1, (setSkip_cursor true r).2] at j1 j2 j3
        simp only at h
        split_ifs at h
        · simp only [Option.some.injEq, Except.ok.injEq, Prod.mk.injEq] at h
          obtain ⟨_, rfl⟩ := h
          rw [(setSkip_cursor false r2).1, (setSkip_cursor false r2).2]
          exact ⟨j1, j2, j3⟩
        · simp only [Option.some.injEq] at h
          obtain ⟨k1, k2, k3, _⟩ := ReadNext_progress _ _ _ h
          simp only [(setSkip_cursor false r2).1, (setSkip_cursor false r2).2] at k1 k2 k3
          refine ⟨k1.trans j1, by omega, fun hc => ?_⟩
          have := k3 (by rw [j1]; exact j3 hc)
          rw [j1] at this
          exact this
  · rw [if_pos hty] at h
    simp only [Option.some.injEq] at h
    obtain ⟨k1, k2, k3, _⟩ := ReadNext_progress r r1 b h
    exact ⟨k1, k2, k3⟩

/-- No more tokens are returned than there are unread bytes. -/
theorem tokenTypes_length : ∀ (n : Nat) (r : JsonReader),
    (tokenTypes n r).length ≤ r.blob.length - r._pszCur := by
  intro n
  induction n with
  | zero => intro r; simp [tokenTypes]
  | succ n ih =>
    intro r
    simp only [tokenTypes]
    cases hr : ReadNext r with
    | error f => simp
    | ok p =>
      obtain ⟨b, r1⟩ := p
      obtain ⟨k1, k2, _, k4⟩ := ReadNext_progress r r1 b hr
      have := ih r1
      rw [k1] at this
      cases b with
      | false =>
        simp only
        omega
      | true =>
        obtain ⟨k5, k6⟩ := k4 rfl
        simp only [List.length_cons]
        omega

/-! ### Termination and progress -/

/-- C20, counterexample: a pass through the loop does not always consume exactly
one byte.  On the four bytes `"\n"` the first pass consumes the opening quote
(cursor 0 to 1), the second pass, on the backslash, consumes the backslash and
the letter `n` (cursor 1 to 3), the third consumes the closing quote and the
call returns the String token with the cursor at 4: three passes for four
bytes.  The pass made by the next call, at the end of the buffer, consumes no
byte. -/
theorem ReadStep_not_one_byte :
    ReadStep [34, 92, 110, 34]
        ⟨.StartReadValue, [], [34, 92, 110, 34], 0, .None, [], [], 0, false, false⟩ =
      .next [92, 110, 34]
        ⟨.ReadStringValue, [], [34, 92, 110, 34], 1, .String, [], [], 0, false, false⟩ ∧
    ReadStep [92, 110, 34]
        ⟨.ReadStringValue, [], [34, 92, 110, 34], 1, .String, [], [], 0, false, false⟩ =
      .next [34]
        ⟨.ReadStringValue, [], [34, 92, 110, 34], 3, .String, [], [10], 0, false, false⟩ ∧
    ReadStep [34]
        ⟨.ReadStringValue, [], [34, 92, 110, 34], 3, .String, [], [10], 0, false, false⟩ =
      .leave (.ok (true,
        ⟨.EndReadValue, [], [34, 92, 110, 34], 4, .String, [], [10], 0, false, false⟩)) ∧
    ReadNext (JsonReader.new [34, 92, 110, 34] .None 0 false) =
      .ok (true,
        ⟨.EndReadValue, [], [34, 92, 110, 34], 4, .String, [], [10], 0, false, false⟩) ∧
    ReadStep []
        ⟨.EndReadValue, [], [34, 92, 110, 34], 4, .String, [], [], 0, false, false⟩ =
      .leave (.ok (false,
        ⟨.EndReadValue, [], [34, 92, 110, 34], 4, .String, [], [], 0, false, false⟩)) ∧
    ¬ (∀ (unread : List Nat) (r : JsonReader) (u : List Nat) (x : JsonReader),
        ReadStep unread r = .next u x → x._pszCur = r._pszCur + 1) := by
  refine ⟨rfl, rfl, rfl, rfl, rfl, fun h => ?_⟩
  have := h [92, 110, 34]
    ⟨.ReadStringValue, [], [34, 92, 110, 34], 1, .String, [], [], 0, false, false⟩ [34]
    ⟨.ReadStringValue, [], [34, 92, 110, 34], 3, .String, [], [10], 0, false, false⟩ rfl
  simp at this

/-- C20 (amended): for every buffer and every reader state `ReadNext` and
`ReadNextValue` return.  The loop of `ReadNext` is left after no more passes
than there are unread bytes, plus one, and the loop of `ReadNextValue` within
the calls it is given.  The cursor never moves back, and a cursor within the
buffer stays within it.  A pass through the loop that goes round again has
consumed exactly one byte, except on a backslash inside a string value, where
it has consumed two (the backslash and the escape letter); a pass that leaves
the loop with a result on a byte has consumed that byte, and the pass made when
no byte is unread consumes none and returns false.  A call of `ReadNext` that
returns true has advanced the cursor by at least one byte, so the tokens
returned by any number of calls are no more than the unread bytes of the
buffer. -/
theorem termination_and_progress (r : JsonReader) :
    (∀ unread : List Nat,
      ReadIterate (unread.length + 1) unread r = some (ReadLoop unread r)) ∧
    (∃ res, ReadNextValue r = some res) ∧
    (∀ (b : Bool) (r1 : JsonReader), ReadNext r = .ok (b, r1) →
      r1.blob = r.blob ∧ r._pszCur ≤ r1._pszCur ∧
      (r._pszCur ≤ r.blob.length → r1._pszCur ≤ r.blob.length) ∧
      (b = true → r._pszCur + 1 ≤ r1._pszCur ∧ r1._pszCur ≤ r.blob.length)) ∧
    (∀ (b : Bool) (r1 : JsonReader), ReadNextValue r = some (.ok (b, r1)) →
      r1.blob = r.blob ∧ r._pszCur ≤ r1._pszCur ∧
      (r._pszCur ≤ r.blob.length → r1._pszCur ≤ r.blob.length)) ∧
    (∀ (unread u : List Nat) (x : JsonReader), ReadStep unread r = .next u x →
      (∃ c, unread = c :: u ∧ ¬ (r._State = .ReadStringValue ∧ c = 92) ∧
          x._pszCur = r._pszCur + 1) ∨
      (∃ e, unread = 92 :: e :: u ∧ r._State = .ReadStringValue ∧
          x._pszCur = r._pszCur + 2)) ∧
    (∀ (c : Nat) (rest : List Nat) (b : Bool) (x : JsonReader),
      ReadStep (c :: rest) r = .leave (.ok (b, x)) → x._pszCur = r._pszCur + 1) ∧
    ReadStep [] r = .leave (.ok (false, r)) ∧
    (∀ n : Nat, (tokenTypes n r).length ≤ r.blob.length - r._pszCur) :=
  ⟨fun unread => ReadIterate_terminates _ unread r (Nat.lt_succ_self _),
   ReadNextValue_terminates r,
   fun b r1 h => ReadNext_progress r r1 b h,
   fun b r1 h => ReadNextValue_progress r r1 b h,
   fun unread u x h => (ReadStep_next unread r u x h).2,
   fun c rest b x h => (ReadStep_leave c rest r b x h).2,
   rfl,
   fun n => tokenTypes_length n r⟩

/-- C20, witness: the call on the four bytes `"\n"` returns the String token with
the cursor moved from 0 to 4, within the buffer. -/
theorem termination_and_progress_witness :
    (JsonReader.new [34, 92, 110, 34] .None 0 false)._pszCur + 1 ≤ 4 ∧
    4 ≤ (JsonReader.new [34, 92, 110, 34] .None 0 false).blob.length :=
  ((termination_and_progress (JsonReader.new [34, 92, 110, 34] .None 0 false)).2.2.1 true
    ⟨.EndReadValue, [], [34, 92, 110, 34], 4, .String, [], [10], 0, false, false⟩
    rfl).2.2.2 rfl

/-! ### Field names -/

/-- Passes follow one another. -/
theorem Passes_trans (a : List Nat) (r : JsonReader) (b : List Nat) (x : JsonReader)
    (c : List Nat) (y : JsonReader) (h1 : Passes a r b x) (h2 : Passes b x c y) :
    Passes a r c y := by
  induction h1 with
  | refl => exact h2
  | step unread r u x v y hs _ ih => exact Passes.step _ _ _ _ _ _ hs (ih h2)

/-- The result of the loop is the result of the loop from wherever its passes
have come to. -/
theorem Passes_ReadLoop (a : List Nat) (r : JsonReader) (b : List Nat) (x : JsonReader)
    (h : Passes a r b x) : ReadLoop a r = ReadLoop b x := by
  induction h with
  | refl => rfl
  | step unread r u x v y hs _ ih =>
    rw [ReadLoop_step unread r, hs]
    exact ih

/-- In state ReadName the bytes before the first double quote, when none of them
is NUL, are appended to the name as they are, and the quote leads to state
ReadColon. -/
theorem Passes_name_run (run rest : List Nat) (hrun : ∀ c ∈ run, c ≠ 34 ∧ c ≠ 0)
    (stk : List ParseNode) (blob : List Nat) (cur : Nat) (ty : NodeType)
    (nm val : List Nat) (iv : Int) (re sk : Bool) :
    Passes (run ++ 34 :: rest) ⟨.ReadName, stk, blob, cur, ty, nm, val, iv, re, sk⟩
      rest ⟨.ReadColon, stk, blob, cur + run.length + 1, ty, nm ++ run, val, iv, re, sk⟩ := by
  induction run generalizing cur nm with
  | nil =>
    refine Passes.step _ _ _ _ _ _ ?_ (Passes.refl _ _)
    simp [ReadStep]
  | cons c run ih =>
    obtain ⟨h34, h0⟩ := hrun c (List.mem_cons_self _ _)
    have hrest := ih (fun d hd => hrun d (List.mem_cons_of_mem _ hd)) (cur + 1) (nm ++ [c])
    refine Passes.step _ _ (run ++ 34 :: rest)
      ⟨.ReadName, stk, blob, cur + 1, ty, nm ++ [c], val, iv, re, sk⟩ _ _ ?_ ?_
    · simp [ReadStep, h34, h0]
    · have e1 : cur + 1 + run.length + 1 = cur + (c :: run).length + 1 := by
        simp only [List.length_cons]; omega
      have e2 : nm ++ [c] ++ run = nm ++ c :: run := by simp
      rw [e1, e2] at hrest
      exact hrest

/-- In state ReadName a NUL byte before the closing quote ends the call, which
returns false with the bytes read so far as the name. -/
theorem ReadLoop_name_NUL (run rest : List Nat) (hrun : ∀ c ∈ run, c ≠ 34 ∧ c ≠ 0)
    (stk : List ParseNode) (blob : List Nat) (cur : Nat) (ty : NodeType)
    (nm val : List Nat) (iv : Int) (re sk : Bool) :
    ReadLoop (run ++ 0 :: rest) ⟨.ReadName, stk, blob, cur, ty, nm, val, iv, re, sk⟩ =
      .ok (false,
        ⟨.ReadName, stk, blob, cur + run.length + 1, ty, nm ++ run, val, iv, re, sk⟩) := by
  induction run generalizing cur nm with
  | nil => simp [ReadLoop]
  | cons c run ih =>
    obtain ⟨h34, h0⟩ := hrun c (List.mem_cons_self _ _)
    have hrest := ih (fun d hd => hrun d (List.mem_cons_of_mem _ hd)) (cur + 1) (nm ++ [c])
    have e1 : cur + 1 + run.length + 1 = cur + (c :: run).length + 1 := by
      simp only [List.length_cons]; omega
    have e2 : nm ++ [c] ++ run = nm ++ c :: run := by simp
    rw [e1, e2] at hrest
    simp only [List.cons_append, ReadLoop, h0, h34, if_false, ne_eq, not_false_eq_true, if_true]
    exact hrest

/-- `WriteString` puts no NUL between the quotes. -/
theorem WriteStringLoop_no_NUL (s : List Nat) : ∀ c ∈ WriteStringLoop s [], c ≠ 0 := by
  induction s with
  | nil => simp [WriteStringLoop]
  | cons a s ih =>
    intro c hc
    simp only [WriteStringLoop, List.nil_append] at hc
    split_ifs at hc with h0 h1 h2 h3 h4 h5 h6
    · simp at hc
    all_goals
      rw [WriteStringLoop_append] at hc
      simp only [List.mem_append, List.mem_cons, List.mem_singleton, List.not_mem_nil,
        or_false] at hc
      rcases hc with hc | hc
      · rcases hc with hc | hc <;> omega
      · exact ih c hc

/-- `WriteString` puts a double quote between the quotes only for a double quote
of the string. -/
theorem WriteStringLoop_no_quote (s : List Nat) (hs : ∀ c ∈ s, c ≠ 34) :
    ∀ c ∈ WriteStringLoop s [], c ≠ 34 := by
  induction s with
  | nil => simp [WriteStringLoop]
  | cons a s ih =>
    have ha : a ≠ 34 := hs a (List.mem_cons_self _ _)
    have ih1 := ih (fun d hd => hs d (List.mem_cons_of_mem _ hd))
    intro c hc
    simp only [WriteStringLoop, List.nil_append] at hc
    split_ifs at hc with h0 h1 h2 h3 h4 h5 h6
    · simp at hc
    all_goals
      rw [WriteStringLoop_append] at hc
      simp only [List.mem_append, List.mem_cons, List.mem_singleton, List.not_mem_nil,
        or_false] at hc
      rcases hc with hc | hc
      · rcases hc with hc | hc <;> omega
      · exact ih1 c hc

/-- The text `WriteString` puts between the quotes is no shorter than a string
without NUL, and longer when the string holds a backslash. -/
theorem WriteStringLoop_length (s : List Nat) (hs : ∀ c ∈ s, c ≠ 0) :
    s.length ≤ (WriteStringLoop s []).length ∧
      (92 ∈ s → s.length < (WriteStringLoop s []).length) := by
  induction s with
  | nil => simp [WriteStringLoop]
  | cons a s ih =>
    have ha : a ≠ 0 := hs a (List.mem_cons_self _ _)
    obtain ⟨ih1, ih2⟩ := ih (fun d hd => hs d (List.mem_cons_of_mem _ hd))
    simp only [WriteStringLoop, List.nil_append, ha, if_false, List.length_cons,
      List.mem_cons]
    split_ifs with h1 h2 h3 h4 h5 h6
    all_goals
      rw [WriteStringLoop_append]
      simp only [List.length_append, List.length_cons, List.length_nil]
      refine ⟨by omega, fun h => ?_⟩
      rcases h with h | h
      · omega
      · have := ih2 h
        omega

/-- A text that holds a double quote splits at the first one. -/
theorem takeWhile_quote_split (xs more : List Nat) :
    xs ++ 34 :: more =
      xs.takeWhile (fun c => decide (c ≠ 34)) ++
        34 :: (xs ++ 34 :: more).drop ((xs.takeWhile (fun c => decide (c ≠ 34))).length + 1) := by
  induction xs with
  | nil => simp
  | cons a xs ih =>
    by_cases ha : a = 34
    · subst ha
      simp
    · simp only [List.cons_append, ne_eq, ha, not_false_eq_true, decide_True,
        List.takeWhile_cons_of_pos, List.length_cons, List.drop_succ_cons, List.cons.injEq,
        true_and]
      exact ih

/-- The run of a written name holds neither a double quote nor a NUL. -/
theorem writtenNameRun_clean (name : List Nat) :
    ∀ c ∈ writtenNameRun name, c ≠ 34 ∧ c ≠ 0 := by
  intro c hc
  refine ⟨?_, ?_⟩
  · have := List.mem_takeWhile_imp hc
    simpa using this
  · exact WriteStringLoop_no_NUL name c ((List.takeWhile_sublist _).subset hc)

/-- A written name without a double quote has none between its quotes: its run
is the whole text between them. -/
theorem writtenNameRun_all (name : List Nat) (h : ∀ c ∈ name, c ≠ 34) :
    writtenNameRun name = WriteStringLoop name [] := by
  unfold writtenNameRun
  rw [List.takeWhile_eq_self_iff]
  intro c hc
  simpa using WriteStringLoop_no_quote name h c hc

/-- The run of a written name that holds a double quote or a backslash is not
the name. -/
theorem writtenNameRun_ne (name : List Nat) (h : 34 ∈ name ∨ 92 ∈ name) :
    writtenNameRun name ≠ name := by
  intro heq
  by_cases h34 : 34 ∈ name
  · rw [← heq] at h34
    exact (writtenNameRun_clean name 34 h34).1 rfl
  · by_cases h0 : 0 ∈ name
    · rw [← heq] at h0
      exact (writtenNameRun_clean name 0 h0).2 rfl
    · have h92 : 92 ∈ name := h.resolve_left h34
      have hall := writtenNameRun_all name (fun c hc hc34 => h34 (hc34 ▸ hc))
      have hlen := (WriteStringLoop_length name (fun c hc hc0 => h0 (hc0 ▸ hc))).2 h92
      rw [← hall, heq] at hlen
      omega

/-- The run of a written name free of NUL and of the seven escapable characters
is the name. -/
theorem writtenNameRun_eq (name : List Nat) (h : ∀ c ∈ name, c ≠ 0 ∧ escapeLetter c = none) :
    writtenNameRun name = name := by
  have h34 : ∀ c ∈ name, c ≠ 34 := by
    intro c hc hc34
    have := (h c hc).2
    rw [hc34] at this
    simp [escapeLetter] at this
  rw [writtenNameRun_all name h34, WriteStringLoop_eq name (fun c hc => (h c hc).1)]
  simp only [List.nil_append]
  clear h34
  induction name with
  | nil => rfl
  | cons a s ih =>
    have ha := (h a (List.mem_cons_self _ _)).2
    simp only [List.flatMap_cons, escapeOf, ha, List.singleton_append, List.cons.injEq, true_and]
    exact ih (fun d hd => h d (List.mem_cons_of_mem _ hd))

/-- What `WriteName` appends to a new writer. -/
theorem WriteName_new (name : List Nat) :
    Result (WriteName JsonWriter.new name) = 34 :: (WriteStringLoop name [] ++ [34, 58]) := by
  simp [WriteName, WriteNameWorker_eq, JsonWriter.new, Result]

/-- Reading the output of `WriteName` in state StartReadName: the loop comes to
state ReadColon with the run of the written name as the name. -/
theorem Passes_written_name (name tail : List Nat)
    (stk : List ParseNode) (blob : List Nat) (cur : Nat) (ty : NodeType)
    (val : List Nat) (iv : Int) (re sk : Bool) :
    Passes (Result (WriteName JsonWriter.new name) ++ tail)
      ⟨.StartReadName, stk, blob, cur, ty, [], val, iv, re, sk⟩
      ((Result (WriteName JsonWriter.new name) ++ tail).drop ((writtenNameRun name).length + 2))
      ⟨.ReadColon, stk, blob, cur + ((writtenNameRun name).length + 2), ty, writtenNameRun name,
        val, iv, re, sk⟩ := by
  rw [WriteName_new]
  have hsplit := takeWhile_quote_split (WriteStringLoop name []) (58 :: tail)
  have e : 34 :: (WriteStringLoop name [] ++ [34, 58]) ++ tail =
      34 :: (WriteStringLoop name [] ++ 34 :: 58 :: tail) := by simp
  rw [e]
  refine Passes.step _ _ (WriteStringLoop name [] ++ 34 :: 58 :: tail)
    ⟨.ReadName, stk, blob, cur + 1, ty, [], val, iv, re, sk⟩ _ _ (by simp [ReadStep, IsWhite]) ?_
  have hrun := Passes_name_run (writtenNameRun name)
    ((WriteStringLoop name [] ++ 34 :: 58 :: tail).drop ((writtenNameRun name).length + 1))
    (writtenNameRun_clean name) stk blob (cur + 1) ty [] val iv re sk
  unfold writtenNameRun at hrun ⊢
  rw [← hsplit] at hrun
  have e2 : cur + 1 + (List.takeWhile (fun c => decide (c ≠ 34)) (WriteStringLoop name [])).length
      + 1 = cur + ((List.takeWhile (fun c => decide (c ≠ 34)) (WriteStringLoop name [])).length + 2)
      := by omega
  rw [e2] at hrun
  simpa using hrun

/-- What the writer makes of an object opening followed by a pair of a name and
the integer 7. -/
theorem Result_object_pair (name : List Nat) :
    Result (WriteIntPair (WriteObjectValueStart JsonWriter.new) name 7) =
      10 :: 123 :: 34 :: (WriteStringLoop name [] ++ [34, 58, 55]) := by
  have h7 : i64toa 7 = [55] := by decide
  simp [WriteIntPair, WriteName, WriteNameWorker_eq, WriteObjectValueStart, WriteIntValue,
    JsonWriter.new, Result, h7]

/-- Reading back an object opening and a pair whose name holds neither a double
quote nor a NUL: the first call returns the Object token, the second the Int
token, named by what the writer put between the quotes. -/
theorem ReadNext_written_pair (name : List Nat) (hname : ∀ c ∈ name, c ≠ 34 ∧ c ≠ 0)
    (t : NodeType) (i : Int) (s : Bool) :
    ∃ r1 r2 : JsonReader,
      ReadNext (JsonReader.new
        (Result (WriteIntPair (WriteObjectValueStart JsonWriter.new) name 7)) t i s) =
          .ok (true, r1) ∧
      r1._Type = .Object ∧
      ReadNext r1 = .ok (true, r2) ∧
      r2._Type = .Int ∧ r2._IntValue = 7 ∧ r2._Name = WriteStringLoop name [] := by
  have hclean : ∀ c ∈ WriteStringLoop name [], c ≠ 34 ∧ c ≠ 0 := fun c hc =>
    ⟨WriteStringLoop_no_quote name (fun d hd => (hname d hd).1) c hc,
     WriteStringLoop_no_NUL name c hc⟩
  rw [Result_object_pair]
  generalize hX : WriteStringLoop name [] = X at hclean ⊢
  refine ⟨⟨.StartReadName, [⟨[], .Object⟩], 10 :: 123 :: 34 :: (X ++ [34, 58, 55]), 2, .Object,
    [], [], i, false, s⟩, ⟨.EndReadValue, [⟨[], .Object⟩], 10 :: 123 :: 34 :: (X ++ [34, 58, 55]),
    2 + 1 + X.length + 1 + 2, .Int, X, [55], 7, false, s⟩, ?_, rfl, ?_, rfl, rfl, rfl⟩
  · simp [JsonReader.new, InitState, ReadNext, ReadLoop, IsWhite]
  · have hp := Passes_ReadLoop _ _ _ _ (Passes_name_run X [58, 55] hclean [⟨[], .Object⟩]
      (10 :: 123 :: 34 :: (X ++ [34, 58, 55])) (2 + 1) .Object [] [] i false s)
    have h7 : atoi64 [55] = 7 := by decide
    simp only [ReadNext, Bool.false_eq_true, if_false, List.drop_succ_cons, List.drop_zero]
    simp only [ReadLoop, IsWhite]
    simp only [List.nil_append] at hp
    simp [hp, ReadLoop, IsWhite, isDigit, PeekChar, h7]

/-- `WriteStringValue` appends the quoted text of the value. -/
theorem WriteStringValue_Result (w : JsonWriter) (v : List Nat) :
    Result (WriteStringValue w v) = Result w ++ quoted v := by
  simp [WriteStringValue, WriteString_eq, Result, quoted]

/-- `WriteName` appends the pending comma, the quoted text of the name and a
colon. -/
theorem WriteName_Result (w : JsonWriter) (name : List Nat) :
    Result (WriteName w name) =
      Result w ++ ((if w._AddSep then [44] else []) ++ (quoted name ++ [58])) := by
  simp [WriteName, WriteNameWorker_eq, Result, quoted]

/-- C18, counterexample: the bytes of a name region are not all copied when one
of them is NUL.  In the nine bytes `{"a`, NUL, `b":1}` the bytes up to the first
double quote after the opening one are `a`, NUL, `b`.  The call after the
Object token stops at the NUL and returns false with the name `a`; the call
after that starts the name afresh and returns the Int token with the name `b`. -/
theorem ReadName_NUL_not_copied :
    ReadNext (JsonReader.new [123, 34, 97, 0, 98, 34, 58, 49, 125] .None 0 false) =
      .ok (true, ⟨.StartReadName, [⟨[], .Object⟩], [123, 34, 97, 0, 98, 34, 58, 49, 125], 1,
        .Object, [], [], 0, false, false⟩) ∧
    ReadNext ⟨.StartReadName, [⟨[], .Object⟩], [123, 34, 97, 0, 98, 34, 58, 49, 125], 1,
        .Object, [], [], 0, false, false⟩ =
      .ok (false, ⟨.ReadName, [⟨[], .Object⟩], [123, 34, 97, 0, 98, 34, 58, 49, 125], 4,
        .Object, [97], [], 0, false, false⟩) ∧
    ReadNext ⟨.ReadName, [⟨[], .Object⟩], [123, 34, 97, 0, 98, 34, 58, 49, 125], 4,
        .Object, [97], [], 0, false, false⟩ =
      .ok (true, ⟨.EndReadValue, [⟨[], .Object⟩], [123, 34, 97, 0, 98, 34, 58, 49, 125], 8,
        .Int, [98], [49], 1, false, false⟩) :=
  ⟨rfl, rfl, rfl⟩

/-- C18 (amended): field names are not unescaped.  In state ReadName the bytes
up to the first double quote, when none of them is NUL, are copied into the
name as they are, a backslash like any other byte, and the quote leads to state
ReadColon; a NUL byte before the quote ends the call, which returns false.
`JsonWriter` escapes a name as it escapes a string value: both put the same
quoted text.  Reading the output of `WriteName` from state StartReadName, the
loop comes to state ReadColon with the name equal to what the writer put
between the quotes up to the first double quote there; for a name without a
double quote and without NUL the Int token of a written pair carries that name.
That name is not the written name when the written name holds a double quote
or a backslash; it is the written name when the written name is free of NUL
and of the seven escapable characters. -/
theorem names_read_verbatim_written_escaped :
    (∀ (run rest : List Nat) (stk : List ParseNode) (blob : List Nat) (cur : Nat)
        (ty : NodeType) (nm val : List Nat) (iv : Int) (re sk : Bool),
      (∀ c ∈ run, c ≠ 34 ∧ c ≠ 0) →
      Passes (run ++ 34 :: rest) ⟨.ReadName, stk, blob, cur, ty, nm, val, iv, re, sk⟩
        rest ⟨.ReadColon, stk, blob, cur + run.length + 1, ty, nm ++ run, val, iv, re, sk⟩ ∧
      ReadLoop (run ++ 0 :: rest) ⟨.ReadName, stk, blob, cur, ty, nm, val, iv, re, sk⟩ =
        .ok (false,
          ⟨.ReadName, stk, blob, cur + run.length + 1, ty, nm ++ run, val, iv, re, sk⟩)) ∧
    (∀ (w : JsonWriter) (name : List Nat),
      Result (WriteName w name) =
        Result w ++ ((if w._AddSep then [44] else []) ++ (quoted name ++ [58])) ∧
      Result (WriteStringValue w name) = Result w ++ quoted name) ∧
    (∀ (name tail : List Nat) (stk : List ParseNode) (blob : List Nat) (cur : Nat)
        (ty : NodeType) (val : List Nat) (iv : Int) (re sk : Bool),
      Passes (Result (WriteName JsonWriter.new name) ++ tail)
        ⟨.StartReadName, stk, blob, cur, ty, [], val, iv, re, sk⟩
        ((Result (WriteName JsonWriter.new name) ++ tail).drop ((writtenNameRun name).length + 2))
        ⟨.ReadColon, stk, blob, cur + ((writtenNameRun name).length + 2), ty,
          writtenNameRun name, val, iv, re, sk⟩) ∧
    (∀ (name : List Nat), (∀ c ∈ name, c ≠ 34 ∧ c ≠ 0) →
      ∀ (t : NodeType) (i : Int) (s : Bool), ∃ r1 r2 : JsonReader,
        ReadNext (JsonReader.new
          (Result (WriteIntPair (WriteObjectValueStart JsonWriter.new) name 7)) t i s) =
            .ok (true, r1) ∧
        r1._Type = .Object ∧
        ReadNext r1 = .ok (true, r2) ∧
        r2._Type = .Int ∧ r2._IntValue = 7 ∧ r2._Name = writtenNameRun name) ∧
    (∀ name : List Nat, (34 ∈ name ∨ 92 ∈ name) → writtenNameRun name ≠ name) ∧
    (∀ name : List Nat, (∀ c ∈ name, c ≠ 0 ∧ escapeLetter c = none) →
      writtenNameRun name = name) := by
  refine ⟨?_, ?_, ?_, ?_, ?_, ?_⟩
  · intro run rest stk blob cur ty nm val iv re sk hrun
    exact ⟨Passes_name_run run rest hrun stk blob cur ty nm val iv re sk,
      ReadLoop_name_NUL run rest hrun stk blob cur ty nm val iv re sk⟩
  · intro w name
    exact ⟨WriteName_Result w name, WriteStringValue_Result w name⟩
  · intro name tail stk blob cur ty val iv re sk
    exact Passes_written_name name tail stk blob cur ty val iv re sk
  · intro name hname t i s
    rw [writtenNameRun_all name (fun c hc => (hname c hc).1)]
    exact ReadNext_written_pair name hname t i s
  · exact writtenNameRun_ne
  · exact writtenNameRun_eq

/-- C18, witness: the name `a\\b` (a, backslash, b) is written with the backslash
doubled, and the doubled form is what is read back. -/
theorem names_read_verbatim_written_escaped_witness :
    writtenNameRun [97, 92, 98] = [97, 92, 92, 98] ∧
    writtenNameRun [97, 92, 98] ≠ [97, 92, 98] :=
  ⟨by decide, names_read_verbatim_written_escaped.2.2.2.2.1 [97, 92, 98] (by decide)⟩

end Json
